import Mathlib

/-!
# lolivimson: a reader and writer for Vim-script style data

A shallow embedding of `src/lolivimson.hpp`.

* A `std::string` is a `List Char`, one `Char` per byte.
* The cursor `input` is the buffer `_in` with the read offset `_i`.  `_i` is an `int`
  in the source; it never exceeds the buffer length, so it is a `Nat` here (buffers are
  taken to be shorter than `2^31` bytes).  The one place where unsigned wrap-around is
  reached, `input::remaining`, is computed modulo `2^64` (`size_t` of an LP64 platform).
* A C++ function that reads the cursor and may throw becomes a function
  `input → Except thrown (result × input)`.
* `while`/`for`/`do` loops become recursive functions on a fuel argument.  The loops of
  the leaf readers take their fuel from the number of unread bytes; the mutually recursive
  readers `parse_value`, `parse_list`, `parse_dictionary` share one fuel argument, which
  `parse` supplies.  Running out of fuel is reported as `thrown.no_fuel`, a result that
  no run of the program has.
* `strtod` and `operator<<` on `double` belong to the platform library.  A `double` is
  kept as the text that `strtod` was applied to (`float_t`), and the writer takes the
  platform's printing routine as an argument.
-/

namespace lolivimson

/-! ## Exceptions -/

/-- The exceptions a reader can leave with: the `parse_exception` of the source, the
`std::out_of_range` of `std::string::at`, and the embedding's fuel exhaustion. -/
inductive thrown where
  | parse_exception (pos : Nat) (mes : String)
  | out_of_range
  | no_fuel
  deriving DecidableEq, Repr

/-! ## The cursor -/

/-- The class `input`: the buffer and the read offset. -/
structure input where
  _in : List Char
  _i : Nat
  deriving DecidableEq, Repr

/-- The four bytes `input::skip` steps over. -/
def is_ws (c : Char) : Bool :=
  c == ' ' || c == '\t' || c == '\r' || c == '\n'

/-- The loop of `input::skip`; the fuel is the number of unread bytes. -/
def skip_loop : Nat → input → input
  | 0, s => s
  | f + 1, s =>
    if s._i < s._in.length then
      match s._in[s._i]? with
      | some c => if is_ws c then skip_loop f { s with _i := s._i + 1 } else s
      | none => s
    else s

/-- The member `input::skip`. -/
def input.skip (s : input) : input :=
  skip_loop (s._in.length - s._i) s

/-- The member `input::match(char, int)`. -/
def input.match_at (s : input) (c : Char) (offset : Nat) : Except thrown (Bool × input) :=
  if ¬ (s._i + offset < s._in.length) then
    .ok (false, s)
  else
    let s1 := s.skip
    match s1._in[s1._i + offset]? with
    | some d => .ok (d == c, s1)
    | none => .error thrown.out_of_range

/-- The member `input::match(char)`. -/
def input.match_ (s : input) (c : Char) : Except thrown (Bool × input) :=
  s.match_at c 0

/-- The member `input::match_any(std::string const&, int)`. -/
def input.match_any_at (s : input) : List Char → Nat → Except thrown (Bool × input)
  | [], _ => .ok (false, s)
  | c :: cs, offset =>
    match s.match_at c offset with
    | .error e => .error e
    | .ok (true, s1) => .ok (true, s1)
    | .ok (false, s1) => s1.match_any_at cs offset

/-- The member `input::match_any(std::string const&)`. -/
def input.match_any (s : input) (chars : List Char) : Except thrown (Bool × input) :=
  s.match_any_at chars 0

/-- The member `input::getc`. -/
def input.getc (s : input) : Except thrown (Char × input) :=
  if ¬ (s._i < s._in.length) then
    .error (thrown.parse_exception s._i "eof")
  else
    match s._in[s._i]? with
    | some c => .ok (c, { s with _i := s._i + 1 })
    | none => .error thrown.out_of_range

/-- The member `input::position`. -/
def input.position (s : input) : Nat := s._i

/-- The member `input::remaining`: `_in.length() - (_i + 1)` in `size_t`. -/
def input.remaining (s : input) : Nat :=
  (s._in.length + 2 ^ 64 - (s._i + 1)) % 2 ^ 64

/-- The number of unread bytes plus one: enough fuel for a loop that reads a byte in
every round. -/
def input.fuel (s : input) : Nat := s._in.length - s._i + 1

/-! ## Values -/

/-- The type `float_t`: a `double`, kept as the text `strtod` is applied to. -/
structure float_t where
  strtod_arg : List Char
  deriving DecidableEq, Repr

/-- The library routine `strtod`, kept symbolic. -/
def strtod (s : List Char) : float_t := ⟨s⟩

/-- The type `string_t`. -/
abbrev string_t := List Char

/-- The type `number_t`, a 32-bit signed integer. -/
abbrev number_t := Int

/-- The class `value`: the tag together with the payload it selects.  A `dictionary_t`,
a `std::map`, is the list of its entries in iteration order. -/
inductive value where
  | number (n : number_t)
  | string (s : string_t)
  | list (xs : List value)
  | dictionary (d : List (string_t × value))
  | float (f : float_t)

/-- The type `list_t`. -/
abbrev list_t := List value

/-- The type `dictionary_t`. -/
abbrev dictionary_t := List (string_t × value)

/-- The order `std::string::operator<`: bytes compared as unsigned, a proper initial
segment first. -/
def string_lt : string_t → string_t → Bool
  | [], [] => false
  | [], _ :: _ => true
  | _ :: _, [] => false
  | a :: as, b :: bs =>
    if a.toNat < b.toNat then true
    else if b.toNat < a.toNat then false
    else string_lt as bs

/-- The assignment `buf[key]= v` on a `std::map`: the entry is put at its place in key
order, or replaces the entry that has the key. -/
def dictionary_assign (k : string_t) (v : value) : dictionary_t → dictionary_t
  | [] => [(k, v)]
  | (k1, v1) :: rest =>
    if string_lt k k1 then (k, v) :: (k1, v1) :: rest
    else if string_lt k1 k then (k1, v1) :: dictionary_assign k v rest
    else (k, v) :: rest

/-! ## Writing -/

/-- The decimal digit for `d < 10`. -/
def digit_char (d : Nat) : Char := Char.ofNat (48 + d)

/-- The digits of `n`, most significant first, in front of `acc`. -/
def put_digits : Nat → Nat → List Char → List Char
  | 0, _, acc => acc
  | f + 1, n, acc =>
    if n / 10 = 0 then digit_char (n % 10) :: acc
    else put_digits f (n / 10) (digit_char (n % 10) :: acc)

/-- The text `operator<<` writes for an `int32_t`. -/
def ostream_int (n : number_t) : List Char :=
  if n < 0 then '-' :: put_digits (n.natAbs + 1) n.natAbs []
  else put_digits (n.natAbs + 1) n.natAbs []

/-- The function `serialize_number`; `out` is the buffer behind the output iterator. -/
def serialize_number (n : number_t) (out : List Char) : List Char :=
  out ++ ostream_int n

/-- The loop of `serialize_string`. -/
def serialize_string_loop : List Char → List Char → List Char
  | [], oi => oi
  | c :: cs, oi =>
    if c = '\\' then serialize_string_loop cs ((oi ++ ['\\']) ++ ['\\'])
    else if c = '\'' then serialize_string_loop cs ((oi ++ ['\'']) ++ ['\''])
    else if c = '\n' then serialize_string_loop cs ((oi ++ ['\\']) ++ ['n'])
    else if c = '\r' then serialize_string_loop cs ((oi ++ ['\\']) ++ ['r'])
    else if c = '\t' then serialize_string_loop cs ((oi ++ ['\\']) ++ ['t'])
    else serialize_string_loop cs (oi ++ [c])

/-- The function `serialize_string`. -/
def serialize_string (s : string_t) (oi : List Char) : List Char :=
  serialize_string_loop s (oi ++ ['\'']) ++ ['\'']

/-- The function `serialize_float`; `fmt` is the text `operator<<` writes for a
`double`. -/
def serialize_float (fmt : float_t → List Char) (f : float_t) (out : List Char) : List Char :=
  out ++ fmt f

mutual
/-- The member `value::serialize(Iter)`. -/
def value.serialize_to (fmt : float_t → List Char) : value → List Char → List Char
  | .number n, oi => serialize_number n oi
  | .string s, oi => serialize_string s oi
  | .list xs, oi => serialize_list_loop fmt xs (oi ++ ['[']) ++ [']']
  | .dictionary d, oi => serialize_dictionary_loop fmt d (oi ++ ['{']) ++ ['}']
  | .float f, oi => serialize_float fmt f oi
/-- The loop of `serialize_list`. -/
def serialize_list_loop (fmt : float_t → List Char) : List value → List Char → List Char
  | [], out => out
  | elm :: rest, out => serialize_list_loop fmt rest (value.serialize_to fmt elm out ++ [','])
/-- The loop of `serialize_dictionary`. -/
def serialize_dictionary_loop (fmt : float_t → List Char) :
    List (string_t × value) → List Char → List Char
  | [], out => out
  | (k, v) :: rest, out =>
    serialize_dictionary_loop fmt rest
      (value.serialize_to fmt v (serialize_string k out ++ [':']) ++ [','])
end

/-- The function `serialize_list`. -/
def serialize_list (fmt : float_t → List Char) (xs : list_t) (out : List Char) : List Char :=
  serialize_list_loop fmt xs (out ++ ['[']) ++ [']']

/-- The function `serialize_dictionary`. -/
def serialize_dictionary (fmt : float_t → List Char) (d : dictionary_t) (out : List Char) :
    List Char :=
  serialize_dictionary_loop fmt d (out ++ ['{']) ++ ['}']

/-- The member `value::serialize()`. -/
def value.serialize (fmt : float_t → List Char) (v : value) : List Char :=
  v.serialize_to fmt []

/-! ## Reading numbers -/

/-- The bytes `isspace` accepts in the C locale. -/
def c_isspace (c : Char) : Bool :=
  c == ' ' || c == '\t' || c == '\n' || c == '\r' || c.toNat == 11 || c.toNat == 12

/-- The bytes `isdigit` accepts. -/
def c_isdigit (c : Char) : Bool := decide (48 ≤ c.toNat) && decide (c.toNat ≤ 57)

/-- The number a run of decimal digits stands for, continuing from `acc`. -/
def digits_value (acc : Nat) : List Char → Nat
  | [] => acc
  | c :: cs => digits_value (acc * 10 + (c.toNat - 48)) cs

/-- The library routine `strtol(s, nullptr, 10)` for a 64-bit `long`: leading blanks, an
optional sign, the longest run of digits; a value out of range is replaced by the nearest
bound; no digits give 0. -/
def strtol (s : List Char) : Int :=
  let s1 := s.dropWhile c_isspace
  let body : Bool × List Char :=
    match s1 with
    | [] => (false, [])
    | c :: r => if c = '-' then (true, r) else if c = '+' then (false, r) else (false, c :: r)
  let n : Int := (digits_value 0 (body.2.takeWhile c_isdigit) : Nat)
  let x : Int := if body.1 then -n else n
  if x < -(2 ^ 63) then -(2 ^ 63) else if 2 ^ 63 - 1 < x then 2 ^ 63 - 1 else x

/-- The conversion of a `long` to `int32_t`: the low 32 bits, read as signed. -/
def to_int32 (x : Int) : Int := (x + 2 ^ 31) % 2 ^ 32 - 2 ^ 31

/-- The digits `"0123456789"`. -/
def digits : List Char := ['0', '1', '2', '3', '4', '5', '6', '7', '8', '9']

/-- The digits and the point, `"0123456789."`. -/
def digits_dot : List Char := digits ++ ['.']

/-- The `do ... while(in.match_any(chars))` loop shared by `parse_number` and
`parse_float`; `buf` is the text written to the string stream so far. -/
def parse_digits_loop (chars : List Char) : Nat → input → List Char →
    Except thrown (List Char × input)
  | 0, _, _ => .error thrown.no_fuel
  | f + 1, s, buf =>
    match s.getc with
    | .error e => .error e
    | .ok (c, s1) =>
      match s1.match_any chars with
      | .error e => .error e
      | .ok (true, s2) => parse_digits_loop chars f s2 (buf ++ [c])
      | .ok (false, s2) => .ok (buf ++ [c], s2)

/-- The text `parse_number` and `parse_float` collect: an optional `-`, then the loop. -/
def parse_sign_digits (chars : List Char) (s : input) : Except thrown (List Char × input) :=
  match s.match_ '-' with
  | .error e => .error e
  | .ok (true, s1) =>
    match s1.getc with
    | .error e => .error e
    | .ok (c, s2) => parse_digits_loop chars s2.fuel s2 [c]
  | .ok (false, s1) => parse_digits_loop chars s1.fuel s1 []

/-- The function `parse_number`. -/
def parse_number (s : input) : Except thrown (number_t × input) :=
  match parse_sign_digits digits s with
  | .error e => .error e
  | .ok (buf, s1) => .ok (to_int32 (strtol buf), s1)

/-- The function `parse_float`. -/
def parse_float (s : input) : Except thrown (float_t × input) :=
  match parse_sign_digits digits_dot s with
  | .error e => .error e
  | .ok (buf, s1) => .ok (strtod buf, s1)

/-- The `for` loop of `parse_number_or_float`: `true` when it leaves through
`return value(parse_float(in))`, `false` when it ends or breaks. -/
def scan_for_dot : Nat → input → Nat → Except thrown (Bool × input)
  | 0, _, _ => .error thrown.no_fuel
  | f + 1, s, offset =>
    if ¬ (offset < s.remaining) then .ok (false, s)
    else
      match s.match_at '.' offset with
      | .error e => .error e
      | .ok (true, s1) => .ok (true, s1)
      | .ok (false, s1) =>
        match s1.match_any_at digits offset with
        | .error e => .error e
        | .ok (false, s2) => .ok (false, s2)
        | .ok (true, s2) => scan_for_dot f s2 (offset + 1)

/-- The function `parse_number_or_float`. -/
def parse_number_or_float (s : input) : Except thrown (value × input) :=
  match scan_for_dot (s._in.length + 1) s 0 with
  | .error e => .error e
  | .ok (true, s1) =>
    match parse_float s1 with
    | .error e => .error e
    | .ok (x, s2) => .ok (value.float x, s2)
  | .ok (false, s1) =>
    match parse_number s1 with
    | .error e => .error e
    | .ok (n, s2) => .ok (value.number n, s2)

/-! ## Reading strings -/

/-- The `while(1)` loop of the single-quoted branch of `parse_string`. -/
def parse_squote_loop : Nat → input → List Char → Except thrown (List Char × input)
  | 0, _, _ => .error thrown.no_fuel
  | f + 1, s, buf =>
    let doubled : Except thrown (Bool × input) :=
      match s.match_ '\'' with
      | .error e => .error e
      | .ok (false, s1) => .ok (false, s1)
      | .ok (true, s1) => s1.match_at '\'' 1
    match doubled with
    | .error e => .error e
    | .ok (d, s2) =>
      let taken : Except thrown (List Char × input) :=
        if d then
          match s2.getc with
          | .error e => .error e
          | .ok (_, s3) =>
            match s3.getc with
            | .error e => .error e
            | .ok (_, s4) => .ok (buf ++ ['\''], s4)
        else .ok (buf, s2)
      match taken with
      | .error e => .error e
      | .ok (buf1, s5) =>
        match s5.match_ '\'' with
        | .error e => .error e
        | .ok (true, s6) => .ok (buf1, s6)
        | .ok (false, s6) =>
          match s6.getc with
          | .error e => .error e
          | .ok (c, s7) => parse_squote_loop f s7 (buf1 ++ [c])

/-- The `while(1)` loop of the double-quoted branch of `parse_string`. -/
def parse_dquote_loop : Nat → input → List Char → Except thrown (List Char × input)
  | 0, _, _ => .error thrown.no_fuel
  | f + 1, s, buf =>
    match s.match_ '\\' with
    | .error e => .error e
    | .ok (true, s1) =>
      match s1.getc with
      | .error e => .error e
      | .ok (_, s2) =>
        match s2.getc with
        | .error e => .error e
        | .ok (c, s3) =>
          if c = '\\' then parse_dquote_loop f s3 (buf ++ ['\\'])
          else if c = '"' then parse_dquote_loop f s3 (buf ++ ['"'])
          else if c = 't' then parse_dquote_loop f s3 (buf ++ ['\t'])
          else if c = 'r' then parse_dquote_loop f s3 (buf ++ ['\r'])
          else if c = 'n' then parse_dquote_loop f s3 (buf ++ ['\n'])
          else .error (thrown.parse_exception (s3.position - 1) "illegal escape character")
    | .ok (false, s1) =>
      match s1.match_ '"' with
      | .error e => .error e
      | .ok (true, s2) => .ok (buf, s2)
      | .ok (false, s2) =>
        match s2.getc with
        | .error e => .error e
        | .ok (c, s3) => parse_dquote_loop f s3 (buf ++ [c])

/-- What follows either loop of `parse_string`: the closing delimiter `q` is read, or
the exception `mes` is thrown at the cursor. -/
def parse_closing (q : Char) (mes : String) (buf : List Char) (s : input) :
    Except thrown (string_t × input) :=
  match s.match_ q with
  | .error e => .error e
  | .ok (true, s1) =>
    match s1.getc with
    | .error e => .error e
    | .ok (_, s2) => .ok (buf, s2)
  | .ok (false, s1) => .error (thrown.parse_exception s1.position mes)

/-- The function `parse_string`. -/
def parse_string (s : input) : Except thrown (string_t × input) :=
  match s.match_ '\'' with
  | .error e => .error e
  | .ok (true, s1) =>
    match s1.getc with
    | .error e => .error e
    | .ok (_, s2) =>
      match parse_squote_loop s2.fuel s2 [] with
      | .error e => .error e
      | .ok (buf, s3) => parse_closing '\'' "expected '" buf s3
  | .ok (false, s1) =>
    match s1.match_ '"' with
    | .error e => .error e
    | .ok (true, s2) =>
      match s2.getc with
      | .error e => .error e
      | .ok (_, s3) =>
        match parse_dquote_loop s3.fuel s3 [] with
        | .error e => .error e
        | .ok (buf, s4) => parse_closing '"' "expected \"" buf s4
    | .ok (false, s2) => .error (thrown.parse_exception s2.position "expected ' or \"")

/-! ## Reading lists, dictionaries and values -/

mutual
/-- The function `parse_value`. -/
def parse_value : Nat → input → Except thrown (value × input)
  | 0, _ => .error thrown.no_fuel
  | f + 1, s =>
    match s.match_ '{' with
    | .error e => .error e
    | .ok (true, s1) =>
      match parse_dictionary f s1 with
      | .error e => .error e
      | .ok (d, s2) => .ok (value.dictionary d, s2)
    | .ok (false, s1) =>
      match s1.match_ '[' with
      | .error e => .error e
      | .ok (true, s2) =>
        match parse_list f s2 with
        | .error e => .error e
        | .ok (xs, s3) => .ok (value.list xs, s3)
      | .ok (false, s2) =>
        let quoted : Except thrown (Bool × input) :=
          match s2.match_ '\'' with
          | .error e => .error e
          | .ok (true, s3) => .ok (true, s3)
          | .ok (false, s3) => s3.match_ '"'
        match quoted with
        | .error e => .error e
        | .ok (true, s4) =>
          match parse_string s4 with
          | .error e => .error e
          | .ok (str, s5) => .ok (value.string str, s5)
        | .ok (false, s4) => parse_number_or_float s4
/-- The function `parse_list`. -/
def parse_list : Nat → input → Except thrown (list_t × input)
  | 0, _ => .error thrown.no_fuel
  | f + 1, s =>
    match s.match_ '[' with
    | .error e => .error e
    | .ok (false, s1) => .error (thrown.parse_exception s1.position "expected [")
    | .ok (true, s1) =>
      match s1.getc with
      | .error e => .error e
      | .ok (_, s2) =>
        match parse_list_loop f s2 [] with
        | .error e => .error e
        | .ok (buf, s3) =>
          match s3.match_ ']' with
          | .error e => .error e
          | .ok (true, s4) =>
            match s4.getc with
            | .error e => .error e
            | .ok (_, s5) => .ok (buf, s5)
          | .ok (false, s4) => .error (thrown.parse_exception s4.position "expected ]")
/-- The `while(!in.match(']'))` loop of `parse_list`. -/
def parse_list_loop : Nat → input → list_t → Except thrown (list_t × input)
  | 0, _, _ => .error thrown.no_fuel
  | f + 1, s, buf =>
    match s.match_ ']' with
    | .error e => .error e
    | .ok (true, s1) => .ok (buf, s1)
    | .ok (false, s1) =>
      match parse_value f s1 with
      | .error e => .error e
      | .ok (v, s2) =>
        match s2.match_ ',' with
        | .error e => .error e
        | .ok (true, s3) =>
          match s3.getc with
          | .error e => .error e
          | .ok (_, s4) => parse_list_loop f s4 (buf ++ [v])
        | .ok (false, s3) => parse_list_loop f s3 (buf ++ [v])
/-- The function `parse_dictionary`. -/
def parse_dictionary : Nat → input → Except thrown (dictionary_t × input)
  | 0, _ => .error thrown.no_fuel
  | f + 1, s =>
    match s.match_ '{' with
    | .error e => .error e
    | .ok (false, s1) => .error (thrown.parse_exception s1.position "expected \x7b")
    | .ok (true, s1) =>
      match s1.getc with
      | .error e => .error e
      | .ok (_, s2) =>
        match parse_dictionary_loop f s2 [] with
        | .error e => .error e
        | .ok (buf, s3) =>
          match s3.match_ '}' with
          | .error e => .error e
          | .ok (true, s4) =>
            match s4.getc with
            | .error e => .error e
            | .ok (_, s5) => .ok (buf, s5)
          | .ok (false, s4) => .error (thrown.parse_exception s4.position "expected \x7d")
/-- The `while(!in.match('}'))` loop of `parse_dictionary`. -/
def parse_dictionary_loop : Nat → input → dictionary_t → Except thrown (dictionary_t × input)
  | 0, _, _ => .error thrown.no_fuel
  | f + 1, s, buf =>
    match s.match_ '}' with
    | .error e => .error e
    | .ok (true, s1) => .ok (buf, s1)
    | .ok (false, s1) =>
      match parse_string s1 with
      | .error e => .error e
      | .ok (key, s2) =>
        match s2.match_ ':' with
        | .error e => .error e
        | .ok (false, s3) => .error (thrown.parse_exception s3.position "expected :")
        | .ok (true, s3) =>
          match s3.getc with
          | .error e => .error e
          | .ok (_, s4) =>
            match parse_value f s4 with
            | .error e => .error e
            | .ok (v, s5) =>
              match s5.match_ ',' with
              | .error e => .error e
              | .ok (true, s6) =>
                match s6.getc with
                | .error e => .error e
                | .ok (_, s7) => parse_dictionary_loop f s7 (dictionary_assign key v buf)
              | .ok (false, s6) => parse_dictionary_loop f s6 (dictionary_assign key v buf)
end

/-! ## The entry point -/

/-- How a call of `parse` can fail: with the formatted diagnostic it throws as a
`std::string`, with a `std::out_of_range` that passes through it, or by the embedding's
fuel exhaustion. -/
inductive failure where
  | diagnostic (text : List Char)
  | out_of_range
  | no_fuel
  deriving DecidableEq, Repr

/-- The loop of the handler that copies the bytes `begin_idx ≤ i < end_idx` of the input,
a line break as a blank.  The index is an `int`; `std::string::at` throws for an index
that is negative or past the end. -/
def window_loop (text : List Char) : Nat → Int → Int → List Char → Except failure (List Char)
  | 0, _, _, mes => .ok mes
  | f + 1, i, end_idx, mes =>
    if i < end_idx then
      if i < 0 then .error failure.out_of_range
      else
        match text[i.toNat]? with
        | none => .error failure.out_of_range
        | some c =>
          if c ≠ '\r' ∧ c ≠ '\n' then window_loop text f (i + 1) end_idx (mes ++ [c])
          else window_loop text f (i + 1) end_idx (mes ++ [' '])
    else .ok mes

/-- The handler of `parse` once `begin_idx` and `end_idx` are computed: the window copied
by the loop, a line break, `npaddings = pos - begin_idx` blanks, the caret and the
message. -/
def format_window (text : List Char) (pos : Nat) (mes : String) (begin_idx end_idx : Int) :
    Except failure (List Char) :=
  match window_loop text (end_idx - begin_idx).toNat begin_idx end_idx [] with
  | .error e => .error e
  | .ok window =>
    let npaddings : Int := (pos : Int) - begin_idx
    .ok (window ++ ['\n'] ++ List.replicate npaddings.toNat ' ' ++ ['^', ' '] ++ mes.toList ++ ['\n'])

/-- The handler of `parse`: the diagnostic for a `parse_exception` at `pos` with the
message `mes`, with `begin_idx = std::min(pos - 5, 0)` and
`end_idx = std::min(pos + 5, size() - 1)`. -/
def format_diagnostic (text : List Char) (pos : Nat) (mes : String) : Except failure (List Char) :=
  let begin_idx : Int := min ((pos : Int) - 5) 0
  let end_idx : Int := min ((pos : Int) + 5) (to_int32 ((text.length + 2 ^ 64 - 1) % 2 ^ 64 : Nat))
  format_window text pos mes begin_idx end_idx

/-- The fuel `parse` gives to `parse_value`: three units for every byte of the input,
and three more. -/
def parse_fuel (text : List Char) : Nat := 3 * text.length + 3

/-- The function `parse`. -/
def parse (text : List Char) : Except failure value :=
  match parse_value (parse_fuel text) ⟨text, 0⟩ with
  | .ok (v, _) => .ok v
  | .error (thrown.parse_exception pos mes) =>
    match format_diagnostic text pos mes with
    | .error e => .error e
    | .ok d => .error (failure.diagnostic d)
  | .error thrown.out_of_range => .error failure.out_of_range
  | .error thrown.no_fuel => .error failure.no_fuel

/-! ## The written form, in the words of the specification -/

/-- The text one byte of a string is written as: a backslash and a single quote are
doubled, a newline, a carriage return and a tab become a backslash with `n`, `r`, `t`,
every other byte is itself. -/
def spec_escape (c : Char) : List Char :=
  if c = '\\' then ['\\', '\\']
  else if c = '\'' then ['\'', '\'']
  else if c = '\n' then ['\\', 'n']
  else if c = '\r' then ['\\', 'r']
  else if c = '\t' then ['\\', 't']
  else [c]

/-- The dictionary a sequence of assignments `buf[key]= v` builds from the empty one. -/
def dictionary_of (es : List (string_t × value)) : dictionary_t :=
  es.foldl (fun d e => dictionary_assign e.1 e.2 d) []

/-- The keys of a dictionary in iteration order. -/
def dictionary_keys (d : dictionary_t) : List string_t := d.map Prod.fst

/-- A sample `operator<<` for a `double`, for examples that hold no `double`: the text the
number was read from. -/
def sample_fmt : float_t → List Char := fun f => f.strtod_arg

/-- The default-constructed `value`, the number 0. -/
instance : Inhabited value := ⟨value.number 0⟩

/-! ## The cursor between two pieces of text -/

/-- The cursor over the buffer `pre ++ post` that has read `pre`. -/
def cur (pre post : List Char) : input := ⟨pre ++ post, pre.length⟩

/-- The text `rest` ends a run of the bytes `chars`: it is empty, or starts with a byte
that is neither skipped nor one of `chars`. -/
def ends_run (chars : List Char) (rest : List Char) : Prop :=
  rest = [] ∨ ∃ r rs, rest = r :: rs ∧ is_ws r = false ∧ r ∉ chars

/-- The 32-bit signed integers. -/
def is_int32 (n : Int) : Prop := -(2 ^ 31) ≤ n ∧ n < 2 ^ 31

/-! ## The body of a double-quoted literal -/

/-- One item of the body of a double-quoted literal: a byte that stands for itself, or one
of the five escapes. -/
inductive dq_item where
  | plain (c : Char)
  | backslash
  | dquote
  | tab
  | cr
  | lf

/-- The text an item is written as in the literal. -/
def dq_item.text : dq_item → List Char
  | .plain c => [c]
  | .backslash => ['\\', '\\']
  | .dquote => ['\\', '"']
  | .tab => ['\\', 't']
  | .cr => ['\\', 'r']
  | .lf => ['\\', 'n']

/-- The byte an item stands for. -/
def dq_item.byte : dq_item → Char
  | .plain c => c
  | .backslash => '\\'
  | .dquote => '"'
  | .tab => '\t'
  | .cr => '\r'
  | .lf => '\n'

/-- A byte that stands for itself is not skipped by the cursor and is neither a backslash
nor a double quote. -/
def dq_item.wf : dq_item → Prop
  | .plain c => is_ws c = false ∧ c ≠ '\\' ∧ c ≠ '"'
  | _ => True

/-- The double-quoted literal with the body `items`. -/
def dq_literal (items : List dq_item) : List Char :=
  '"' :: ((items.map dq_item.text).flatten ++ ['"'])

/-! ## Values that are read back as written -/

/-- Some two neighbouring bytes of the string are both single quotes. -/
def adjacent_quotes : List Char → Bool
  | a :: b :: cs => (a == '\'' && b == '\'') || adjacent_quotes (b :: cs)
  | _ => false

/-- The text one byte of a string is written as inside a single-quoted literal: a single
quote is doubled, every other byte (a backslash too) is itself. -/
def sq_escape (c : Char) : List Char :=
  if c = '\'' then ['\'', '\''] else [c]

/-- The single-quoted literal for the string `s`. -/
def sq_literal (s : string_t) : List Char :=
  '\'' :: ((s.map sq_escape).flatten ++ ['\''])

/-- A string without a blank, tab, carriage return or newline and without two neighbouring
single quotes. -/
def sq_plain (s : string_t) : Prop :=
  (∀ c ∈ s, is_ws c = false) ∧ adjacent_quotes s = false

/-- A string without a blank, tab, carriage return, newline or backslash and without two
neighbouring single quotes. -/
def plain_string (s : string_t) : Prop :=
  (∀ c ∈ s, is_ws c = false ∧ c ≠ '\\') ∧ adjacent_quotes s = false

/-- The keys of the entries are strictly ascending, as in every `std::map`. -/
def ascending_keys (d : dictionary_t) : Prop :=
  (dictionary_keys d).Pairwise (fun a b => string_lt a b = true)

mutual
/-- A value built from 32-bit integers, plain strings, lists and dictionaries with plain
keys, and holding no `double`. -/
def value.plain : value → Prop
  | .number n => is_int32 n
  | .string s => plain_string s
  | .list xs => plain_list xs
  | .dictionary d => plain_entries d ∧ ascending_keys d
  | .float _ => False
/-- Every element of the list is plain. -/
def plain_list : List value → Prop
  | [] => True
  | x :: xs => value.plain x ∧ plain_list xs
/-- Every entry has a plain key and a plain value. -/
def plain_entries : List (string_t × value) → Prop
  | [] => True
  | (k, v) :: d => plain_string k ∧ value.plain v ∧ plain_entries d
end

/-- The text `rest` ends a written value: it is empty, or starts with a byte that is not
skipped by the cursor and is no digit, point or single quote. -/
def ends_value (rest : List Char) : Prop :=
  rest = [] ∨ ∃ r rs, rest = r :: rs ∧ is_ws r = false ∧ r ∉ digits_dot ∧ r ≠ '\''

/-- What has to follow the written form of `v` for `parse_value` to stop behind it: nothing
is asked after a list or a dictionary, which end with their closing bracket. -/
def follows (v : value) (rest : List Char) : Prop :=
  match v with
  | .list _ => True
  | .dictionary _ => True
  | _ => ends_value rest

/-- The written form of a string: the escaped bytes between two single quotes. -/
def quoted (s : string_t) : List Char := ['\''] ++ (s.map spec_escape).flatten ++ ['\'']

/-- The written forms of the elements of a list, a comma after each. -/
def written_items (fmt : float_t → List Char) (xs : List value) : List Char :=
  (xs.map (fun x => x.serialize fmt ++ [','])).flatten

/-- The written forms of the entries of a dictionary, a comma after each. -/
def written_entries (fmt : float_t → List Char) (d : List (string_t × value)) : List Char :=
  (d.map (fun p => quoted p.1 ++ [':'] ++ p.2.serialize fmt ++ [','])).flatten

/-- The entries of a dictionary literal, a comma between two entries: each entry is the
key as a single-quoted literal, a colon, and the written form of the value. -/
def entries_text (fmt : float_t → List Char) : List (string_t × value) → List Char
  | [] => []
  | [p] => sq_literal p.1 ++ ':' :: p.2.serialize fmt
  | p :: q :: rest =>
    sq_literal p.1 ++ ':' :: (p.2.serialize fmt ++ ',' :: entries_text fmt (q :: rest))

/-- The dictionary literal with the entries `es` between braces. -/
def dictionary_literal (fmt : float_t → List Char) (es : List (string_t × value)) : List Char :=
  '\x7b' :: (entries_text fmt es ++ ['\x7d'])

/-! ## Values without a `double`, and text on one line -/

mutual
/-- The value holds no `double`, at any depth. -/
def value.no_float : value → Prop
  | .number _ => True
  | .string _ => True
  | .list xs => no_float_list xs
  | .dictionary d => no_float_entries d
  | .float _ => False
/-- No element of the list holds a `double`. -/
def no_float_list : List value → Prop
  | [] => True
  | x :: xs => value.no_float x ∧ no_float_list xs
/-- No value of an entry holds a `double`. -/
def no_float_entries : List (string_t × value) → Prop
  | [] => True
  | (_, v) :: d => value.no_float v ∧ no_float_entries d
end

/-- The text holds no newline, carriage return or tab. -/
def one_line (t : List Char) : Prop :=
  ∀ c ∈ t, c ≠ '\n' ∧ c ≠ '\r' ∧ c ≠ '\t'

/-- The exception carries no message of its own about the text read: when it is a
`parse_exception`, its message is `eof`, the one `input::getc` gives at the end of the
input. -/
def only_eof (e : thrown) : Prop :=
  ∀ pos mes, e = thrown.parse_exception pos mes → mes = "eof"

/-! ## Progress of the cursor -/

/-- The read offset is inside the buffer or at its end. -/
def input.wf (s : input) : Prop := s._i ≤ s._in.length

/-- The number of unread bytes. -/
def input.rem (s : input) : Nat := s._in.length - s._i

/-- The cursor `t` is the cursor `s` moved forward by zero or more bytes, inside the same
buffer. -/
def steps (s t : input) : Prop :=
  t._in = s._in ∧ s._i ≤ t._i ∧ t._i ≤ s._in.length

/-- The cursor `t` is the cursor `s` moved forward by one or more bytes, inside the same
buffer. -/
def advances (s t : input) : Prop :=
  t._in = s._in ∧ s._i < t._i ∧ t._i ≤ s._in.length

/-- The outcome `r` of a reader started at `s`: a normal return leaves the cursor moved
forward inside the same buffer (by at least one byte when `strict`), and when the fuel was
`enough` the outcome is not the embedding's fuel exhaustion. -/
def good {α : Type} (enough : Prop) (strict : Bool) (s : input) (r : Except thrown (α × input)) :
    Prop :=
  match r with
  | .ok (_, t) => if strict then advances s t else steps s t
  | .error e => enough → e ≠ thrown.no_fuel

/-! ## A dictionary literal with skipped bytes between its tokens -/

/-- The entries of a dictionary literal with integer values, a comma between two entries,
with the bytes `sp` between every two neighbouring tokens: each key is a single-quoted
literal, each value the decimal text of an integer. -/
def spaced_entries (sp : List Char) : List (string_t × Int) → List Char
  | [] => []
  | [p] => sq_literal p.1 ++ sp ++ ':' :: (sp ++ ostream_int p.2 ++ sp)
  | p :: q :: rest =>
    sq_literal p.1 ++ sp ++ ':' :: (sp ++ ostream_int p.2 ++ sp
      ++ ',' :: (sp ++ spaced_entries sp (q :: rest)))

/-- The dictionary literal with the entries `es` and the bytes `sp` between every two
neighbouring tokens; with `sp` empty it is the literal written with no spaces. -/
def spaced_dictionary (sp : List Char) (es : List (string_t × Int)) : List Char :=
  '\x7b' :: (sp ++ spaced_entries sp es ++ ['\x7d'])

/-! ## The rounds of the loop of `parse_dictionary` -/

/-- One round of the `while(!in.match('}'))` loop of `parse_dictionary` behind the loop's
test: the key, the colon, the value and the comma, if there is one, are read and the entry
is assigned; the result is the cursor and the dictionary the next round starts with. -/
def read_entry (f : Nat) (s1 : input) (buf : dictionary_t) :
    Except thrown (input × dictionary_t) :=
  match parse_string s1 with
  | .error e => .error e
  | .ok (key, s2) =>
    match s2.match_ ':' with
    | .error e => .error e
    | .ok (false, s3) => .error (thrown.parse_exception s3.position "expected :")
    | .ok (true, s3) =>
      match s3.getc with
      | .error e => .error e
      | .ok (_, s4) =>
        match parse_value f s4 with
        | .error e => .error e
        | .ok (v, s5) =>
          match s5.match_ ',' with
          | .error e => .error e
          | .ok (true, s6) =>
            match s6.getc with
            | .error e => .error e
            | .ok (_, s7) => .ok (s7, dictionary_assign key v buf)
          | .ok (false, s6) => .ok (s6, dictionary_assign key v buf)

/-- The cursor and the dictionary after `n` rounds of the loop of `parse_dictionary` that
each read an entry, started with the fuel `f` at the cursor `s` with the dictionary `buf`;
`none` when fewer than `n` entries are read. -/
def entries_read : Nat → Nat → input → dictionary_t → Option (input × dictionary_t)
  | 0, _, s, buf => some (s, buf)
  | _ + 1, 0, _, _ => none
  | n + 1, f + 1, s, buf =>
    match s.match_ '}' with
    | .ok (false, s1) =>
      match read_entry f s1 buf with
      | .ok (t, buf1) => entries_read n f t buf1
      | .error _ => none
    | _ => none

/-- The key that `parse_dictionary`, called with the fuel `f + 1` at the cursor `s`, reads
after the opening brace and `n` entries, with the cursor behind that key; `none` when the
call does not get as far as reading that key. -/
def key_read (n f : Nat) (s : input) : Option (string_t × input) :=
  match s.match_ '{' with
  | .ok (true, s1) =>
    match s1.getc with
    | .ok (_, s2) =>
      match entries_read n f s2 [] with
      | some (s3, _) =>
        match s3.match_ '}' with
        | .ok (false, s4) =>
          match parse_string s4 with
          | .ok (key, s5) => some (key, s5)
          | .error _ => none
        | _ => none
      | none => none
    | .error _ => none
  | _ => none

/-! # Theorems -/

/-! ## Writing: the accumulator form against the written form -/

theorem serialize_string_loop_eq (s : List Char) (oi : List Char) :
    serialize_string_loop s oi = oi ++ serialize_string_loop s [] := by
  induction s generalizing oi with
  | nil => simp [serialize_string_loop]
  | cons c cs ih =>
    unfold serialize_string_loop
    split_ifs <;> (rw [ih]; conv_rhs => rw [ih]) <;> simp

theorem serialize_string_loop_spec (s : List Char) :
    serialize_string_loop s [] = (s.map spec_escape).flatten := by
  induction s with
  | nil => simp [serialize_string_loop]
  | cons c cs ih =>
    unfold serialize_string_loop
    simp only [List.map_cons, List.flatten_cons]
    split_ifs <;> rw [serialize_string_loop_eq, ih] <;> simp [spec_escape, *]

theorem serialize_string_eq (s : string_t) (oi : List Char) :
    serialize_string s oi = oi ++ (['\''] ++ (s.map spec_escape).flatten ++ ['\'']) := by
  unfold serialize_string
  rw [serialize_string_loop_eq, serialize_string_loop_spec]
  simp

mutual
theorem serialize_to_eq (fmt : float_t → List Char) :
    ∀ (v : value) (out : List Char), v.serialize_to fmt out = out ++ v.serialize fmt
  | .number n, out => by simp [value.serialize, value.serialize_to, serialize_number]
  | .string s, out => by
    simp [value.serialize, value.serialize_to, serialize_string_eq]
  | .float f, out => by simp [value.serialize, value.serialize_to, serialize_float]
  | .list xs, out => by
    simp only [value.serialize, value.serialize_to]
    rw [serialize_list_loop_eq fmt xs, serialize_list_loop_eq fmt xs ([] ++ ['['])]
    simp
  | .dictionary d, out => by
    simp only [value.serialize, value.serialize_to]
    rw [serialize_dictionary_loop_eq fmt d, serialize_dictionary_loop_eq fmt d ([] ++ _)]
    simp
theorem serialize_list_loop_eq (fmt : float_t → List Char) :
    ∀ (xs : List value) (out : List Char),
      serialize_list_loop fmt xs out
        = out ++ (xs.map (fun x => x.serialize fmt ++ [','])).flatten
  | [], out => by simp [serialize_list_loop]
  | x :: xs, out => by
    simp only [serialize_list_loop]
    rw [serialize_list_loop_eq fmt xs, serialize_to_eq fmt x]
    simp
theorem serialize_dictionary_loop_eq (fmt : float_t → List Char) :
    ∀ (d : List (string_t × value)) (out : List Char),
      serialize_dictionary_loop fmt d out
        = out ++ (d.map (fun p =>
            (value.string p.1).serialize fmt ++ [':'] ++ p.2.serialize fmt ++ [','])).flatten
  | [], out => by simp [serialize_dictionary_loop]
  | (k, v) :: d, out => by
    simp only [serialize_dictionary_loop]
    rw [serialize_dictionary_loop_eq fmt d, serialize_to_eq fmt v]
    simp [serialize_string_eq, value.serialize, value.serialize_to]
end

theorem serialize_string_value_eq (fmt : float_t → List Char) (s : string_t) :
    (value.string s).serialize fmt = ['\''] ++ (s.map spec_escape).flatten ++ ['\''] := by
  simp [value.serialize, value.serialize_to, serialize_string_eq]

theorem serialize_list_value_eq (fmt : float_t → List Char) (xs : List value) :
    (value.list xs).serialize fmt
      = ['['] ++ (xs.map (fun x => x.serialize fmt ++ [','])).flatten ++ [']'] := by
  simp only [value.serialize, value.serialize_to]
  rw [serialize_list_loop_eq]
  simp [value.serialize]

theorem serialize_dictionary_value_eq (fmt : float_t → List Char) (d : dictionary_t) :
    (value.dictionary d).serialize fmt
      = ['{'] ++ (d.map (fun p =>
          (value.string p.1).serialize fmt ++ [':'] ++ p.2.serialize fmt ++ [','])).flatten
        ++ ['}'] := by
  simp only [value.serialize, value.serialize_to]
  rw [serialize_dictionary_loop_eq]
  simp [value.serialize, value.serialize_to]

/-! ## The key order and the assignment to a dictionary -/

theorem char_eq_of_toNat_eq {a b : Char} (h : a.toNat = b.toNat) : a = b := by
  rw [← Char.ofNat_toNat a, ← Char.ofNat_toNat b, h]

theorem string_lt_irrefl (a : string_t) : string_lt a a = false := by
  induction a with
  | nil => rfl
  | cons c cs ih => simp [string_lt, ih]

theorem string_lt_trans : ∀ (a b c : string_t),
    string_lt a b = true → string_lt b c = true → string_lt a c = true
  | [], [], _, h, _ => by simp [string_lt] at h
  | [], _ :: _, [], _, h => by simp [string_lt] at h
  | [], _ :: _, _ :: _, _, _ => by simp [string_lt]
  | _ :: _, [], _, h, _ => by simp [string_lt] at h
  | _ :: _, _ :: _, [], _, h => by simp [string_lt] at h
  | x :: xs, y :: ys, z :: zs, h1, h2 => by
    simp only [string_lt] at h1 h2 ⊢
    split_ifs at h1 h2 ⊢ <;> first
      | rfl
      | omega
      | exact string_lt_trans xs ys zs h1 h2

theorem string_lt_connex : ∀ (a b : string_t),
    string_lt a b = false → string_lt b a = false → a = b
  | [], [], _, _ => rfl
  | [], _ :: _, h, _ => by simp [string_lt] at h
  | _ :: _, [], _, h => by simp [string_lt] at h
  | x :: xs, y :: ys, h1, h2 => by
    simp only [string_lt] at h1 h2
    split_ifs at h1 h2 with ha hb
    have hxy : x = y := char_eq_of_toNat_eq (by omega)
    rw [hxy, string_lt_connex xs ys h1 h2]

theorem string_lt_asymm (a b : string_t) (h : string_lt a b = true) :
    string_lt b a = false := by
  cases hba : string_lt b a with
  | false => rfl
  | true =>
    have := string_lt_trans a b a h hba
    rw [string_lt_irrefl] at this
    exact absurd this (by simp)

theorem dictionary_assign_keys_mem (k : string_t) (v : value) (d : dictionary_t)
    (x : string_t) :
    x ∈ dictionary_keys (dictionary_assign k v d) ↔ x = k ∨ x ∈ dictionary_keys d := by
  induction d with
  | nil => simp [dictionary_assign, dictionary_keys]
  | cons p rest ih =>
    obtain ⟨k1, v1⟩ := p
    unfold dictionary_assign
    split_ifs with h1 h2
    · simp [dictionary_keys]
    · simp only [dictionary_keys, List.map_cons, List.mem_cons] at ih ⊢
      rw [ih]; tauto
    · have hk : k = k1 := string_lt_connex k k1 (by simpa using h1) (by simpa using h2)
      simp [dictionary_keys, hk]

theorem dictionary_assign_sorted (k : string_t) (v : value) (d : dictionary_t)
    (hd : (dictionary_keys d).Pairwise (fun a b => string_lt a b = true)) :
    (dictionary_keys (dictionary_assign k v d)).Pairwise (fun a b => string_lt a b = true) := by
  induction d with
  | nil => simp [dictionary_assign, dictionary_keys]
  | cons p rest ih =>
    obtain ⟨k1, v1⟩ := p
    have hd1 := hd
    simp only [dictionary_keys, List.map_cons, List.pairwise_cons] at hd1
    unfold dictionary_assign
    split_ifs with h1 h2
    · simp only [dictionary_keys, List.map_cons, List.pairwise_cons]
      refine ⟨?_, hd1⟩
      intro a ha
      rcases List.mem_cons.1 ha with rfl | ha
      · exact h1
      · exact string_lt_trans _ _ _ h1 (hd1.1 a ha)
    · have ih1 := ih hd1.2
      simp only [dictionary_keys, List.map_cons, List.pairwise_cons]
      refine ⟨?_, ih1⟩
      intro a ha
      rcases (dictionary_assign_keys_mem k v rest a).1 ha with rfl | ha
      · exact h2
      · exact hd1.1 a ha
    · have hk : k = k1 := string_lt_connex k k1 (by simpa using h1) (by simpa using h2)
      subst hk
      simpa [dictionary_keys] using hd1

theorem dictionary_fold_sorted (es : List (string_t × value)) (d : dictionary_t)
    (hd : (dictionary_keys d).Pairwise (fun a b => string_lt a b = true)) :
    (dictionary_keys (es.foldl (fun d e => dictionary_assign e.1 e.2 d) d)).Pairwise
      (fun a b => string_lt a b = true) := by
  induction es generalizing d with
  | nil => simpa using hd
  | cons e es ih => exact ih _ (dictionary_assign_sorted _ _ _ hd)

theorem dictionary_fold_keys_mem (es : List (string_t × value)) (d : dictionary_t)
    (x : string_t) :
    x ∈ dictionary_keys (es.foldl (fun d e => dictionary_assign e.1 e.2 d) d)
      ↔ x ∈ es.map Prod.fst ∨ x ∈ dictionary_keys d := by
  induction es generalizing d with
  | nil => simp
  | cons e es ih =>
    simp only [List.foldl_cons, List.map_cons, List.mem_cons]
    rw [ih, dictionary_assign_keys_mem]
    tauto

theorem dictionary_of_sorted (es : List (string_t × value)) :
    (dictionary_keys (dictionary_of es)).Pairwise (fun a b => string_lt a b = true) :=
  dictionary_fold_sorted es [] (by simp [dictionary_keys])

theorem dictionary_of_keys_mem (es : List (string_t × value)) (x : string_t) :
    x ∈ dictionary_keys (dictionary_of es) ↔ x ∈ es.map Prod.fst := by
  unfold dictionary_of
  rw [dictionary_fold_keys_mem]
  simp [dictionary_keys]

theorem sorted_keys_unique (l1 l2 : List string_t)
    (h1 : l1.Pairwise (fun a b => string_lt a b = true))
    (h2 : l2.Pairwise (fun a b => string_lt a b = true))
    (hm : ∀ x, x ∈ l1 ↔ x ∈ l2) : l1 = l2 := by
  have irr : ∀ a : string_t, ¬ (string_lt a a = true) := fun a => by
    simp [string_lt_irrefl]
  have key : ∀ a b : string_t, string_lt a b = true → a ≠ b := by
    intro a b hab heq
    subst heq
    exact irr a hab
  have n1 : l1.Nodup := List.Pairwise.imp (fun {a b} hab => key a b hab) h1
  have n2 : l2.Nodup := List.Pairwise.imp (fun {a b} hab => key a b hab) h2
  have hp : l1.Perm l2 := (List.perm_ext_iff_of_nodup n1 n2).2 hm
  haveI : IsAntisymm string_t (fun a b => string_lt a b = true) :=
    ⟨fun a b hab hba => by
      have := string_lt_asymm a b hab
      rw [hba] at this
      exact absurd this (by simp)⟩
  exact List.eq_of_perm_of_sorted hp h1 h2

/-! ## Claims about writing -/

/-- C8: writing the string value `s` gives a single quote, then, for each byte of `s` in
order, the byte's escaped form (two backslashes for a backslash, two single quotes for a
single quote, backslash-n, backslash-r, backslash-t for newline, carriage return and tab,
the byte itself otherwise), then a closing single quote; in particular `it's` is written
as `'it''s'`. -/
theorem C8_serialize_string (fmt : float_t → List Char) (s : string_t) :
    (value.string s).serialize fmt = ['\''] ++ (s.map spec_escape).flatten ++ ['\'']
    ∧ (value.string ['i', 't', '\'', 's']).serialize fmt = ['\'', 'i', 't', '\'', '\'', 's', '\''] :=
  ⟨serialize_string_value_eq fmt s, rfl⟩

/-- C9: writing a list gives `[`, then every element's written form followed by a comma
(also after the last element), then `]`; the list of the integers 1, 2 is written as
`[1,2,]` and the empty list as `[]`. -/
theorem C9_serialize_list (fmt : float_t → List Char) (xs : List value) :
    (value.list xs).serialize fmt
        = ['['] ++ (xs.map (fun x => x.serialize fmt ++ [','])).flatten ++ [']']
    ∧ (value.list [value.number 1, value.number 2]).serialize fmt = ['[', '1', ',', '2', ',', ']']
    ∧ (value.list []).serialize fmt = ['[', ']'] :=
  ⟨serialize_list_value_eq fmt xs, rfl, rfl⟩

/-- C10: the dictionary built by any sequence of assignments `es` is written as `{`, then
one entry per key, then `}`, each entry being the key written as an escaped single-quoted
string (`quoted`), `:`, the value's written form and a comma; the keys of the entries are
strictly ascending in the order of `std::string`, they are exactly the keys assigned, and
the key sequence is the same for every other order `es1` of the assignments. -/
theorem C10_serialize_dictionary (fmt : float_t → List Char)
    (es es1 : List (string_t × value)) (hperm : es.Perm es1) :
    (value.dictionary (dictionary_of es)).serialize fmt
        = ['\x7b'] ++ ((dictionary_of es).map (fun p =>
            quoted p.1 ++ [':'] ++ p.2.serialize fmt ++ [','])).flatten
          ++ ['\x7d']
    ∧ (dictionary_keys (dictionary_of es)).Pairwise (fun a b => string_lt a b = true)
    ∧ (∀ k, k ∈ dictionary_keys (dictionary_of es) ↔ k ∈ es.map Prod.fst)
    ∧ dictionary_keys (dictionary_of es1) = dictionary_keys (dictionary_of es) := by
  refine ⟨?_, dictionary_of_sorted es, dictionary_of_keys_mem es, ?_⟩
  · rw [serialize_dictionary_value_eq]
    simp only [serialize_string_value_eq, quoted]
  apply sorted_keys_unique _ _ (dictionary_of_sorted es1) (dictionary_of_sorted es)
  intro x
  rw [dictionary_of_keys_mem, dictionary_of_keys_mem]
  exact ⟨fun h => (hperm.map Prod.fst).symm.subset h, fun h => (hperm.map Prod.fst).subset h⟩

/-- C10, at an instance: the assignments of `b` then `a`, and of `a` then `b`, give the
same dictionary, written `{'a':1,'b':2,}`. -/
theorem C10_serialize_dictionary_witness :
    List.Perm [(['b'], value.number 2), (['a'], value.number 1)]
        [(['a'], value.number 1), (['b'], value.number 2)]
    ∧ (value.dictionary (dictionary_of [(['b'], value.number 2), (['a'], value.number 1)])).serialize
          sample_fmt
        = ['{', '\'', 'a', '\'', ':', '1', ',', '\'', 'b', '\'', ':', '2', ',', '}']
    ∧ dictionary_keys (dictionary_of [(['a'], value.number 1), (['b'], value.number 2)])
        = dictionary_keys (dictionary_of [(['b'], value.number 2), (['a'], value.number 1)]) :=
  ⟨List.Perm.swap _ _ _, rfl,
    (C10_serialize_dictionary sample_fmt _ _ (List.Perm.swap _ _ _)).2.2.2⟩

/-! ## The cursor's members at a known place -/

theorem cur_nil (text : List Char) : cur [] text = ⟨text, 0⟩ := rfl

theorem cur_end (text : List Char) : cur text [] = ⟨text, text.length⟩ := by
  simp [cur]

theorem cur_snoc (pre : List Char) (c : Char) (post : List Char) :
    cur (pre ++ [c]) post = ⟨pre ++ c :: post, pre.length + 1⟩ := by
  simp [cur]

theorem cur_fuel (pre post : List Char) : (cur pre post).fuel = post.length + 1 := by
  simp [cur, input.fuel]

theorem getElem?_at_length (pre : List Char) (c : Char) (post : List Char) :
    (pre ++ c :: post)[pre.length]? = some c := by
  rw [List.getElem?_append_right (le_refl _)]
  simp

theorem cur_getc (pre : List Char) (c : Char) (post : List Char) :
    (cur pre (c :: post)).getc = .ok (c, cur (pre ++ [c]) post) := by
  unfold input.getc
  have h1 : (cur pre (c :: post))._i < (cur pre (c :: post))._in.length := by simp [cur]
  rw [if_neg (by simpa using h1)]
  simp only [cur, getElem?_at_length]
  simp

theorem cur_getc_nil (pre : List Char) :
    (cur pre []).getc = .error (thrown.parse_exception pre.length "eof") := by
  simp [input.getc, cur]

theorem cur_skip (pre : List Char) (c : Char) (post : List Char) (hc : is_ws c = false) :
    (cur pre (c :: post)).skip = cur pre (c :: post) := by
  unfold input.skip
  have hlen : (cur pre (c :: post))._in.length - (cur pre (c :: post))._i = post.length + 1 := by
    simp [cur]
  rw [hlen]
  unfold skip_loop
  have h1 : (cur pre (c :: post))._i < (cur pre (c :: post))._in.length := by simp [cur]
  rw [if_pos h1]
  simp only [cur, getElem?_at_length, hc]
  simp

theorem cur_match_at (pre : List Char) (c : Char) (post : List Char) (hc : is_ws c = false)
    (x : Char) (k : Nat) :
    (cur pre (c :: post)).match_at x k
      = .ok ((match (c :: post)[k]? with | some d => d == x | none => false), cur pre (c :: post)) := by
  unfold input.match_at
  by_cases hk : k < (c :: post).length
  · have h1 : (cur pre (c :: post))._i + k < (cur pre (c :: post))._in.length := by
      simp [cur] at hk ⊢; omega
    rw [if_neg (by simpa using h1), cur_skip pre c post hc]
    have h2 : (cur pre (c :: post))._in[(cur pre (c :: post))._i + k]? = (c :: post)[k]? := by
      simp only [cur]
      rw [List.getElem?_append_right (by omega)]
      simp
    simp only [h2]
    obtain ⟨d, hd⟩ : ∃ d, (c :: post)[k]? = some d := ⟨(c :: post)[k], by simp [hk]⟩
    simp [hd]
  · have h1 : ¬ ((cur pre (c :: post))._i + k < (cur pre (c :: post))._in.length) := by
      simp [cur] at hk ⊢; omega
    rw [if_pos h1]
    have : (c :: post)[k]? = none := by simp at hk ⊢; omega
    simp [this]

theorem cur_match (pre : List Char) (c : Char) (post : List Char) (hc : is_ws c = false)
    (x : Char) :
    (cur pre (c :: post)).match_ x = .ok (c == x, cur pre (c :: post)) := by
  unfold input.match_
  rw [cur_match_at pre c post hc]
  simp

theorem cur_match_at_nil (pre : List Char) (x : Char) (k : Nat) :
    (cur pre []).match_at x k = .ok (false, cur pre []) := by
  simp [input.match_at, cur]

theorem cur_match_nil (pre : List Char) (x : Char) :
    (cur pre []).match_ x = .ok (false, cur pre []) :=
  cur_match_at_nil pre x 0

theorem cur_match_any_at (pre : List Char) (c : Char) (post : List Char)
    (hc : is_ws c = false) (chars : List Char) (k : Nat) :
    (cur pre (c :: post)).match_any_at chars k
      = .ok ((match (c :: post)[k]? with | some d => decide (d ∈ chars) | none => false),
          cur pre (c :: post)) := by
  induction chars with
  | nil => cases (c :: post)[k]? <;> simp [input.match_any_at]
  | cons x xs ih =>
    unfold input.match_any_at
    rw [cur_match_at pre c post hc]
    cases hd : (c :: post)[k]? with
    | none => simp [hd] at ih ⊢; exact ih
    | some d =>
      simp only [hd] at ih ⊢
      by_cases hx : d = x
      · simp [hx]
      · have : (d == x) = false := by simpa using hx
        simp only [this, ih]
        simp [hx]

theorem cur_match_any (pre : List Char) (c : Char) (post : List Char)
    (hc : is_ws c = false) (chars : List Char) :
    (cur pre (c :: post)).match_any chars = .ok (decide (c ∈ chars), cur pre (c :: post)) := by
  unfold input.match_any
  rw [cur_match_any_at pre c post hc]
  simp

theorem cur_match_any_at_nil (pre : List Char) (chars : List Char) (k : Nat) :
    (cur pre []).match_any_at chars k = .ok (false, cur pre []) := by
  induction chars with
  | nil => simp [input.match_any_at]
  | cons x xs ih =>
    unfold input.match_any_at
    rw [cur_match_at_nil]
    simpa using ih

theorem cur_match_any_nil (pre : List Char) (chars : List Char) :
    (cur pre []).match_any chars = .ok (false, cur pre []) :=
  cur_match_any_at_nil pre chars 0

/-! ## Decimal digits -/

theorem mem_digits_iff (c : Char) :
    c ∈ digits ↔ c = '0' ∨ c = '1' ∨ c = '2' ∨ c = '3' ∨ c = '4' ∨ c = '5' ∨ c = '6'
      ∨ c = '7' ∨ c = '8' ∨ c = '9' := by
  simp [digits]

theorem digit_char_mem (d : Nat) (h : d < 10) : digit_char d ∈ digits := by
  revert d; decide

theorem digit_char_value (d : Nat) (h : d < 10) : (digit_char d).toNat - 48 = d := by
  revert d; decide

theorem digits_not_ws (c : Char) (h : c ∈ digits) : is_ws c = false := by
  rw [mem_digits_iff] at h
  rcases h with h | h | h | h | h | h | h | h | h | h <;> subst h <;> rfl

theorem digits_isdigit (c : Char) (h : c ∈ digits) : c_isdigit c = true := by
  rw [mem_digits_iff] at h
  rcases h with h | h | h | h | h | h | h | h | h | h <;> subst h <;> rfl

theorem digits_not_isspace (c : Char) (h : c ∈ digits) : c_isspace c = false := by
  rw [mem_digits_iff] at h
  rcases h with h | h | h | h | h | h | h | h | h | h <;> subst h <;> rfl

theorem digits_ne (c x : Char) (h : c ∈ digits) (hx : x ∉ digits) : c ≠ x := by
  intro e; exact hx (e ▸ h)

theorem digits_value_nil (a : Nat) : digits_value a [] = a := rfl

theorem digits_value_cons (a : Nat) (c : Char) (cs : List Char) :
    digits_value a (c :: cs) = digits_value (a * 10 + (c.toNat - 48)) cs := rfl

theorem digits_value_append (xs ys : List Char) (b : Nat) :
    digits_value b (xs ++ ys) = digits_value (digits_value b xs) ys := by
  induction xs generalizing b with
  | nil => rfl
  | cons x xs ihx => rw [List.cons_append, digits_value_cons, digits_value_cons]; exact ihx _

theorem put_digits_spec (f : Nat) : ∀ (n : Nat) (acc : List Char), n < f →
    ∃ ds : List Char, put_digits f n acc = ds ++ acc ∧ ds ≠ [] ∧ (∀ c ∈ ds, c ∈ digits)
      ∧ ∀ a : Nat, digits_value a ds = a * 10 ^ ds.length + n := by
  induction f with
  | zero => intro n acc h; omega
  | succ f ih =>
    intro n acc h
    unfold put_digits
    by_cases h0 : n / 10 = 0
    · rw [if_pos h0]
      have hn : n < 10 := by omega
      refine ⟨[digit_char (n % 10)], by simp, by simp, ?_, ?_⟩
      · intro c hc
        simp only [List.mem_singleton] at hc
        subst hc
        exact digit_char_mem _ (by omega)
      · intro a
        rw [digits_value_cons, digits_value_nil, digit_char_value _ (by omega)]
        simp only [List.length_singleton, pow_one]
        omega
    · rw [if_neg h0]
      obtain ⟨ds, h1, _, h3, h4⟩ := ih (n / 10) (digit_char (n % 10) :: acc) (by omega)
      refine ⟨ds ++ [digit_char (n % 10)], by simp [h1], by simp, ?_, ?_⟩
      · intro c hc
        rcases List.mem_append.1 hc with hc | hc
        · exact h3 c hc
        · simp only [List.mem_singleton] at hc
          subst hc
          exact digit_char_mem _ (Nat.mod_lt _ (by omega))
      · intro a
        rw [digits_value_append, h4, digits_value_cons, digits_value_nil,
          digit_char_value _ (Nat.mod_lt _ (by omega))]
        simp only [List.length_append, List.length_singleton]
        rw [pow_succ]
        have := Nat.div_add_mod n 10
        nlinarith [this]

/-- The digits `operator<<` writes for a natural number. -/
theorem ostream_int_spec (n : Int) :
    ∃ ds : List Char, ds ≠ [] ∧ (∀ c ∈ ds, c ∈ digits) ∧ digits_value 0 ds = n.natAbs
      ∧ ostream_int n = if n < 0 then '-' :: ds else ds := by
  obtain ⟨ds, h1, h2, h3, h4⟩ := put_digits_spec (n.natAbs + 1) n.natAbs [] (by omega)
  refine ⟨ds, h2, h3, by simpa using h4 0, ?_⟩
  unfold ostream_int
  simp [h1]

/-! ## Reading a run of digits -/

theorem parse_digits_loop_run (chars : List Char) (ds : List Char) :
    ∀ (d : Char) (pre rest buf : List Char) (f : Nat),
      (∀ c ∈ d :: ds, c ∈ chars ∧ is_ws c = false) → ends_run chars rest →
      ds.length + 1 ≤ f →
      parse_digits_loop chars f (cur pre (d :: ds ++ rest)) buf
        = .ok (buf ++ d :: ds, cur (pre ++ d :: ds) rest) := by
  induction ds with
  | nil =>
    intro d pre rest buf f hds hrest hf
    obtain ⟨f, rfl⟩ : ∃ g, f = g + 1 := ⟨f - 1, by omega⟩
    unfold parse_digits_loop
    simp only [List.cons_append, List.nil_append, cur_getc]
    rcases hrest with rfl | ⟨r, rs, rfl, hr, hrc⟩
    · rw [cur_match_any_nil]
    · rw [cur_match_any _ _ _ hr]
      simp [hrc]
  | cons d2 ds ih =>
    intro d pre rest buf f hds hrest hf
    obtain ⟨f, rfl⟩ : ∃ g, f = g + 1 := ⟨f - 1, by simp at hf; omega⟩
    unfold parse_digits_loop
    simp only [List.cons_append, cur_getc]
    have h2 := hds d2 (by simp)
    rw [cur_match_any _ _ _ h2.2]
    simp only [h2.1, decide_True]
    have := ih d2 (pre ++ [d]) rest (buf ++ [d]) f
      (fun c hc => hds c (List.mem_cons_of_mem _ hc)) hrest (by simp at hf; omega)
    simp only [List.cons_append] at this
    rw [this]
    simp

theorem scan_for_dot_digits (pre : List Char) (c0 : Char) (post : List Char)
    (h0 : is_ws c0 = false) (ds : List Char) :
    ∀ (a rest : List Char) (f : Nat), c0 :: post = a ++ ds ++ rest →
      (∀ c ∈ ds, c ∈ digits) →
      (rest = [] ∨ ∃ r rs, rest = r :: rs ∧ r ∉ digits ∧ r ≠ '.') →
      ds.length + 1 ≤ f →
      scan_for_dot f (cur pre (c0 :: post)) a.length = .ok (false, cur pre (c0 :: post)) := by
  induction ds with
  | nil =>
    intro a rest f hpost hds hrest hf
    obtain ⟨f, rfl⟩ : ∃ g, f = g + 1 := ⟨f - 1, by simp at hf; omega⟩
    unfold scan_for_dot
    by_cases hrem : a.length < (cur pre (c0 :: post)).remaining
    · rw [if_neg (by simpa using hrem)]
      rcases hrest with rfl | ⟨r, rs, rfl, hr, hrd⟩
      · have hidx : (c0 :: post)[a.length]? = none := by
          rw [hpost]; simp
        rw [cur_match_at _ _ _ h0]
        simp only [hidx]
        rw [cur_match_any_at _ _ _ h0]
        simp only [hidx]
      · have hidx : (c0 :: post)[a.length]? = some r := by
          rw [hpost, List.append_nil]
          exact getElem?_at_length a r rs
        have hne : (r == '.') = false := by simpa using hrd
        rw [cur_match_at _ _ _ h0]
        simp only [hidx, hne]
        rw [cur_match_any_at _ _ _ h0]
        simp only [hidx, hr, decide_False]
    · rw [if_pos hrem]
  | cons d ds ih =>
    intro a rest f hpost hds hrest hf
    obtain ⟨f, rfl⟩ : ∃ g, f = g + 1 := ⟨f - 1, by simp at hf; omega⟩
    unfold scan_for_dot
    by_cases hrem : a.length < (cur pre (c0 :: post)).remaining
    · rw [if_neg (by simpa using hrem)]
      have hd := hds d (by simp)
      have hdot : d ≠ '.' := digits_ne d '.' hd (by decide)
      have hidx : (c0 :: post)[a.length]? = some d := by
        rw [hpost, List.append_assoc]
        exact getElem?_at_length a d (ds ++ rest)
      have hne : (d == '.') = false := by simpa using hdot
      rw [cur_match_at _ _ _ h0]
      simp only [hidx, hne]
      rw [cur_match_any_at _ _ _ h0]
      simp only [hidx, hd, decide_True]
      have := ih (a ++ [d]) rest f (by rw [hpost]; simp)
        (fun c hc => hds c (List.mem_cons_of_mem _ hc)) hrest (by simp at hf; omega)
      simpa using this
    · rw [if_pos hrem]

/-! ## Reading a number -/

theorem strtol_digits (ds : List Char) (hne : ds ≠ []) (hds : ∀ c ∈ ds, c ∈ digits)
    (neg : Bool) (hsmall : digits_value 0 ds ≤ 2 ^ 31) :
    strtol (if neg then '-' :: ds else ds)
      = if neg then -(digits_value 0 ds : Int) else (digits_value 0 ds : Int) := by
  obtain ⟨d, ds1, rfl⟩ : ∃ d ds1, ds = d :: ds1 := by
    cases ds with
    | nil => exact absurd rfl hne
    | cons d ds1 => exact ⟨d, ds1, rfl⟩
  have hd := hds d (by simp)
  have htake : List.takeWhile c_isdigit (d :: ds1) = d :: ds1 := by
    rw [List.takeWhile_eq_self_iff]
    intro c hc
    exact digits_isdigit c (hds c hc)
  have h1 : d ≠ '-' := digits_ne d '-' hd (by decide)
  have h2 : d ≠ '+' := digits_ne d '+' hd (by decide)
  have hsp : c_isspace d = false := digits_not_isspace d hd
  cases neg with
  | true =>
    have hdrop : List.dropWhile c_isspace ('-' :: d :: ds1) = '-' :: d :: ds1 :=
      List.dropWhile_cons_of_neg (by decide)
    simp only [strtol, if_true, hdrop, htake]
    have : (digits_value 0 (d :: ds1) : Int) ≤ 2 ^ 31 := by exact_mod_cast hsmall
    split_ifs <;> omega
  | false =>
    have hdrop : List.dropWhile c_isspace (d :: ds1) = d :: ds1 :=
      List.dropWhile_cons_of_neg (by simp [hsp])
    simp only [strtol, hdrop, h1, h2, if_false, htake, Bool.false_eq_true]
    have : (digits_value 0 (d :: ds1) : Int) ≤ 2 ^ 31 := by exact_mod_cast hsmall
    split_ifs <;> omega

theorem strtol_ostream_int (n : Int) (hn : is_int32 n) :
    to_int32 (strtol (ostream_int n)) = n := by
  obtain ⟨ds, h1, h2, h3, h4⟩ := ostream_int_spec n
  obtain ⟨hlo, hhi⟩ := hn
  have hsmall : digits_value 0 ds ≤ 2 ^ 31 := by rw [h3]; omega
  have := strtol_digits ds h1 h2 (decide (n < 0)) hsmall
  rw [h4]
  by_cases hneg : n < 0
  · simp only [hneg, decide_True, if_true] at this ⊢
    rw [this, h3]
    unfold to_int32
    omega
  · simp only [hneg, decide_False, if_false, Bool.false_eq_true] at this ⊢
    rw [this, h3]
    unfold to_int32
    omega

theorem parse_number_ostream_int (n : Int) (hn : is_int32 n) (pre rest : List Char)
    (hrest : ends_run digits rest) :
    parse_number (cur pre (ostream_int n ++ rest))
      = .ok (n, cur (pre ++ ostream_int n) rest) := by
  have hval := strtol_ostream_int n hn
  obtain ⟨ds, h1, h2, _, h4⟩ := ostream_int_spec n
  obtain ⟨d, ds1, rfl⟩ : ∃ d ds1, ds = d :: ds1 := by
    cases ds with
    | nil => exact absurd rfl h1
    | cons d ds1 => exact ⟨d, ds1, rfl⟩
  have hd := h2 d (by simp)
  have hrun : ∀ c ∈ d :: ds1, c ∈ digits ∧ is_ws c = false :=
    fun c hc => ⟨h2 c hc, digits_not_ws c (h2 c hc)⟩
  unfold parse_number parse_sign_digits
  by_cases hneg : n < 0
  · rw [if_pos hneg] at h4
    rw [h4] at hval ⊢
    simp only [List.cons_append]
    rw [cur_match _ _ _ (by decide)]
    simp only [beq_self_eq_true, cur_getc, cur_fuel]
    have := parse_digits_loop_run digits ds1 d (pre ++ ['-']) rest ['-']
      ((d :: ds1 ++ rest).length + 1) hrun hrest (by simp; omega)
    simp only [List.cons_append] at this
    rw [this]
    simp [hval]
  · rw [if_neg hneg] at h4
    rw [h4] at hval ⊢
    simp only [List.cons_append]
    rw [cur_match _ _ _ (digits_not_ws d hd)]
    have hm : (d == '-') = false := by simpa using digits_ne d '-' hd (by decide)
    simp only [hm, cur_fuel]
    have := parse_digits_loop_run digits ds1 d pre rest []
      ((d :: (ds1 ++ rest)).length + 1) hrun hrest (by simp; omega)
    simp only [List.cons_append] at this
    rw [this]
    simp only [List.nil_append, hval]

theorem ends_run_digits_of_dot (rest : List Char) (h : ends_run digits_dot rest) :
    ends_run digits rest ∧ (rest = [] ∨ ∃ r rs, rest = r :: rs ∧ r ∉ digits ∧ r ≠ '.') := by
  rcases h with rfl | ⟨r, rs, rfl, hr, hrc⟩
  · exact ⟨Or.inl rfl, Or.inl rfl⟩
  · have h1 : r ∉ digits := fun hm => hrc (by simp [digits_dot, hm])
    have h2 : r ≠ '.' := fun he => hrc (by simp [digits_dot, he])
    exact ⟨Or.inr ⟨r, rs, rfl, hr, h1⟩, Or.inr ⟨r, rs, rfl, h1, h2⟩⟩

theorem ostream_int_head (n : Int) :
    ∃ h t, ostream_int n = h :: t ∧ is_ws h = false ∧ h ≠ '\x7b' ∧ h ≠ '[' ∧ h ≠ '\'' ∧ h ≠ '"'
      ∧ h ≠ ']' ∧ h ≠ '\x7d' := by
  obtain ⟨ds, h1, h2, _, h4⟩ := ostream_int_spec n
  by_cases hneg : n < 0
  · rw [if_pos hneg] at h4
    exact ⟨'-', ds, h4, by decide, by decide, by decide, by decide, by decide, by decide,
      by decide⟩
  · rw [if_neg hneg] at h4
    obtain ⟨d, ds1, rfl⟩ : ∃ d ds1, ds = d :: ds1 := by
      cases ds with
      | nil => exact absurd rfl h1
      | cons d ds1 => exact ⟨d, ds1, rfl⟩
    have hd := h2 d (by simp)
    exact ⟨d, ds1, h4, digits_not_ws d hd, digits_ne d _ hd (by decide),
      digits_ne d _ hd (by decide), digits_ne d _ hd (by decide), digits_ne d _ hd (by decide),
      digits_ne d _ hd (by decide), digits_ne d _ hd (by decide)⟩

theorem parse_number_or_float_ostream_int (n : Int) (hn : is_int32 n) (pre rest : List Char)
    (hrest : ends_run digits_dot rest) :
    parse_number_or_float (cur pre (ostream_int n ++ rest))
      = .ok (value.number n, cur (pre ++ ostream_int n) rest) := by
  obtain ⟨hrun, hstop⟩ := ends_run_digits_of_dot rest hrest
  have hnum := parse_number_ostream_int n hn pre rest hrun
  obtain ⟨ds, h1, h2, _, h4⟩ := ostream_int_spec n
  obtain ⟨h, t, hht, hws, _⟩ := ostream_int_head n
  have hscan : scan_for_dot ((cur pre (ostream_int n ++ rest))._in.length + 1)
      (cur pre (ostream_int n ++ rest)) 0 = .ok (false, cur pre (ostream_int n ++ rest)) := by
    rw [hht, List.cons_append]
    by_cases hneg : n < 0
    · rw [if_pos hneg, hht] at h4
      have hh : h = '-' := by injection h4
      refine scan_for_dot_digits pre h (t ++ rest) hws [] [] (h :: (t ++ rest)) _ (by simp)
        (by simp) (Or.inr ⟨h, t ++ rest, rfl, ?_, ?_⟩) (by simp)
      · rw [hh]; decide
      · rw [hh]; decide
    · rw [if_neg hneg, hht] at h4
      refine scan_for_dot_digits pre h (t ++ rest) hws ds [] rest _ (by rw [← h4]; simp)
        h2 hstop ?_
      rw [← h4]
      simp [cur]
      omega
  unfold parse_number_or_float
  rw [hscan]
  simp only [hnum]

theorem parse_value_ostream_int (n : Int) (hn : is_int32 n) (pre rest : List Char)
    (hrest : ends_run digits_dot rest) (f : Nat) :
    parse_value (f + 1) (cur pre (ostream_int n ++ rest))
      = .ok (value.number n, cur (pre ++ ostream_int n) rest) := by
  have hnum := parse_number_or_float_ostream_int n hn pre rest hrest
  obtain ⟨h, t, hht, hws, hb1, hb2, hb3, hb4, _⟩ := ostream_int_head n
  rw [hht] at hnum ⊢
  rw [List.cons_append] at hnum ⊢
  unfold parse_value
  have e1 : (h == '\x7b') = false := by simpa using hb1
  have e2 : (h == '[') = false := by simpa using hb2
  have e3 : (h == '\'') = false := by simpa using hb3
  have e4 : (h == '"') = false := by simpa using hb4
  simp only [cur_match _ _ _ hws, e1, e2, e3, e4, hnum]

theorem parse_fuel_succ (text : List Char) : parse_fuel text = (3 * text.length + 2) + 1 := rfl

theorem parse_of_parse_value (text : List Char) (v : value) (s : input)
    (h : parse_value (parse_fuel text) (cur [] text) = .ok (v, s)) : parse text = .ok v := by
  unfold parse
  rw [cur_nil] at h
  rw [h]

/-- C5: for every 32-bit signed integer `n`, reading the decimal text of `n` (a `-` for a
negative number, then its digits) gives the number value `n`; the texts `123` and `-5`
give 123 and -5. -/
theorem C5_parse_integer (n : Int) (hn : is_int32 n) :
    parse (ostream_int n) = .ok (value.number n)
    ∧ parse ['1', '2', '3'] = .ok (value.number 123)
    ∧ parse ['-', '5'] = .ok (value.number (-5)) := by
  refine ⟨?_, rfl, rfl⟩
  have h := parse_value_ostream_int n hn [] [] (Or.inl rfl) (3 * (ostream_int n).length + 2)
  rw [List.append_nil] at h
  exact parse_of_parse_value _ _ _ h

/-- C5, at the smallest 32-bit integer: its decimal text is `-2147483648`, and reading
that text gives the number back. -/
theorem C5_parse_integer_witness :
    is_int32 (-2147483648)
    ∧ ostream_int (-2147483648) = ['-', '2', '1', '4', '7', '4', '8', '3', '6', '4', '8']
    ∧ parse ['-', '2', '1', '4', '7', '4', '8', '3', '6', '4', '8']
        = .ok (value.number (-2147483648)) := by
  have hn : is_int32 (-2147483648) := by unfold is_int32; omega
  have ht : ostream_int (-2147483648)
      = ['-', '2', '1', '4', '7', '4', '8', '3', '6', '4', '8'] := by rfl
  have h := (C5_parse_integer (-2147483648) hn).1
  rw [ht] at h
  exact ⟨hn, ht, h⟩

/-! ## Reading a double-quoted literal -/

theorem parse_dquote_loop_items (items : List dq_item) :
    ∀ (pre rest buf : List Char) (f : Nat), (∀ t ∈ items, t.wf) → items.length + 1 ≤ f →
      parse_dquote_loop f (cur pre ((items.map dq_item.text).flatten ++ '"' :: rest)) buf
        = .ok (buf ++ items.map dq_item.byte,
            cur (pre ++ (items.map dq_item.text).flatten) ('"' :: rest)) := by
  induction items with
  | nil =>
    intro pre rest buf f _ hf
    obtain ⟨f, rfl⟩ : ∃ g, f = g + 1 := ⟨f - 1, by omega⟩
    unfold parse_dquote_loop
    simp only [List.map_nil, List.flatten_nil, List.nil_append, List.append_nil]
    rw [cur_match _ _ _ (show is_ws '"' = false by decide)]
    simp only [show ('"' == '\\') = false by decide]
    rw [cur_match _ _ _ (show is_ws '"' = false by decide)]
    simp
  | cons t items ih =>
    intro pre rest buf f hwf hf
    obtain ⟨f, rfl⟩ : ∃ g, f = g + 1 := ⟨f - 1, by omega⟩
    have hrec := fun (pre1 buf1 : List Char) =>
      ih pre1 rest buf1 f (fun t ht => hwf t (List.mem_cons_of_mem _ ht))
        (by simp at hf; omega)
    have ht := hwf t (by simp)
    unfold parse_dquote_loop
    cases t with
    | plain c =>
      obtain ⟨hws, h1, h2⟩ := ht
      have e1 : (c == '\\') = false := by simpa using h1
      have e2 : (c == '"') = false := by simpa using h2
      simp only [List.map_cons, List.flatten_cons, dq_item.text, List.cons_append,
        List.nil_append, cur_match _ _ _ hws, e1, e2, cur_getc, hrec, dq_item.byte]
      simp
    | backslash =>
      simp only [List.map_cons, List.flatten_cons, dq_item.text, List.cons_append,
        List.nil_append, cur_match _ _ _ (show is_ws '\\' = false by decide), cur_getc,
        beq_self_eq_true, if_true, hrec, dq_item.byte]
      simp
    | dquote =>
      simp only [List.map_cons, List.flatten_cons, dq_item.text, List.cons_append,
        List.nil_append, cur_match _ _ _ (show is_ws '\\' = false by decide), cur_getc,
        beq_self_eq_true, if_true, hrec, dq_item.byte,
        if_neg (show ¬ ('"' = '\\') by decide)]
      simp
    | tab =>
      simp only [List.map_cons, List.flatten_cons, dq_item.text, List.cons_append,
        List.nil_append, cur_match _ _ _ (show is_ws '\\' = false by decide), cur_getc,
        beq_self_eq_true, if_true, hrec, dq_item.byte,
        if_neg (show ¬ ('t' = '\\') by decide), if_neg (show ¬ ('t' = '"') by decide)]
      simp
    | cr =>
      simp only [List.map_cons, List.flatten_cons, dq_item.text, List.cons_append,
        List.nil_append, cur_match _ _ _ (show is_ws '\\' = false by decide), cur_getc,
        beq_self_eq_true, if_true, hrec, dq_item.byte,
        if_neg (show ¬ ('r' = '\\') by decide), if_neg (show ¬ ('r' = '"') by decide),
        if_neg (show ¬ ('r' = 't') by decide)]
      simp
    | lf =>
      simp only [List.map_cons, List.flatten_cons, dq_item.text, List.cons_append,
        List.nil_append, cur_match _ _ _ (show is_ws '\\' = false by decide), cur_getc,
        beq_self_eq_true, if_true, hrec, dq_item.byte,
        if_neg (show ¬ ('n' = '\\') by decide), if_neg (show ¬ ('n' = '"') by decide),
        if_neg (show ¬ ('n' = 't') by decide), if_neg (show ¬ ('n' = 'r') by decide)]
      simp

theorem dq_items_length (items : List dq_item) :
    items.length ≤ ((items.map dq_item.text).flatten).length := by
  induction items with
  | nil => simp
  | cons t items ih =>
    have : 1 ≤ (dq_item.text t).length := by cases t <;> simp [dq_item.text]
    simp only [List.map_cons, List.flatten_cons, List.length_append, List.length_cons]
    omega

theorem parse_string_dq_literal (items : List dq_item) (hwf : ∀ t ∈ items, t.wf)
    (pre rest : List Char) :
    parse_string (cur pre (dq_literal items ++ rest))
      = .ok (items.map dq_item.byte, cur (pre ++ dq_literal items) rest) := by
  unfold parse_string dq_literal
  have hq : is_ws '"' = false := by decide
  have e1 : ('"' == '\'') = false := by decide
  simp only [List.cons_append, List.append_assoc, List.nil_append, List.singleton_append]
  rw [cur_match _ _ _ hq]
  simp only [e1]
  rw [cur_match _ _ _ hq]
  simp only [beq_self_eq_true, cur_getc, cur_fuel]
  have hloop := parse_dquote_loop_items items (pre ++ ['"']) rest []
    (((items.map dq_item.text).flatten ++ ('"' :: rest)).length + 1) hwf
    (by have := dq_items_length items; simp only [List.length_append]; omega)
  rw [hloop]
  unfold parse_closing
  simp only [cur_match _ _ _ hq, beq_self_eq_true, cur_getc]
  simp [cur]

/-- C4: for every double-quoted literal whose body is a sequence of plain bytes (bytes the
cursor does not skip, other than backslash and double quote) and of the escapes
backslash-backslash, backslash-doublequote, backslash-t, backslash-r, backslash-n,
`parse_string` returns the body with each plain byte unchanged and each escape replaced
by backslash, double quote, tab, carriage return, newline, and leaves the cursor behind
the literal; the literal `"a\nb"` gives the three bytes `a`, LF, `b`. -/
theorem C4_parse_string_double_quoted (items : List dq_item) (hwf : ∀ t ∈ items, t.wf) :
    parse_string ⟨dq_literal items, 0⟩
        = .ok (items.map dq_item.byte, ⟨dq_literal items, (dq_literal items).length⟩)
    ∧ parse_string ⟨['"', 'a', '\\', 'n', 'b', '"'], 0⟩
        = .ok (['a', '\n', 'b'], ⟨['"', 'a', '\\', 'n', 'b', '"'], 6⟩) := by
  refine ⟨?_, by rfl⟩
  have h := parse_string_dq_literal items hwf [] []
  rw [List.append_nil, cur_nil] at h
  rw [h, List.nil_append, cur_end]

/-- C4, at the literal `"a\nb\\"`: a plain byte, the newline escape, a plain byte and the
backslash escape are read as `a`, LF, `b`, backslash. -/
theorem C4_parse_string_double_quoted_witness :
    (∀ t ∈ [dq_item.plain 'a', dq_item.lf, dq_item.plain 'b', dq_item.backslash], t.wf)
    ∧ dq_literal [dq_item.plain 'a', dq_item.lf, dq_item.plain 'b', dq_item.backslash]
        = ['"', 'a', '\\', 'n', 'b', '\\', '\\', '"']
    ∧ parse_string ⟨['"', 'a', '\\', 'n', 'b', '\\', '\\', '"'], 0⟩
        = .ok (['a', '\n', 'b', '\\'], ⟨['"', 'a', '\\', 'n', 'b', '\\', '\\', '"'], 8⟩) := by
  have hwf : ∀ t ∈ [dq_item.plain 'a', dq_item.lf, dq_item.plain 'b', dq_item.backslash],
      t.wf := by
    intro t ht
    simp only [List.mem_cons, List.mem_singleton, List.not_mem_nil, or_false] at ht
    rcases ht with rfl | rfl | rfl | rfl <;> simp [dq_item.wf, is_ws]
  exact ⟨hwf, rfl, (C4_parse_string_double_quoted _ hwf).1⟩

/-! ## Reading a single-quoted literal -/

theorem spec_escape_plain (c : Char) (hws : is_ws c = false) (hb : c ≠ '\\') :
    spec_escape c = if c = '\'' then ['\'', '\''] else [c] := by
  unfold spec_escape
  rw [if_neg hb]
  by_cases hq : c = '\''
  · simp [hq]
  · have h1 : c ≠ '\n' := by intro h; rw [h] at hws; exact absurd hws (by decide)
    have h2 : c ≠ '\r' := by intro h; rw [h] at hws; exact absurd hws (by decide)
    have h3 : c ≠ '\t' := by intro h; rw [h] at hws; exact absurd hws (by decide)
    simp [hq, h1, h2, h3]

theorem sq_plain_tail (c : Char) (s : string_t) (h : sq_plain (c :: s)) :
    sq_plain s := by
  obtain ⟨h1, h2⟩ := h
  refine ⟨fun x hx => h1 x (List.mem_cons_of_mem _ hx), ?_⟩
  cases s with
  | nil => rfl
  | cons b cs =>
    simp only [adjacent_quotes, Bool.or_eq_false_iff] at h2
    exact h2.2

theorem parse_squote_loop_sq (n : Nat) :
    ∀ (s : string_t), s.length ≤ n → sq_plain s →
    ∀ (pre rest buf : List Char) (f : Nat),
      (rest = [] ∨ ∃ r rs, rest = r :: rs ∧ r ≠ '\'') → s.length + 1 ≤ f →
      parse_squote_loop f (cur pre ((s.map sq_escape).flatten ++ '\'' :: rest)) buf
        = .ok (buf ++ s, cur (pre ++ (s.map sq_escape).flatten) ('\'' :: rest)) := by
  have hq : is_ws '\'' = false := by decide
  induction n with
  | zero =>
    intro s hlen _ pre rest buf f hrest hf
    obtain rfl : s = [] := List.eq_nil_of_length_eq_zero (by omega)
    obtain ⟨f, rfl⟩ : ∃ g, f = g + 1 := ⟨f - 1, by omega⟩
    unfold parse_squote_loop
    simp only [List.map_nil, List.flatten_nil, List.nil_append, List.append_nil]
    have h1 : (cur pre ('\'' :: rest)).match_at '\'' 1 = .ok (false, cur pre ('\'' :: rest)) := by
      rw [cur_match_at _ _ _ hq]
      rcases hrest with rfl | ⟨r, rs, rfl, hr⟩
      · simp
      · simp [hr]
    simp only [cur_match _ _ _ hq, beq_self_eq_true, h1, Bool.false_eq_true, if_false]
  | succ n ih =>
    intro s hlen hs pre rest buf f hrest hf
    obtain ⟨f, rfl⟩ : ∃ g, f = g + 1 := ⟨f - 1, by omega⟩
    cases s with
    | nil => exact ih [] (by simp) hs pre rest buf (f + 1) hrest hf
    | cons c s1 =>
      have hc := hs.1 c (by simp)
      have hs1 := sq_plain_tail c s1 hs
      by_cases hcq : c = '\''
      · subst hcq
        cases s1 with
        | nil =>
          unfold parse_squote_loop
          simp only [List.map_cons, List.map_nil, List.flatten_cons, List.flatten_nil,
            sq_escape, if_true, List.cons_append, List.nil_append,
            List.append_nil]
          have h1 : (cur pre ('\'' :: '\'' :: '\'' :: rest)).match_at '\'' 1
              = .ok (true, cur pre ('\'' :: '\'' :: '\'' :: rest)) := by
            rw [cur_match_at _ _ _ hq]; simp
          simp only [cur_match _ _ _ hq, beq_self_eq_true, h1, if_true, cur_getc]
          simp [cur_match _ _ _ hq]
        | cons c2 s2 =>
          have hc2 := hs.1 c2 (by simp)
          have hs2 := sq_plain_tail c2 s2 hs1
          have hc2q : c2 ≠ '\'' := by
            have := hs.2
            simp only [adjacent_quotes, Bool.or_eq_false_iff, Bool.and_eq_false_iff] at this
            intro h
            rw [h] at this
            simp at this
          have e2 : (c2 == '\'') = false := by simpa using hc2q
          have hrec := ih s2 (by simp at hlen; omega) hs2 (pre ++ ['\'', '\''] ++ [c2]) rest
            (buf ++ ['\''] ++ [c2]) f hrest (by simp at hf; omega)
          unfold parse_squote_loop
          simp only [List.map_cons, List.flatten_cons, sq_escape,
            sq_escape, if_true, if_neg hc2q, List.cons_append,
            List.nil_append]
          have h1 : (cur pre ('\'' :: '\'' :: c2 ::
                ((s2.map sq_escape).flatten ++ '\'' :: rest))).match_at '\'' 1
              = .ok (true, cur pre ('\'' :: '\'' :: c2 ::
                ((s2.map sq_escape).flatten ++ '\'' :: rest))) := by
            rw [cur_match_at _ _ _ hq]; simp
          simp only [cur_match _ _ _ hq, beq_self_eq_true, h1, if_true, cur_getc,
            cur_match _ _ _ hc2, e2]
          simp only [List.append_assoc, List.singleton_append, List.cons_append,
            List.nil_append] at hrec ⊢
          rw [hrec]
      · have e1 : (c == '\'') = false := by simpa using hcq
        have hrec := ih s1 (by simp at hlen; omega) hs1 (pre ++ [c]) rest (buf ++ [c]) f hrest
          (by simp at hf; omega)
        unfold parse_squote_loop
        simp only [List.map_cons, List.flatten_cons, sq_escape,
          if_neg hcq, List.cons_append, List.nil_append, cur_match _ _ _ hc, e1,
          Bool.false_and, cur_getc]
        simp only [Bool.false_eq_true, if_false, cur_match _ _ _ hc, e1, cur_getc]
        simp only [List.append_assoc, List.singleton_append, List.cons_append,
          List.nil_append] at hrec ⊢
        rw [hrec]

theorem parse_string_sq_literal (s : string_t) (hs : sq_plain s) (pre rest : List Char)
    (hrest : rest = [] ∨ ∃ r rs, rest = r :: rs ∧ r ≠ '\'') :
    parse_string (cur pre (sq_literal s ++ rest)) = .ok (s, cur (pre ++ sq_literal s) rest) := by
  have hq : is_ws '\'' = false := by decide
  unfold parse_string sq_literal
  simp only [List.cons_append, List.append_assoc, List.nil_append, List.singleton_append]
  simp only [cur_match _ _ _ hq, beq_self_eq_true, cur_getc, cur_fuel]
  have hloop := parse_squote_loop_sq s.length s (le_refl _) hs (pre ++ ['\'']) rest []
    (((s.map sq_escape).flatten ++ ('\'' :: rest)).length + 1) hrest (by
      have : s.length ≤ ((s.map sq_escape).flatten).length := by
        clear hs
        induction s with
        | nil => simp
        | cons c s ih =>
          have : 1 ≤ (sq_escape c).length := by
            unfold sq_escape; split_ifs <;> simp
          simp only [List.map_cons, List.flatten_cons, List.length_append, List.length_cons]
          omega
      simp only [List.length_append, List.length_cons]; omega)
  rw [hloop]
  unfold parse_closing
  simp only [cur_match _ _ _ hq, beq_self_eq_true, cur_getc]
  simp [cur]

theorem quoted_eq_sq_literal (s : string_t) (hs : plain_string s) :
    quoted s = sq_literal s ∧ sq_plain s := by
  refine ⟨?_, fun c hc => (hs.1 c hc).1, hs.2⟩
  have : s.map spec_escape = s.map sq_escape := by
    apply List.map_congr_left
    intro c hc
    rw [spec_escape_plain c (hs.1 c hc).1 (hs.1 c hc).2]
    rfl
  simp [quoted, sq_literal, this]

theorem parse_string_quoted (s : string_t) (hs : plain_string s) (pre rest : List Char)
    (hrest : rest = [] ∨ ∃ r rs, rest = r :: rs ∧ r ≠ '\'') :
    parse_string (cur pre (quoted s ++ rest)) = .ok (s, cur (pre ++ quoted s) rest) := by
  obtain ⟨h1, h2⟩ := quoted_eq_sq_literal s hs
  rw [h1]
  exact parse_string_sq_literal s h2 pre rest hrest

/-! ## One round of the list and dictionary loops -/

theorem parse_value_at_bracket (f : Nat) (pre post : List Char) :
    parse_value (f + 1) (cur pre ('[' :: post))
      = match parse_list f (cur pre ('[' :: post)) with
        | .error e => .error e
        | .ok (xs, s) => .ok (value.list xs, s) := by
  unfold parse_value
  have hq : is_ws '[' = false := by decide
  simp only [cur_match _ _ _ hq, show ('[' == '\x7b') = false by decide, beq_self_eq_true]

theorem parse_value_at_brace (f : Nat) (pre post : List Char) :
    parse_value (f + 1) (cur pre ('\x7b' :: post))
      = match parse_dictionary f (cur pre ('\x7b' :: post)) with
        | .error e => .error e
        | .ok (d, s) => .ok (value.dictionary d, s) := by
  unfold parse_value
  have hq : is_ws '\x7b' = false := by decide
  simp only [cur_match _ _ _ hq, beq_self_eq_true]

theorem parse_value_at_quote (f : Nat) (pre post : List Char) :
    parse_value (f + 1) (cur pre ('\'' :: post))
      = match parse_string (cur pre ('\'' :: post)) with
        | .error e => .error e
        | .ok (str, s) => .ok (value.string str, s) := by
  unfold parse_value
  have hq : is_ws '\'' = false := by decide
  simp only [cur_match _ _ _ hq, show ('\'' == '\x7b') = false by decide,
    show ('\'' == '[') = false by decide, beq_self_eq_true]

theorem parse_list_loop_end (f : Nat) (pre rest : List Char) (buf : list_t) :
    parse_list_loop (f + 1) (cur pre (']' :: rest)) buf = .ok (buf, cur pre (']' :: rest)) := by
  unfold parse_list_loop
  simp only [cur_match _ _ _ (show is_ws ']' = false by decide), beq_self_eq_true]

theorem parse_list_loop_step (f : Nat) (pre : List Char) (h : Char) (t post : List Char)
    (buf : list_t) (v : value) (hws : is_ws h = false) (hh : h ≠ ']')
    (hv : parse_value f (cur pre (h :: (t ++ ',' :: post)))
      = .ok (v, cur (pre ++ h :: t) (',' :: post))) :
    parse_list_loop (f + 1) (cur pre (h :: (t ++ ',' :: post))) buf
      = parse_list_loop f (cur (pre ++ h :: t ++ [',']) post) (buf ++ [v]) := by
  conv_lhs => unfold parse_list_loop
  have e : (h == ']') = false := by simpa using hh
  simp only [cur_match _ _ _ hws, e, hv]
  simp only [cur_match _ _ _ (show is_ws ',' = false by decide), beq_self_eq_true, cur_getc]

theorem parse_list_of_loop (f : Nat) (pre body rest : List Char) (xs : list_t)
    (hloop : parse_list_loop f (cur (pre ++ ['[']) (body ++ ']' :: rest)) []
      = .ok (xs, cur (pre ++ ['['] ++ body) (']' :: rest))) :
    parse_list (f + 1) (cur pre ('[' :: (body ++ ']' :: rest)))
      = .ok (xs, cur (pre ++ '[' :: (body ++ [']'])) rest) := by
  unfold parse_list
  simp only [cur_match _ _ _ (show is_ws '[' = false by decide), beq_self_eq_true, cur_getc,
    hloop]
  simp only [cur_match _ _ _ (show is_ws ']' = false by decide), beq_self_eq_true, cur_getc]
  simp

theorem parse_dictionary_loop_end (f : Nat) (pre rest : List Char) (buf : dictionary_t) :
    parse_dictionary_loop (f + 1) (cur pre ('\x7d' :: rest)) buf
      = .ok (buf, cur pre ('\x7d' :: rest)) := by
  unfold parse_dictionary_loop
  simp only [cur_match _ _ _ (show is_ws '\x7d' = false by decide), beq_self_eq_true]

theorem parse_dictionary_loop_step (f : Nat) (pre : List Char) (k : string_t)
    (vt post : List Char) (buf : dictionary_t) (v : value) (hk : sq_plain k)
    (hv : parse_value f (cur (pre ++ sq_literal k ++ [':']) (vt ++ ',' :: post))
      = .ok (v, cur (pre ++ sq_literal k ++ [':'] ++ vt) (',' :: post))) :
    parse_dictionary_loop (f + 1) (cur pre (sq_literal k ++ ':' :: (vt ++ ',' :: post))) buf
      = parse_dictionary_loop f (cur (pre ++ sq_literal k ++ [':'] ++ vt ++ [',']) post)
          (dictionary_assign k v buf) := by
  conv_lhs => unfold parse_dictionary_loop
  have hkey := parse_string_sq_literal k hk pre (':' :: (vt ++ ',' :: post))
    (Or.inr ⟨':', _, rfl, by decide⟩)
  have hhead : sq_literal k ++ ':' :: (vt ++ ',' :: post)
      = '\'' :: ((k.map sq_escape).flatten ++ '\'' :: ':' :: (vt ++ ',' :: post)) := by
    simp [sq_literal]
  rw [hhead] at hkey ⊢
  simp only [cur_match _ _ _ (show is_ws '\'' = false by decide),
    show ('\'' == '\x7d') = false by decide, hkey]
  simp only [cur_match _ _ _ (show is_ws ':' = false by decide), beq_self_eq_true, cur_getc, hv]
  simp only [cur_match _ _ _ (show is_ws ',' = false by decide), beq_self_eq_true, cur_getc]

theorem parse_dictionary_loop_step_last (f : Nat) (pre : List Char) (k : string_t)
    (vt rest : List Char) (buf : dictionary_t) (v : value) (hk : sq_plain k)
    (hv : parse_value f (cur (pre ++ sq_literal k ++ [':']) (vt ++ '\x7d' :: rest))
      = .ok (v, cur (pre ++ sq_literal k ++ [':'] ++ vt) ('\x7d' :: rest))) :
    parse_dictionary_loop (f + 1) (cur pre (sq_literal k ++ ':' :: (vt ++ '\x7d' :: rest))) buf
      = parse_dictionary_loop f (cur (pre ++ sq_literal k ++ [':'] ++ vt) ('\x7d' :: rest))
          (dictionary_assign k v buf) := by
  conv_lhs => unfold parse_dictionary_loop
  have hkey := parse_string_sq_literal k hk pre (':' :: (vt ++ '\x7d' :: rest))
    (Or.inr ⟨':', _, rfl, by decide⟩)
  have hhead : sq_literal k ++ ':' :: (vt ++ '\x7d' :: rest)
      = '\'' :: ((k.map sq_escape).flatten ++ '\'' :: ':' :: (vt ++ '\x7d' :: rest)) := by
    simp [sq_literal]
  rw [hhead] at hkey ⊢
  simp only [cur_match _ _ _ (show is_ws '\'' = false by decide),
    show ('\'' == '\x7d') = false by decide, hkey]
  simp only [cur_match _ _ _ (show is_ws ':' = false by decide), beq_self_eq_true, cur_getc, hv]
  simp only [cur_match _ _ _ (show is_ws '\x7d' = false by decide),
    show ('\x7d' == ',') = false by decide]

theorem parse_dictionary_of_loop (f : Nat) (pre body rest : List Char) (d : dictionary_t)
    (hloop : parse_dictionary_loop f (cur (pre ++ ['\x7b']) (body ++ '\x7d' :: rest)) []
      = .ok (d, cur (pre ++ ['\x7b'] ++ body) ('\x7d' :: rest))) :
    parse_dictionary (f + 1) (cur pre ('\x7b' :: (body ++ '\x7d' :: rest)))
      = .ok (d, cur (pre ++ '\x7b' :: (body ++ ['\x7d'])) rest) := by
  unfold parse_dictionary
  simp only [cur_match _ _ _ (show is_ws '\x7b' = false by decide), beq_self_eq_true, cur_getc,
    hloop]
  simp only [cur_match _ _ _ (show is_ws '\x7d' = false by decide), beq_self_eq_true, cur_getc]
  simp

/-! ## Reading back what was written -/

theorem serialize_number_form (fmt : float_t → List Char) (n : number_t) :
    (value.number n).serialize fmt = ostream_int n := by
  simp [value.serialize, value.serialize_to, serialize_number]

theorem serialize_string_form (fmt : float_t → List Char) (s : string_t) :
    (value.string s).serialize fmt = quoted s := by
  rw [serialize_string_value_eq]; rfl

theorem serialize_list_form (fmt : float_t → List Char) (xs : List value) :
    (value.list xs).serialize fmt = '[' :: (written_items fmt xs ++ [']']) := by
  rw [serialize_list_value_eq]; simp [written_items]

theorem serialize_dictionary_form (fmt : float_t → List Char) (d : dictionary_t) :
    (value.dictionary d).serialize fmt = '\x7b' :: (written_entries fmt d ++ ['\x7d']) := by
  rw [serialize_dictionary_value_eq]
  simp [written_entries, serialize_string_form]

theorem written_items_cons (fmt : float_t → List Char) (x : value) (xs : List value) :
    written_items fmt (x :: xs) = x.serialize fmt ++ ',' :: written_items fmt xs := by
  simp [written_items]

theorem written_entries_cons (fmt : float_t → List Char) (k : string_t) (v : value)
    (d : List (string_t × value)) :
    written_entries fmt ((k, v) :: d)
      = quoted k ++ ':' :: (v.serialize fmt ++ ',' :: written_entries fmt d) := by
  simp [written_entries]

theorem written_items_length (fmt : float_t → List Char) (xs : List value) :
    xs.length ≤ (written_items fmt xs).length := by
  induction xs with
  | nil => simp [written_items]
  | cons x xs ih =>
    rw [written_items_cons]
    simp only [List.length_append, List.length_cons]
    omega

theorem written_entries_length (fmt : float_t → List Char) (d : List (string_t × value)) :
    d.length ≤ (written_entries fmt d).length := by
  induction d with
  | nil => simp [written_entries]
  | cons p d ih =>
    obtain ⟨k, v⟩ := p
    rw [written_entries_cons]
    simp only [List.length_append, List.length_cons]
    omega

theorem serialize_head (fmt : float_t → List Char) (v : value) (hv : v.plain) :
    ∃ h t, v.serialize fmt = h :: t ∧ is_ws h = false ∧ h ≠ ']' := by
  cases v with
  | number n =>
    obtain ⟨h, t, h1, h2, _, _, _, _, h3, _⟩ := ostream_int_head n
    exact ⟨h, t, by rw [serialize_number_form, h1], h2, h3⟩
  | string s => exact ⟨'\'', _, by rw [serialize_string_form]; rfl, by decide, by decide⟩
  | list xs => exact ⟨'[', _, serialize_list_form fmt xs, by decide, by decide⟩
  | dictionary d => exact ⟨'\x7b', _, serialize_dictionary_form fmt d, by decide, by decide⟩
  | float f => simp [value.plain] at hv

theorem ends_value_comma (post : List Char) : ends_value (',' :: post) :=
  Or.inr ⟨',', post, rfl, by decide, by decide, by decide⟩

theorem follows_comma (v : value) (post : List Char) : follows v (',' :: post) := by
  cases v <;> simp [follows, ends_value_comma]

theorem dictionary_assign_append (k : string_t) (v : value) (buf : dictionary_t)
    (h : ∀ x ∈ dictionary_keys buf, string_lt x k = true) :
    dictionary_assign k v buf = buf ++ [(k, v)] := by
  induction buf with
  | nil => rfl
  | cons p rest ih =>
    obtain ⟨k1, v1⟩ := p
    have h1 : string_lt k1 k = true := h k1 (by simp [dictionary_keys])
    have h2 : string_lt k k1 = false := string_lt_asymm k1 k h1
    unfold dictionary_assign
    rw [if_neg (by simp [h2]), if_pos h1,
      ih (fun x hx => h x (by simp only [dictionary_keys, List.map_cons, List.mem_cons] at hx ⊢
                              exact Or.inr hx))]
    rfl

theorem dictionary_fold_ascending (d : List (string_t × value)) :
    ∀ (buf : dictionary_t), ascending_keys (buf ++ d) →
      d.foldl (fun b e => dictionary_assign e.1 e.2 b) buf = buf ++ d := by
  induction d with
  | nil => intro buf _; simp
  | cons p d ih =>
    intro buf h
    obtain ⟨k, v⟩ := p
    have hk : ∀ x ∈ dictionary_keys buf, string_lt x k = true := by
      intro x hx
      unfold ascending_keys dictionary_keys at h
      rw [List.map_append, List.pairwise_append] at h
      exact h.2.2 x hx k (by simp)
    rw [List.foldl_cons, dictionary_assign_append k v buf hk, ih (buf ++ [(k, v)]) (by simpa using h)]
    simp

mutual
theorem parse_value_written (fmt : float_t → List Char) :
    ∀ (v : value), v.plain → ∀ (pre rest : List Char) (f : Nat), follows v rest →
      3 * (v.serialize fmt).length ≤ f →
      parse_value f (cur pre (v.serialize fmt ++ rest))
        = .ok (v, cur (pre ++ v.serialize fmt) rest)
  | .number n, hv, pre, rest, f, hfol, hf => by
    rw [serialize_number_form] at hf ⊢
    obtain ⟨f, rfl⟩ : ∃ g, f = g + 1 := ⟨f - 1, by
      obtain ⟨h, t, h1, _⟩ := ostream_int_head n
      rw [h1] at hf; simp at hf; omega⟩
    have hrest : ends_run digits_dot rest := by
      rcases hfol with h | ⟨r, rs, h1, h2, h3, _⟩
      · exact Or.inl h
      · exact Or.inr ⟨r, rs, h1, h2, h3⟩
    exact parse_value_ostream_int n hv pre rest hrest f
  | .string s, hv, pre, rest, f, hfol, hf => by
    rw [serialize_string_form] at hf ⊢
    obtain ⟨f, rfl⟩ : ∃ g, f = g + 1 := ⟨f - 1, by simp [quoted] at hf; omega⟩
    have hrest : rest = [] ∨ ∃ r rs, rest = r :: rs ∧ r ≠ '\'' := by
      rcases hfol with h | ⟨r, rs, h1, _, _, h4⟩
      · exact Or.inl h
      · exact Or.inr ⟨r, rs, h1, h4⟩
    have hstr := parse_string_quoted s hv pre rest hrest
    have hhead : quoted s ++ rest = '\'' :: ((s.map spec_escape).flatten ++ '\'' :: rest) := by
      simp [quoted]
    rw [hhead] at hstr ⊢
    rw [parse_value_at_quote, hstr]
  | .float _, hv, _, _, _, _, _ => by simp [value.plain] at hv
  | .list xs, hv, pre, rest, f, _, hf => by
    rw [serialize_list_form] at hf ⊢
    simp only [List.length_cons, List.length_append, List.length_nil] at hf
    obtain ⟨f, rfl⟩ : ∃ g, f = g + 2 := ⟨f - 2, by omega⟩
    have hstep := parse_list_loop_written fmt xs hv (pre ++ ['[']) (']' :: rest) [] f (by omega)
    have hlen := written_items_length fmt xs
    obtain ⟨g, hg⟩ : ∃ g, f - xs.length = g + 1 := ⟨f - xs.length - 1, by omega⟩
    rw [hg, parse_list_loop_end, List.nil_append] at hstep
    have := parse_list_of_loop f pre (written_items fmt xs) rest xs hstep
    simp only [List.cons_append, List.append_assoc, List.nil_append]
    rw [parse_value_at_bracket, this]
  | .dictionary d, hv, pre, rest, f, _, hf => by
    rw [serialize_dictionary_form] at hf ⊢
    simp only [List.length_cons, List.length_append, List.length_nil] at hf
    obtain ⟨f, rfl⟩ : ∃ g, f = g + 2 := ⟨f - 2, by omega⟩
    have hstep := parse_dictionary_loop_written fmt d hv.1 (pre ++ ['\x7b']) ('\x7d' :: rest) []
      f (by omega)
    have hlen := written_entries_length fmt d
    obtain ⟨g, hg⟩ : ∃ g, f - d.length = g + 1 := ⟨f - d.length - 1, by omega⟩
    rw [hg, parse_dictionary_loop_end, dictionary_fold_ascending d [] (by simpa using hv.2),
      List.nil_append] at hstep
    have := parse_dictionary_of_loop f pre (written_entries fmt d) rest _ hstep
    simp only [List.cons_append, List.append_assoc, List.nil_append]
    rw [parse_value_at_brace, this]
theorem parse_list_loop_written (fmt : float_t → List Char) :
    ∀ (xs : List value), plain_list xs → ∀ (pre post : List Char) (buf : list_t) (f : Nat),
      3 * (written_items fmt xs).length ≤ f →
      parse_list_loop f (cur pre (written_items fmt xs ++ post)) buf
        = parse_list_loop (f - xs.length) (cur (pre ++ written_items fmt xs) post) (buf ++ xs)
  | [], _, pre, post, buf, f, _ => by simp [written_items]
  | x :: xs, hxs, pre, post, buf, f, hf => by
    rw [written_items_cons] at hf ⊢
    simp only [List.length_cons, List.length_append] at hf
    obtain ⟨f, rfl⟩ : ∃ g, f = g + 1 := ⟨f - 1, by omega⟩
    obtain ⟨h, t, hser, hws, hh⟩ := serialize_head fmt x hxs.1
    have hx := parse_value_written fmt x hxs.1 pre (',' :: (written_items fmt xs ++ post)) f
      (follows_comma x _) (by omega)
    have hrec := parse_list_loop_written fmt xs hxs.2 (pre ++ x.serialize fmt ++ [','])
      post (buf ++ [x]) f (by omega)
    rw [hser] at hx hrec ⊢
    have hstep := parse_list_loop_step f pre h t (written_items fmt xs ++ post) buf x hws hh hx
    simp only [List.cons_append, List.append_assoc, List.singleton_append,
      List.nil_append] at hstep hrec ⊢
    rw [hstep, hrec]
    simp only [List.length_cons, Nat.add_sub_add_right]
theorem parse_dictionary_loop_written (fmt : float_t → List Char) :
    ∀ (d : List (string_t × value)), plain_entries d →
      ∀ (pre post : List Char) (buf : dictionary_t) (f : Nat),
      3 * (written_entries fmt d).length ≤ f →
      parse_dictionary_loop f (cur pre (written_entries fmt d ++ post)) buf
        = parse_dictionary_loop (f - d.length) (cur (pre ++ written_entries fmt d) post)
            (d.foldl (fun b e => dictionary_assign e.1 e.2 b) buf)
  | [], _, pre, post, buf, f, _ => by simp [written_entries]
  | (k, v) :: d, hd, pre, post, buf, f, hf => by
    obtain ⟨hq, hsq⟩ := quoted_eq_sq_literal k hd.1
    rw [written_entries_cons, hq] at hf ⊢
    simp only [List.length_cons, List.length_append] at hf
    obtain ⟨f, rfl⟩ : ∃ g, f = g + 1 := ⟨f - 1, by omega⟩
    have hv := parse_value_written fmt v hd.2.1 (pre ++ sq_literal k ++ [':'])
      (',' :: (written_entries fmt d ++ post)) f (follows_comma v _) (by omega)
    have hrec := parse_dictionary_loop_written fmt d hd.2.2
      (pre ++ sq_literal k ++ [':'] ++ v.serialize fmt ++ [',']) post (dictionary_assign k v buf) f
      (by omega)
    have hstep := parse_dictionary_loop_step f pre k (v.serialize fmt)
      (written_entries fmt d ++ post) buf v hsq hv
    simp only [List.cons_append, List.append_assoc, List.singleton_append,
      List.nil_append] at hstep hrec ⊢
    rw [hstep, hrec]
    simp only [List.length_cons, Nat.add_sub_add_right, List.foldl_cons]
end

/-! ## Claims about reading back -/

theorem follows_nil (v : value) : follows v [] := by
  cases v <;> simp [follows, ends_value]

theorem parse_serialize_plain (fmt : float_t → List Char) (v : value) (hv : v.plain) :
    parse (v.serialize fmt) = .ok v := by
  have h := parse_value_written fmt v hv [] [] (parse_fuel (v.serialize fmt)) (follows_nil v)
    (by unfold parse_fuel; omega)
  rw [List.append_nil] at h
  exact parse_of_parse_value _ _ _ h

/-- C1, refuted as stated: the string value holding one backslash is written as the four
bytes quote, backslash, backslash, quote, and reading these gives the string of two
backslashes, a different value. -/
theorem C1_roundtrip_counterexample :
    (value.string ['\\']).serialize sample_fmt = ['\'', '\\', '\\', '\'']
    ∧ parse ['\'', '\\', '\\', '\''] = .ok (value.string ['\\', '\\'])
    ∧ value.string ['\\', '\\'] ≠ value.string ['\\'] :=
  ⟨rfl, rfl, by simp⟩

/-- C1, amended: for every value built from 32-bit integers, strings, lists and
dictionaries (keys strictly ascending, as in every `std::map`), in which no string and no
key holds a blank, tab, carriage return, newline or backslash or two neighbouring single
quotes, reading the written form of the value succeeds and gives the value back. -/
theorem C1_roundtrip_plain (fmt : float_t → List Char) (v : value) (hv : v.plain) :
    parse (v.serialize fmt) = .ok v :=
  parse_serialize_plain fmt v hv

/-- C1 amended, at the list of -5, the string `it's` and the dictionary with the key `k`
mapped to the empty list: it is written `[-5,'it''s',{'k':[],},]` and read back. -/
theorem C1_roundtrip_plain_witness :
    (value.list [value.number (-5), value.string ['i', 't', '\'', 's'],
        value.dictionary [(['k'], value.list [])]]).plain
    ∧ (value.list [value.number (-5), value.string ['i', 't', '\'', 's'],
        value.dictionary [(['k'], value.list [])]]).serialize sample_fmt
        = ['[', '-', '5', ',', '\'', 'i', 't', '\'', '\'', 's', '\'', ',',
           '\x7b', '\'', 'k', '\'', ':', '[', ']', ',', '\x7d', ',', ']']
    ∧ parse ['[', '-', '5', ',', '\'', 'i', 't', '\'', '\'', 's', '\'', ',',
           '\x7b', '\'', 'k', '\'', ':', '[', ']', ',', '\x7d', ',', ']']
        = .ok (value.list [value.number (-5), value.string ['i', 't', '\'', 's'],
            value.dictionary [(['k'], value.list [])]]) := by
  have hv : (value.list [value.number (-5), value.string ['i', 't', '\'', 's'],
      value.dictionary [(['k'], value.list [])]]).plain := by
    simp [value.plain, plain_list, plain_entries, is_int32, plain_string, ascending_keys,
      dictionary_keys, adjacent_quotes, is_ws]
  have ht : (value.list [value.number (-5), value.string ['i', 't', '\'', 's'],
        value.dictionary [(['k'], value.list [])]]).serialize sample_fmt
        = ['[', '-', '5', ',', '\'', 'i', 't', '\'', '\'', 's', '\'', ',',
           '\x7b', '\'', 'k', '\'', ':', '[', ']', ',', '\x7d', ',', ']'] := by rfl
  have h := C1_roundtrip_plain sample_fmt _ hv
  rw [ht] at h
  exact ⟨hv, ht, h⟩

/-- C2, refuted as stated: the string value holding one newline is written as quote,
backslash, `n`, quote; reading that gives the two-byte string backslash, `n`, whose written
form has five bytes and differs from the first. -/
theorem C2_idempotence_counterexample :
    (value.string ['\n']).serialize sample_fmt = ['\'', '\\', 'n', '\'']
    ∧ parse ['\'', '\\', 'n', '\''] = .ok (value.string ['\\', 'n'])
    ∧ (value.string ['\\', 'n']).serialize sample_fmt = ['\'', '\\', '\\', 'n', '\'']
    ∧ (value.string ['\\', 'n']).serialize sample_fmt ≠ (value.string ['\n']).serialize sample_fmt :=
  ⟨rfl, rfl, rfl, by decide⟩

/-- C2, amended: for every value built from 32-bit integers, strings, lists and
dictionaries (keys strictly ascending), in which no string and no key holds a blank, tab,
carriage return, newline or backslash or two neighbouring single quotes, reading the
written form succeeds, and writing what was read gives the same text again. -/
theorem C2_idempotence_plain (fmt : float_t → List Char) (v : value) (hv : v.plain) :
    ∃ w, parse (v.serialize fmt) = .ok w ∧ w.serialize fmt = v.serialize fmt :=
  ⟨v, parse_serialize_plain fmt v hv, rfl⟩

/-- C2 amended, at the dictionary with the keys `a` and `b` mapped to 1 and to the list of
the string `x`: its written form `{'a':1,'b':['x',],}` is read and written back
unchanged. -/
theorem C2_idempotence_plain_witness :
    (value.dictionary [(['a'], value.number 1), (['b'], value.list [value.string ['x']])]).plain
    ∧ (value.dictionary [(['a'], value.number 1),
        (['b'], value.list [value.string ['x']])]).serialize sample_fmt
        = ['\x7b', '\'', 'a', '\'', ':', '1', ',', '\'', 'b', '\'', ':', '[', '\'', 'x', '\'',
           ',', ']', ',', '\x7d']
    ∧ ∃ w, parse ['\x7b', '\'', 'a', '\'', ':', '1', ',', '\'', 'b', '\'', ':', '[', '\'', 'x',
           '\'', ',', ']', ',', '\x7d'] = .ok w
        ∧ w.serialize sample_fmt
          = ['\x7b', '\'', 'a', '\'', ':', '1', ',', '\'', 'b', '\'', ':', '[', '\'', 'x', '\'',
             ',', ']', ',', '\x7d'] := by
  have hv : (value.dictionary [(['a'], value.number 1),
      (['b'], value.list [value.string ['x']])]).plain := by
    simp [value.plain, plain_list, plain_entries, is_int32, plain_string, ascending_keys,
      dictionary_keys, adjacent_quotes, is_ws, string_lt]
  have ht : (value.dictionary [(['a'], value.number 1),
        (['b'], value.list [value.string ['x']])]).serialize sample_fmt
        = ['\x7b', '\'', 'a', '\'', ':', '1', ',', '\'', 'b', '\'', ':', '[', '\'', 'x', '\'',
           ',', ']', ',', '\x7d'] := by rfl
  have h := C2_idempotence_plain sample_fmt _ hv
  rw [ht] at h
  exact ⟨hv, ht, h⟩

/-- C3, at two failing inputs: the literal quote, blank, quote is read as the empty string,
and the literal of six quotes (the string of two single quotes, each doubled) is read as
one single quote, with the cursor left in front of the fifth byte; the literal `'it''s'`
of the specification is read as the four bytes `it's`. -/
theorem C3_parse_string_single_quoted_fails :
    sq_literal [' '] = ['\'', ' ', '\'']
    ∧ parse_string ⟨['\'', ' ', '\''], 0⟩ = .ok ([], ⟨['\'', ' ', '\''], 3⟩)
    ∧ sq_literal ['\'', '\''] = ['\'', '\'', '\'', '\'', '\'', '\'']
    ∧ parse_string ⟨['\'', '\'', '\'', '\'', '\'', '\''], 0⟩
        = .ok (['\''], ⟨['\'', '\'', '\'', '\'', '\'', '\''], 4⟩)
    ∧ parse_string ⟨['\'', 'i', 't', '\'', '\'', 's', '\''], 0⟩
        = .ok (['i', 't', '\'', 's'], ⟨['\'', 'i', 't', '\'', '\'', 's', '\''], 7⟩) :=
  ⟨rfl, rfl, rfl, rfl, rfl⟩

/-- C6, at the failing input `-1.5`: it is read as the number -1, while `1.5` is read as a
`double`. -/
theorem C6_negative_float_read_as_integer :
    parse ['-', '1', '.', '5'] = .ok (value.number (-1))
    ∧ parse ['1', '.', '5'] = .ok (value.float (strtod ['1', '.', '5'])) :=
  ⟨rfl, rfl⟩

/-! ## Claims about reading a dictionary -/

/-- C7, at a failing input: in `{'a b':1,'ab':2}` the two keys differ, and `parse` returns
the dictionary with the single entry `ab` mapped to 2; the literal `{'a':1,'a':2}` of the
specification is read as the single entry `a` mapped to 2. -/
theorem C7_dictionary_keys_merged :
    parse ['\x7b', '\'', 'a', ' ', 'b', '\'', ':', '1', ',', '\'', 'a', 'b', '\'', ':', '2', '\x7d']
        = .ok (value.dictionary [(['a', 'b'], value.number 2)])
    ∧ parse ['\x7b', '\'', 'a', '\'', ':', '1', ',', '\'', 'a', '\'', ':', '2', '\x7d']
        = .ok (value.dictionary [(['a'], value.number 2)]) :=
  ⟨rfl, rfl⟩

/-! ## Reading a dictionary literal: the last entry of a key wins -/

theorem follows_brace (v : value) (rest : List Char) : follows v ('\x7d' :: rest) := by
  have h : ends_value ('\x7d' :: rest) :=
    Or.inr ⟨'\x7d', rest, rfl, by decide, by decide, by decide⟩
  cases v <;> simp [follows, h]

theorem parse_dictionary_loop_entries (fmt : float_t → List Char)
    (es : List (string_t × value)) :
    (∀ p ∈ es, sq_plain p.1 ∧ p.2.plain) → ∀ (pre rest : List Char) (buf : dictionary_t) (f : Nat),
      3 * (entries_text fmt es).length + 1 ≤ f →
      parse_dictionary_loop f (cur pre (entries_text fmt es ++ '\x7d' :: rest)) buf
        = .ok (es.foldl (fun b e => dictionary_assign e.1 e.2 b) buf,
            cur (pre ++ entries_text fmt es) ('\x7d' :: rest)) := by
  induction es with
  | nil =>
    intro _ pre rest buf f hf
    obtain ⟨f, rfl⟩ : ∃ g, f = g + 1 := ⟨f - 1, by omega⟩
    simp only [entries_text, List.nil_append, List.append_nil, List.foldl_nil]
    exact parse_dictionary_loop_end f pre rest buf
  | cons p es ih =>
    intro hes pre rest buf f hf
    obtain ⟨k, v⟩ := p
    obtain ⟨hk, hv⟩ := hes (k, v) (by simp)
    cases es with
    | nil =>
      simp only [entries_text, List.length_append, List.length_cons] at hf ⊢
      obtain ⟨f, rfl⟩ : ∃ g, f = g + 2 := ⟨f - 2, by omega⟩
      have hval := parse_value_written fmt v hv (pre ++ sq_literal k ++ [':']) ('\x7d' :: rest)
        (f + 1) (follows_brace v rest) (by omega)
      have hstep := parse_dictionary_loop_step_last (f + 1) pre k (v.serialize fmt) rest buf v
        hk hval
      simp only [List.cons_append, List.append_assoc, List.singleton_append,
        List.nil_append] at hstep ⊢
      rw [hstep, parse_dictionary_loop_end]
      rfl
    | cons q es1 =>
      simp only [entries_text, List.length_append, List.length_cons] at hf ⊢
      obtain ⟨f, rfl⟩ : ∃ g, f = g + 1 := ⟨f - 1, by omega⟩
      have hval := parse_value_written fmt v hv (pre ++ sq_literal k ++ [':'])
        (',' :: (entries_text fmt (q :: es1) ++ '\x7d' :: rest)) f (follows_comma v _) (by omega)
      have hstep := parse_dictionary_loop_step f pre k (v.serialize fmt)
        (entries_text fmt (q :: es1) ++ '\x7d' :: rest) buf v hk hval
      have hrec := ih (fun p hp => hes p (List.mem_cons_of_mem _ hp))
        (pre ++ sq_literal k ++ [':'] ++ v.serialize fmt ++ [',']) rest
        (dictionary_assign k v buf) f (by omega)
      simp only [List.cons_append, List.append_assoc, List.singleton_append,
        List.nil_append] at hstep hrec ⊢
      rw [hstep, hrec]
      rfl

theorem parse_dictionary_literal (fmt : float_t → List Char) (es : List (string_t × value))
    (hes : ∀ p ∈ es, sq_plain p.1 ∧ p.2.plain) :
    parse (dictionary_literal fmt es) = .ok (value.dictionary (dictionary_of es)) := by
  have hloop := parse_dictionary_loop_entries fmt es hes ['\x7b'] [] []
    (3 * (entries_text fmt es).length + 7) (by omega)
  have hdict := parse_dictionary_of_loop (3 * (entries_text fmt es).length + 7) []
    (entries_text fmt es) [] (dictionary_of es) (by
      simp only [List.nil_append]
      exact hloop)
  have hval : parse_value (parse_fuel (dictionary_literal fmt es))
      (cur [] (dictionary_literal fmt es))
      = .ok (value.dictionary (dictionary_of es), cur (dictionary_literal fmt es) []) := by
    have hfuel : parse_fuel (dictionary_literal fmt es)
        = (3 * (entries_text fmt es).length + 7 + 1) + 1 := by
      simp only [parse_fuel, dictionary_literal, List.length_cons, List.length_append,
        List.length_nil]
      omega
    rw [hfuel]
    unfold dictionary_literal
    rw [parse_value_at_brace, hdict]
    simp
  exact parse_of_parse_value _ _ _ hval

theorem lookup_cons_eq (k : string_t) (v : value) (l : List (string_t × value))
    (x : string_t) :
    List.lookup x ((k, v) :: l) = if x = k then some v else List.lookup x l := by
  show (match x == k with
    | true => some v
    | false => List.lookup x l) = _
  by_cases hx : x = k
  · have : (x == k) = true := by simpa using hx
    rw [this, if_pos hx]
  · have : (x == k) = false := by simpa using hx
    rw [this, if_neg hx]

theorem lookup_append_eq (x : string_t) (l1 l2 : List (string_t × value)) :
    List.lookup x (l1 ++ l2) = match List.lookup x l1 with
      | some v => some v
      | none => List.lookup x l2 := by
  induction l1 with
  | nil => rfl
  | cons p l1 ih1 =>
    obtain ⟨k1, v1⟩ := p
    rw [List.cons_append, lookup_cons_eq, lookup_cons_eq, ih1]
    by_cases hx : x = k1
    · rw [if_pos hx, if_pos hx]
    · rw [if_neg hx, if_neg hx]

theorem lookup_dictionary_assign (k : string_t) (v : value) (d : dictionary_t) (x : string_t) :
    List.lookup x (dictionary_assign k v d) = if x = k then some v else List.lookup x d := by
  induction d with
  | nil =>
    show List.lookup x [(k, v)] = _
    rw [lookup_cons_eq]
  | cons p rest ih =>
    obtain ⟨k1, v1⟩ := p
    unfold dictionary_assign
    by_cases h1 : string_lt k k1 = true
    · rw [if_pos h1, lookup_cons_eq]
    · rw [if_neg h1]
      by_cases h2 : string_lt k1 k = true
      · rw [if_pos h2, lookup_cons_eq, lookup_cons_eq, ih]
        by_cases hx1 : x = k1
        · have hne : x ≠ k := by
            intro e
            rw [← hx1, e, string_lt_irrefl] at h2
            exact absurd h2 (by simp)
          rw [if_pos hx1, if_neg hne, if_pos hx1]
        · rw [if_neg hx1, if_neg hx1]
      · rw [if_neg h2]
        have hk : k = k1 := string_lt_connex k k1 (by simpa using h1) (by simpa using h2)
        subst hk
        rw [lookup_cons_eq, lookup_cons_eq]
        by_cases hx : x = k
        · rw [if_pos hx, if_pos hx]
        · rw [if_neg hx, if_neg hx, if_neg hx]

theorem lookup_dictionary_fold (es : List (string_t × value)) :
    ∀ (buf : dictionary_t) (x : string_t),
      List.lookup x (es.foldl (fun b e => dictionary_assign e.1 e.2 b) buf)
        = match List.lookup x es.reverse with
          | some v => some v
          | none => List.lookup x buf := by
  induction es with
  | nil => intro buf x; rfl
  | cons e es ih =>
    intro buf x
    obtain ⟨k, v⟩ := e
    rw [List.foldl_cons, ih, lookup_dictionary_assign, List.reverse_cons, lookup_append_eq]
    cases List.lookup x es.reverse with
    | some w => rfl
    | none =>
      show _ = match List.lookup x [(k, v)] with
        | some v => some v
        | none => List.lookup x buf
      rw [lookup_cons_eq]
      by_cases hx : x = k
      · rw [if_pos hx, if_pos hx]
      · rw [if_neg hx, if_neg hx]
        rfl

/-- Reading a dictionary literal whose keys hold no blank, tab, carriage return or newline
and no two neighbouring single quotes, and whose values are plain: the result has strictly
ascending keys, namely the keys of the text, and maps each key to the value of its last
entry in the text. -/
theorem parse_dictionary_literal_last_wins (fmt : float_t → List Char)
    (es : List (string_t × value)) (hes : ∀ p ∈ es, sq_plain p.1 ∧ p.2.plain) :
    parse (dictionary_literal fmt es) = .ok (value.dictionary (dictionary_of es))
    ∧ ascending_keys (dictionary_of es)
    ∧ (∀ k, k ∈ dictionary_keys (dictionary_of es) ↔ k ∈ es.map Prod.fst)
    ∧ ∀ k, List.lookup k (dictionary_of es) = List.lookup k es.reverse := by
  refine ⟨parse_dictionary_literal fmt es hes, dictionary_of_sorted es,
    dictionary_of_keys_mem es, ?_⟩
  intro k
  unfold dictionary_of
  rw [lookup_dictionary_fold]
  cases List.lookup k es.reverse <;> rfl

/-! ## The written form is one line -/

theorem one_line_nil : one_line [] := by
  intro c hc; simp at hc

theorem one_line_append (a b : List Char) (ha : one_line a) (hb : one_line b) :
    one_line (a ++ b) := by
  intro c hc
  rcases List.mem_append.1 hc with h | h
  · exact ha c h
  · exact hb c h

theorem one_line_cons (x : Char) (a : List Char) (hx : x ≠ '\n' ∧ x ≠ '\r' ∧ x ≠ '\t')
    (ha : one_line a) : one_line (x :: a) := by
  intro c hc
  rcases List.mem_cons.1 hc with h | h
  · rw [h]; exact hx
  · exact ha c h

theorem one_line_spec_escape (c : Char) : one_line (spec_escape c) := by
  unfold spec_escape
  split_ifs with h1 h2 h3 h4 h5
  · exact one_line_cons _ _ (by decide) (one_line_cons _ _ (by decide) one_line_nil)
  · exact one_line_cons _ _ (by decide) (one_line_cons _ _ (by decide) one_line_nil)
  · exact one_line_cons _ _ (by decide) (one_line_cons _ _ (by decide) one_line_nil)
  · exact one_line_cons _ _ (by decide) (one_line_cons _ _ (by decide) one_line_nil)
  · exact one_line_cons _ _ (by decide) (one_line_cons _ _ (by decide) one_line_nil)
  · exact one_line_cons _ _ ⟨h3, h4, h5⟩ one_line_nil

theorem one_line_quoted (s : string_t) : one_line (quoted s) := by
  unfold quoted
  refine one_line_append _ _ (one_line_append _ _
    (one_line_cons _ _ (by decide) one_line_nil) ?_) (one_line_cons _ _ (by decide) one_line_nil)
  induction s with
  | nil => exact one_line_nil
  | cons c s ih =>
    rw [List.map_cons, List.flatten_cons]
    exact one_line_append _ _ (one_line_spec_escape c) ih

theorem one_line_ostream_int (n : Int) : one_line (ostream_int n) := by
  obtain ⟨ds, _, h2, _, h4⟩ := ostream_int_spec n
  have hds : one_line ds := by
    intro c hc
    have hd := h2 c hc
    exact ⟨digits_ne c _ hd (by decide), digits_ne c _ hd (by decide),
      digits_ne c _ hd (by decide)⟩
  rw [h4]
  split_ifs
  · exact one_line_cons _ _ (by decide) hds
  · exact hds

mutual
theorem one_line_serialize (fmt : float_t → List Char) :
    ∀ (v : value), v.no_float → one_line (v.serialize fmt)
  | .number n, _ => by rw [serialize_number_form]; exact one_line_ostream_int n
  | .string s, _ => by rw [serialize_string_form]; exact one_line_quoted s
  | .float _, hv => by simp [value.no_float] at hv
  | .list xs, hv => by
    rw [serialize_list_form]
    exact one_line_cons _ _ (by decide) (one_line_append _ _
      (one_line_written_items fmt xs hv) (one_line_cons _ _ (by decide) one_line_nil))
  | .dictionary d, hv => by
    rw [serialize_dictionary_form]
    exact one_line_cons _ _ (by decide) (one_line_append _ _
      (one_line_written_entries fmt d hv) (one_line_cons _ _ (by decide) one_line_nil))
theorem one_line_written_items (fmt : float_t → List Char) :
    ∀ (xs : List value), no_float_list xs → one_line (written_items fmt xs)
  | [], _ => by simp [written_items, one_line]
  | x :: xs, hxs => by
    rw [written_items_cons]
    exact one_line_append _ _ (one_line_serialize fmt x hxs.1)
      (one_line_cons _ _ (by decide) (one_line_written_items fmt xs hxs.2))
theorem one_line_written_entries (fmt : float_t → List Char) :
    ∀ (d : List (string_t × value)), no_float_entries d → one_line (written_entries fmt d)
  | [], _ => by simp [written_entries, one_line]
  | (k, v) :: d, hd => by
    rw [written_entries_cons]
    exact one_line_append _ _ (one_line_quoted k)
      (one_line_cons _ _ (by decide) (one_line_append _ _ (one_line_serialize fmt v hd.1)
        (one_line_cons _ _ (by decide) (one_line_written_entries fmt d hd.2))))
end

/-- C11: for every value that holds no `double`, the written form holds no newline,
carriage return or tab, whatever the strings and keys inside the value hold; the list of
the string made of a newline, a tab and a carriage return is written as the one line
`['\n\t\r',]` (backslash-letter pairs). -/
theorem C11_serialize_one_line (fmt : float_t → List Char) (v : value) (hv : v.no_float) :
    (∀ c ∈ v.serialize fmt, c ≠ '\n' ∧ c ≠ '\r' ∧ c ≠ '\t')
    ∧ (value.list [value.string ['\n', '\t', '\r']]).serialize fmt
        = ['[', '\'', '\\', 'n', '\\', 't', '\\', 'r', '\'', ',', ']'] :=
  ⟨one_line_serialize fmt v hv, rfl⟩

/-- C11, at the dictionary with the key newline mapped to the list of -1 and the string
tab: it holds no `double`, and no byte of its written form is a newline, carriage return
or tab. -/
theorem C11_serialize_one_line_witness :
    (value.dictionary [(['\n'], value.list [value.number (-1), value.string ['\t']])]).no_float
    ∧ (value.dictionary [(['\n'], value.list [value.number (-1), value.string ['\t']])]).serialize
          sample_fmt
        = ['\x7b', '\'', '\\', 'n', '\'', ':', '[', '-', '1', ',', '\'', '\\', 't', '\'', ',',
           ']', ',', '\x7d']
    ∧ ∀ c ∈ (value.dictionary [(['\n'], value.list [value.number (-1),
          value.string ['\t']])]).serialize sample_fmt, c ≠ '\n' ∧ c ≠ '\r' ∧ c ≠ '\t' := by
  have hv : (value.dictionary [(['\n'], value.list [value.number (-1),
      value.string ['\t']])]).no_float := by
    simp [value.no_float, no_float_list, no_float_entries]
  exact ⟨hv, rfl, (C11_serialize_one_line sample_fmt _ hv).1⟩

/-! ## Claims about failures, at concrete inputs -/

/-- C13, at three failing inputs: for `[1, ` (a blank at the end) the cursor's lookahead
indexes the buffer at its length, and for the empty input and for `-` the handler of
`parse` indexes the buffer at -5 while it formats the end-of-input error; each time
`parse` leaves with `std::out_of_range` and no diagnostic. -/
theorem C13_parse_out_of_range :
    parse ['[', '1', ',', ' '] = .error failure.out_of_range
    ∧ parse_value (parse_fuel ['[', '1', ',', ' ']) ⟨['[', '1', ',', ' '], 0⟩
        = .error thrown.out_of_range
    ∧ parse [] = .error failure.out_of_range
    ∧ parse_value (parse_fuel []) ⟨[], 0⟩ = .error (thrown.parse_exception 0 "eof")
    ∧ format_diagnostic [] 0 "eof" = .error failure.out_of_range
    ∧ parse ['-'] = .error failure.out_of_range :=
  ⟨rfl, rfl, rfl, rfl, rfl, rfl⟩

/-- C15, at four failing inputs: for `[1,2`, for `"abc` and for `'abc` the reader fails at
position 4 with the message `eof`, and for the open dictionary `{'a':1` at position 6 with
the message `expected ' or "`; none fails with the message of the missing closing
delimiter. -/
theorem C15_unterminated_input_errors :
    parse_value (parse_fuel ['[', '1', ',', '2']) ⟨['[', '1', ',', '2'], 0⟩
        = .error (thrown.parse_exception 4 "eof")
    ∧ parse_value (parse_fuel ['"', 'a', 'b', 'c']) ⟨['"', 'a', 'b', 'c'], 0⟩
        = .error (thrown.parse_exception 4 "eof")
    ∧ parse_value (parse_fuel ['\'', 'a', 'b', 'c']) ⟨['\'', 'a', 'b', 'c'], 0⟩
        = .error (thrown.parse_exception 4 "eof")
    ∧ parse_value (parse_fuel ['\x7b', '\'', 'a', '\'', ':', '1'])
          ⟨['\x7b', '\'', 'a', '\'', ':', '1'], 0⟩
        = .error (thrown.parse_exception 6 "expected ' or \"") :=
  ⟨rfl, rfl, rfl, rfl⟩

/-- C17, at a failing input: for `[1,2,3,4,5,6,"\x",8,9,10]` the reader fails at position
15 (the `x`), and the first line of the diagnostic holds the first 20 bytes of the input,
15 of them before the failure position. -/
theorem C17_diagnostic_window_unbounded :
    parse_value
        (parse_fuel ['[', '1', ',', '2', ',', '3', ',', '4', ',', '5', ',', '6', ',', '"', '\\',
          'x', '"', ',', '8', ',', '9', ',', '1', '0', ']'])
        ⟨['[', '1', ',', '2', ',', '3', ',', '4', ',', '5', ',', '6', ',', '"', '\\', 'x', '"',
          ',', '8', ',', '9', ',', '1', '0', ']'], 0⟩
      = .error (thrown.parse_exception 15 "illegal escape character")
    ∧ parse ['[', '1', ',', '2', ',', '3', ',', '4', ',', '5', ',', '6', ',', '"', '\\', 'x', '"',
          ',', '8', ',', '9', ',', '1', '0', ']']
      = .error (failure.diagnostic
          (['[', '1', ',', '2', ',', '3', ',', '4', ',', '5', ',', '6', ',', '"', '\\', 'x', '"',
            ',', '8', ','] ++ ['\n'] ++ List.replicate 15 ' ' ++ ['^', ' ']
            ++ "illegal escape character".toList ++ ['\n'])) :=
  ⟨rfl, rfl⟩

/-! ## Claims C18 and C20 -/

/-- C18: for every value built only from 32-bit integers, strings, lists and dictionaries
(keys strictly ascending, as in every `std::map`), in which no string and no key holds a
space, tab, carriage return, newline or backslash or two neighbouring single quotes,
`parse_value` reads the written form of the value to its end and returns the value, and so
does `parse`. -/
theorem C18_roundtrip_restricted (fmt : float_t → List Char) (v : value) (hv : v.plain) :
    parse_value (parse_fuel (v.serialize fmt)) ⟨v.serialize fmt, 0⟩
        = .ok (v, ⟨v.serialize fmt, (v.serialize fmt).length⟩)
    ∧ parse (v.serialize fmt) = .ok v := by
  have h := parse_value_written fmt v hv [] [] (parse_fuel (v.serialize fmt)) (follows_nil v)
    (by unfold parse_fuel; omega)
  rw [List.append_nil, cur_nil, List.nil_append, cur_end] at h
  exact ⟨h, parse_serialize_plain fmt v hv⟩

/-- C18, at the list of the dictionary with the keys `k` and `k'` mapped to 2147483647 and
to the string `a'b`, and of the empty dictionary: its written form
`[{'k':2147483647,'k''':'a''b',},{},]` is read back to the same value. -/
theorem C18_roundtrip_restricted_witness :
    (value.list [value.dictionary [(['k'], value.number 2147483647),
        (['k', '\''], value.string ['a', '\'', 'b'])], value.dictionary []]).plain
    ∧ (value.list [value.dictionary [(['k'], value.number 2147483647),
        (['k', '\''], value.string ['a', '\'', 'b'])], value.dictionary []]).serialize sample_fmt
        = ['[', '\x7b', '\'', 'k', '\'', ':', '2', '1', '4', '7', '4', '8', '3', '6', '4', '7',
           ',', '\'', 'k', '\'', '\'', '\'', ':', '\'', 'a', '\'', '\'', 'b', '\'', ',', '\x7d',
           ',', '\x7b', '\x7d', ',', ']']
    ∧ parse ['[', '\x7b', '\'', 'k', '\'', ':', '2', '1', '4', '7', '4', '8', '3', '6', '4', '7',
           ',', '\'', 'k', '\'', '\'', '\'', ':', '\'', 'a', '\'', '\'', 'b', '\'', ',', '\x7d',
           ',', '\x7b', '\x7d', ',', ']']
        = .ok (value.list [value.dictionary [(['k'], value.number 2147483647),
            (['k', '\''], value.string ['a', '\'', 'b'])], value.dictionary []]) := by
  have hv : (value.list [value.dictionary [(['k'], value.number 2147483647),
      (['k', '\''], value.string ['a', '\'', 'b'])], value.dictionary []]).plain := by
    simp [value.plain, plain_list, plain_entries, is_int32, plain_string, ascending_keys,
      dictionary_keys, adjacent_quotes, is_ws, string_lt]
  have ht : (value.list [value.dictionary [(['k'], value.number 2147483647),
        (['k', '\''], value.string ['a', '\'', 'b'])], value.dictionary []]).serialize sample_fmt
        = ['[', '\x7b', '\'', 'k', '\'', ':', '2', '1', '4', '7', '4', '8', '3', '6', '4', '7',
           ',', '\'', 'k', '\'', '\'', '\'', ':', '\'', 'a', '\'', '\'', 'b', '\'', ',', '\x7d',
           ',', '\x7b', '\x7d', ',', ']'] := by rfl
  have h := (C18_roundtrip_restricted sample_fmt _ hv).2
  rw [ht] at h
  exact ⟨hv, ht, h⟩

theorem isdigit_mem_digits (c : Char) (h : c_isdigit c = true) : c ∈ digits := by
  unfold c_isdigit at h
  simp only [Bool.and_eq_true, decide_eq_true_eq] at h
  obtain ⟨h1, h2⟩ := h
  have key : ∀ n : Nat, 48 ≤ n → n ≤ 57 → Char.ofNat n ∈ digits := by
    intro n hn1 hn2
    interval_cases n <;> decide
  have := key c.toNat h1 h2
  rwa [Char.ofNat_toNat] at this

theorem strtol_stray (c : Char) (hd : c ∉ digits) (hm : c ≠ '-') : strtol [c] = 0 := by
  have hnd : c_isdigit c = false := by
    cases h : c_isdigit c with
    | false => rfl
    | true => exact absurd (isdigit_mem_digits c h) hd
  unfold strtol
  by_cases hsp : c_isspace c = true
  · simp [List.dropWhile, hsp, digits_value_nil]
  · have hsp1 : c_isspace c = false := by simpa using hsp
    simp only [List.dropWhile, hsp1]
    by_cases hp : c = '+'
    · simp [hm, hp, List.takeWhile, digits_value_nil]
    · simp [hm, hp, List.takeWhile, hnd, digits_value_nil]

theorem remaining_last (pre : List Char) (c : Char) : (cur pre [c]).remaining = 0 := by
  simp only [input.remaining, cur, List.length_append, List.length_cons, List.length_nil]
  have : pre.length + (0 + 1) + 2 ^ 64 - (pre.length + 1) = 2 ^ 64 := by omega
  rw [this]
  norm_num

theorem parse_value_stray (c : Char) (hws : is_ws c = false) (hd : c ∉ digits)
    (hb : c ≠ '\x7b' ∧ c ≠ '[' ∧ c ≠ '\'' ∧ c ≠ '"' ∧ c ≠ '-') (pre : List Char) (f : Nat) :
    parse_value (f + 1) (cur pre [c]) = .ok (value.number 0, cur (pre ++ [c]) []) := by
  obtain ⟨h1, h2, h3, h4, h5⟩ := hb
  have e1 : (c == '\x7b') = false := by simpa using h1
  have e2 : (c == '[') = false := by simpa using h2
  have e3 : (c == '\'') = false := by simpa using h3
  have e4 : (c == '"') = false := by simpa using h4
  have e5 : (c == '-') = false := by simpa using h5
  have hscan : scan_for_dot ((cur pre [c])._in.length + 1) (cur pre [c]) 0
      = .ok (false, cur pre [c]) := by
    unfold scan_for_dot
    rw [remaining_last]
    simp
  have hloop : parse_digits_loop digits (cur pre [c]).fuel (cur pre [c]) []
      = .ok ([c], cur (pre ++ [c]) []) := by
    rw [cur_fuel]
    unfold parse_digits_loop
    simp only [List.length_cons, List.length_nil, cur_getc, cur_match_any_nil, List.nil_append]
  have hnum : parse_number_or_float (cur pre [c]) = .ok (value.number 0, cur (pre ++ [c]) []) := by
    unfold parse_number_or_float
    rw [hscan]
    simp only [parse_number, parse_sign_digits, cur_match _ _ _ hws, e5, hloop,
      strtol_stray c hd h5]
    rfl
  unfold parse_value
  simp only [cur_match _ _ _ hws, e1, e2, e3, e4, hnum]

theorem match_at_error (s : input) (c : Char) (k : Nat) (e : thrown)
    (h : s.match_at c k = .error e) : e = thrown.out_of_range := by
  unfold input.match_at at h
  by_cases hk : s._i + k < s._in.length
  · rw [if_neg (not_not.2 hk)] at h
    dsimp only at h
    cases hg : s.skip._in[s.skip._i + k]? with
    | none => rw [hg] at h; injection h with h; exact h.symm
    | some d => rw [hg] at h; cases h
  · rw [if_pos hk] at h
    cases h

theorem match_any_at_error (chars : List Char) : ∀ (s : input) (k : Nat) (e : thrown),
    s.match_any_at chars k = .error e → e = thrown.out_of_range := by
  induction chars with
  | nil => intro s k e h; simp [input.match_any_at] at h
  | cons x xs ih =>
    intro s k e h
    unfold input.match_any_at at h
    cases hm : s.match_at x k with
    | error e1 =>
      rw [hm] at h
      injection h with h
      rw [← h]
      exact match_at_error s x k e1 hm
    | ok p =>
      obtain ⟨b, s1⟩ := p
      rw [hm] at h
      cases b with
      | true => cases h
      | false => exact ih s1 k e h

theorem only_eof_out_of_range : only_eof thrown.out_of_range := by
  intro pos mes he; cases he

theorem only_eof_no_fuel : only_eof thrown.no_fuel := by
  intro pos mes he; cases he

theorem getc_error (s : input) (e : thrown) (h : s.getc = .error e) : only_eof e := by
  unfold input.getc at h
  by_cases hk : s._i < s._in.length
  · rw [if_neg (not_not.2 hk)] at h
    cases hg : s._in[s._i]? with
    | none => rw [hg] at h; injection h with h; rw [← h]; exact only_eof_out_of_range
    | some d => rw [hg] at h; cases h
  · rw [if_pos hk] at h
    injection h with h
    intro pos mes he
    rw [← h] at he
    injection he with _ hm
    exact hm.symm

theorem parse_digits_loop_error (chars : List Char) (f : Nat) :
    ∀ (s : input) (buf : List Char) (e : thrown),
      parse_digits_loop chars f s buf = .error e → only_eof e := by
  induction f with
  | zero =>
    intro s buf e h
    simp only [parse_digits_loop] at h
    injection h with h
    rw [← h]; exact only_eof_no_fuel
  | succ f ih =>
    intro s buf e h
    unfold parse_digits_loop at h
    cases hg : s.getc with
    | error e1 =>
      rw [hg] at h
      injection h with h
      rw [← h]; exact getc_error s e1 hg
    | ok p =>
      obtain ⟨c, s1⟩ := p
      rw [hg] at h
      dsimp only at h
      cases hm : s1.match_any chars with
      | error e1 =>
        rw [hm] at h
        injection h with h
        rw [← h, match_any_at_error chars s1 0 e1 hm]
        exact only_eof_out_of_range
      | ok q =>
        obtain ⟨b, s2⟩ := q
        rw [hm] at h
        cases b with
        | true => exact ih _ _ e h
        | false => cases h

theorem parse_sign_digits_error (chars : List Char) (s : input) (e : thrown)
    (h : parse_sign_digits chars s = .error e) : only_eof e := by
  unfold parse_sign_digits at h
  cases hm : s.match_ '-' with
  | error e1 =>
    rw [hm] at h
    injection h with h
    rw [← h, match_at_error s '-' 0 e1 hm]
    exact only_eof_out_of_range
  | ok p =>
    obtain ⟨b, s1⟩ := p
    rw [hm] at h
    cases b with
    | false => exact parse_digits_loop_error chars _ _ _ e h
    | true =>
      dsimp only at h
      cases hg : s1.getc with
      | error e1 =>
        rw [hg] at h
        injection h with h
        rw [← h]; exact getc_error s1 e1 hg
      | ok q =>
        obtain ⟨c, s2⟩ := q
        rw [hg] at h
        exact parse_digits_loop_error chars _ _ _ e h

theorem scan_for_dot_error (f : Nat) : ∀ (s : input) (k : Nat) (e : thrown),
    scan_for_dot f s k = .error e → only_eof e := by
  induction f with
  | zero =>
    intro s k e h
    simp only [scan_for_dot] at h
    injection h with h
    rw [← h]; exact only_eof_no_fuel
  | succ f ih =>
    intro s k e h
    unfold scan_for_dot at h
    by_cases hk : k < s.remaining
    · rw [if_neg (not_not.2 hk)] at h
      cases hm : s.match_at '.' k with
      | error e1 =>
        rw [hm] at h
        injection h with h
        rw [← h, match_at_error s '.' k e1 hm]
        exact only_eof_out_of_range
      | ok p =>
        obtain ⟨b, s1⟩ := p
        rw [hm] at h
        cases b with
        | true => cases h
        | false =>
          dsimp only at h
          cases hd : s1.match_any_at digits k with
          | error e1 =>
            rw [hd] at h
            injection h with h
            rw [← h, match_any_at_error digits s1 k e1 hd]
            exact only_eof_out_of_range
          | ok q =>
            obtain ⟨b2, s2⟩ := q
            rw [hd] at h
            cases b2 with
            | true => exact ih _ _ e h
            | false => cases h
    · rw [if_pos hk] at h
      cases h

theorem parse_number_or_float_error (s : input) (e : thrown)
    (h : parse_number_or_float s = .error e) : only_eof e := by
  unfold parse_number_or_float at h
  cases hs : scan_for_dot (s._in.length + 1) s 0 with
  | error e1 =>
    rw [hs] at h
    injection h with h
    rw [← h]; exact scan_for_dot_error _ s 0 e1 hs
  | ok p =>
    obtain ⟨b, s1⟩ := p
    rw [hs] at h
    cases b with
    | true =>
      dsimp only at h
      unfold parse_float at h
      cases hd : parse_sign_digits digits_dot s1 with
      | error e1 =>
        rw [hd] at h
        injection h with h
        rw [← h]; exact parse_sign_digits_error _ _ e1 hd
      | ok q => rw [hd] at h; cases h
    | false =>
      dsimp only at h
      unfold parse_number at h
      cases hd : parse_sign_digits digits s1 with
      | error e1 =>
        rw [hd] at h
        injection h with h
        rw [← h]; exact parse_sign_digits_error _ _ e1 hd
      | ok q => rw [hd] at h; cases h

/-- C20: for every byte `c` that the cursor does not skip, that is no decimal digit and
none of `{`, `[`, `'`, `"`, `-`, reading the one-byte input `c` succeeds with the number 0
and the cursor behind that byte; `[abc]` is read as the list 0, 0, 0; and the readers of
numbers raise no `parse_exception` but the end-of-input one: no text is rejected as a
malformed number. -/
theorem C20_stray_byte_read_as_zero (c : Char) (hws : is_ws c = false) (hd : c ∉ digits)
    (hb : c ≠ '\x7b' ∧ c ≠ '[' ∧ c ≠ '\'' ∧ c ≠ '"' ∧ c ≠ '-') :
    parse [c] = .ok (value.number 0)
    ∧ parse_value (parse_fuel [c]) ⟨[c], 0⟩ = .ok (value.number 0, ⟨[c], 1⟩)
    ∧ parse ['[', 'a', 'b', 'c', ']']
        = .ok (value.list [value.number 0, value.number 0, value.number 0])
    ∧ ∀ (s : input) (pos : Nat) (mes : String),
        parse_number_or_float s = .error (thrown.parse_exception pos mes) → mes = "eof" := by
  have h := parse_value_stray c hws hd hb [] 5
  refine ⟨parse_of_parse_value [c] _ _ h, ?_, rfl, ?_⟩
  · simpa [cur] using h
  · intro s pos mes hs
    exact parse_number_or_float_error s _ hs pos mes rfl

/-- C20, at the byte `x`: the input `x` is read as the number 0. -/
theorem C20_stray_byte_read_as_zero_witness :
    is_ws 'x' = false ∧ 'x' ∉ digits ∧ parse ['x'] = .ok (value.number 0) :=
  ⟨by decide, by decide,
    (C20_stray_byte_read_as_zero 'x' (by decide) (by decide)
      ⟨by decide, by decide, by decide, by decide, by decide⟩).1⟩

/-! ## Progress: the cursor's members -/

theorem steps_refl (s : input) (h : s.wf) : steps s s := ⟨rfl, le_refl _, h⟩

theorem steps_trans {s t u : input} (h1 : steps s t) (h2 : steps t u) : steps s u := by
  obtain ⟨a1, a2, a3⟩ := h1
  obtain ⟨b1, b2, b3⟩ := h2
  rw [a1] at b3
  exact ⟨b1.trans a1, le_trans a2 b2, b3⟩

theorem advances_steps {s t u : input} (h1 : advances s t) (h2 : steps t u) : advances s u := by
  obtain ⟨a1, a2, a3⟩ := h1
  obtain ⟨b1, b2, b3⟩ := h2
  rw [a1] at b3
  exact ⟨b1.trans a1, lt_of_lt_of_le a2 b2, b3⟩

theorem steps_advances {s t u : input} (h1 : steps s t) (h2 : advances t u) : advances s u := by
  obtain ⟨a1, a2, a3⟩ := h1
  obtain ⟨b1, b2, b3⟩ := h2
  rw [a1] at b3
  exact ⟨b1.trans a1, lt_of_le_of_lt a2 b2, b3⟩

theorem advances_to_steps {s t : input} (h : advances s t) : steps s t :=
  ⟨h.1, le_of_lt h.2.1, h.2.2⟩

theorem steps_wf {s t : input} (h : steps s t) : t.wf := by
  obtain ⟨a1, _, a3⟩ := h
  unfold input.wf
  rw [a1]; exact a3

theorem steps_rem {s t : input} (h : steps s t) : t.rem ≤ s.rem := by
  obtain ⟨a1, a2, a3⟩ := h
  unfold input.rem
  rw [a1]; omega

theorem advances_rem {s t : input} (h : advances s t) : t.rem + 1 ≤ s.rem := by
  obtain ⟨a1, a2, a3⟩ := h
  unfold input.rem
  rw [a1]; omega

theorem skip_loop_steps (f : Nat) : ∀ (s : input), s.wf → steps s (skip_loop f s) := by
  induction f with
  | zero => intro s h; exact steps_refl s h
  | succ f ih =>
    intro s h
    unfold skip_loop
    by_cases hk : s._i < s._in.length
    · rw [if_pos hk]
      cases hg : s._in[s._i]? with
      | none => exact steps_refl s h
      | some c =>
        dsimp only
        by_cases hw : is_ws c = true
        · rw [if_pos hw]
          have h1 : steps s { s with _i := s._i + 1 } := ⟨rfl, Nat.le_succ _, hk⟩
          exact steps_trans h1 (ih _ (steps_wf h1))
        · rw [if_neg hw]
          exact steps_refl s h
    · rw [if_neg hk]
      exact steps_refl s h

theorem skip_steps (s : input) (h : s.wf) : steps s s.skip := skip_loop_steps _ s h

theorem match_at_steps (s : input) (h : s.wf) (c : Char) (k : Nat) (b : Bool) (t : input)
    (hm : s.match_at c k = .ok (b, t)) :
    steps s t ∧ (b = true → t._i + k < t._in.length) := by
  unfold input.match_at at hm
  by_cases hk : s._i + k < s._in.length
  · rw [if_neg (not_not.2 hk)] at hm
    dsimp only at hm
    cases hg : s.skip._in[s.skip._i + k]? with
    | none => rw [hg] at hm; cases hm
    | some d =>
      rw [hg] at hm
      injection hm with hm
      injection hm with hb ht
      subst ht
      refine ⟨skip_steps s h, fun _ => ?_⟩
      by_contra hcon
      rw [List.getElem?_eq_none (by omega)] at hg
      cases hg
  · rw [if_pos hk] at hm
    injection hm with hm
    injection hm with hb ht
    subst ht
    exact ⟨steps_refl s h, fun hbt => by rw [← hb] at hbt; cases hbt⟩

theorem match_any_at_steps (chars : List Char) : ∀ (s : input), s.wf → ∀ (k : Nat) (b : Bool)
    (t : input), s.match_any_at chars k = .ok (b, t) →
    steps s t ∧ (b = true → t._i + k < t._in.length) := by
  induction chars with
  | nil =>
    intro s h k b t hm
    simp only [input.match_any_at] at hm
    injection hm with hm
    injection hm with hb ht
    subst ht
    exact ⟨steps_refl s h, fun hbt => by rw [← hb] at hbt; cases hbt⟩
  | cons x xs ih =>
    intro s h k b t hm
    unfold input.match_any_at at hm
    cases h1 : s.match_at x k with
    | error e1 => rw [h1] at hm; cases hm
    | ok p =>
      obtain ⟨b1, s1⟩ := p
      rw [h1] at hm
      obtain ⟨hs1, hb1⟩ := match_at_steps s h x k b1 s1 h1
      cases b1 with
      | true =>
        injection hm with hm
        injection hm with hb ht
        subst ht
        exact ⟨hs1, fun _ => hb1 rfl⟩
      | false =>
        obtain ⟨hs2, hb2⟩ := ih s1 (steps_wf hs1) k b t hm
        exact ⟨steps_trans hs1 hs2, hb2⟩

theorem getc_advances (s : input) (c : Char) (t : input) (hg : s.getc = .ok (c, t)) :
    advances s t := by
  unfold input.getc at hg
  by_cases hk : s._i < s._in.length
  · rw [if_neg (not_not.2 hk)] at hg
    cases h1 : s._in[s._i]? with
    | none => rw [h1] at hg; cases hg
    | some d =>
      rw [h1] at hg
      injection hg with hg
      injection hg with _ ht
      subst ht
      exact ⟨rfl, Nat.lt_succ_self _, hk⟩
  · rw [if_pos hk] at hg
    cases hg

theorem getc_not_no_fuel (s : input) (e : thrown) (hg : s.getc = .error e) :
    e ≠ thrown.no_fuel := by
  intro he
  unfold input.getc at hg
  by_cases hk : s._i < s._in.length
  · rw [if_neg (not_not.2 hk)] at hg
    cases h1 : s._in[s._i]? with
    | none => rw [h1] at hg; injection hg with hg; rw [← hg] at he; cases he
    | some d => rw [h1] at hg; cases hg
  · rw [if_pos hk] at hg
    injection hg with hg
    rw [← hg] at he
    cases he

theorem match_at_not_no_fuel (s : input) (c : Char) (k : Nat) (e : thrown)
    (h : s.match_at c k = .error e) : e ≠ thrown.no_fuel := by
  rw [match_at_error s c k e h]
  intro he; cases he

theorem match_any_at_not_no_fuel (chars : List Char) (s : input) (k : Nat) (e : thrown)
    (h : s.match_any_at chars k = .error e) : e ≠ thrown.no_fuel := by
  rw [match_any_at_error chars s k e h]
  intro he; cases he

/-! ## Progress: the readers of numbers and strings -/

theorem good_after_steps {α : Type} {A B : Prop} {st : Bool} {s t : input}
    {r : Except thrown (α × input)} (hs : steps s t) (h : good B st t r) (hA : A → B) :
    good A st s r := by
  cases r with
  | error e => exact fun a => h (hA a)
  | ok p =>
    obtain ⟨x, u⟩ := p
    cases st with
    | true => exact steps_advances hs h
    | false => exact steps_trans hs h

theorem good_after_advances {α : Type} {A B : Prop} {st st1 : Bool} {s t : input}
    {r : Except thrown (α × input)} (hs : advances s t) (h : good B st1 t r) (hA : A → B) :
    good A st s r := by
  cases r with
  | error e => exact fun a => h (hA a)
  | ok p =>
    obtain ⟨x, u⟩ := p
    have hu : steps t u := by
      cases st1 with
      | true => exact advances_to_steps h
      | false => exact h
    cases st with
    | true => exact advances_steps hs hu
    | false => exact advances_to_steps (advances_steps hs hu)

theorem good_error {α : Type} {A : Prop} {st : Bool} {s : input} {e : thrown}
    (h : e ≠ thrown.no_fuel) : good (α := α) A st s (.error e) :=
  fun _ => h

theorem parse_digits_loop_good (chars : List Char) (f : Nat) :
    ∀ (s : input) (buf : List Char), s.wf →
      good (s.rem + 1 ≤ f) true s (parse_digits_loop chars f s buf) := by
  induction f with
  | zero =>
    intro s buf _
    intro h
    omega
  | succ f ih =>
    intro s buf hwf
    unfold parse_digits_loop
    cases hg : s.getc with
    | error e1 => exact good_error (getc_not_no_fuel s e1 hg)
    | ok p =>
      obtain ⟨c, s1⟩ := p
      have h1 := getc_advances s c s1 hg
      dsimp only
      cases hm : s1.match_any chars with
      | error e1 => exact good_error (match_any_at_not_no_fuel chars s1 0 e1 hm)
      | ok q =>
        obtain ⟨b, s2⟩ := q
        obtain ⟨h2, _⟩ := match_any_at_steps chars s1 (steps_wf (advances_to_steps h1)) 0 b s2 hm
        have h12 := advances_steps h1 h2
        cases b with
        | true =>
          dsimp only
          refine good_after_advances h12 (ih s2 (buf ++ [c]) (steps_wf h2)) ?_
          have := advances_rem h12
          omega
        | false => exact h12

theorem parse_sign_digits_good (chars : List Char) (s : input) (hwf : s.wf) :
    good True true s (parse_sign_digits chars s) := by
  unfold parse_sign_digits
  cases hm : s.match_ '-' with
  | error e1 => exact good_error (match_at_not_no_fuel s '-' 0 e1 hm)
  | ok p =>
    obtain ⟨b, s1⟩ := p
    obtain ⟨h1, _⟩ := match_at_steps s hwf '-' 0 b s1 hm
    cases b with
    | false =>
      dsimp only
      exact good_after_steps h1 (parse_digits_loop_good chars _ s1 [] (steps_wf h1))
        (fun _ => by unfold input.fuel input.rem; omega)
    | true =>
      dsimp only
      cases hg : s1.getc with
      | error e1 => exact good_error (getc_not_no_fuel s1 e1 hg)
      | ok q =>
        obtain ⟨c, s2⟩ := q
        have h2 := getc_advances s1 c s2 hg
        dsimp only
        exact good_after_advances (steps_advances h1 h2)
          (parse_digits_loop_good chars _ s2 [c] (steps_wf (advances_to_steps h2)))
          (fun _ => by unfold input.fuel input.rem; omega)

theorem parse_number_good (s : input) (hwf : s.wf) : good True true s (parse_number s) := by
  unfold parse_number
  have h := parse_sign_digits_good digits s hwf
  cases hd : parse_sign_digits digits s with
  | error e1 => rw [hd] at h; exact h
  | ok p => obtain ⟨buf, s1⟩ := p; rw [hd] at h; exact h

theorem parse_float_good (s : input) (hwf : s.wf) : good True true s (parse_float s) := by
  unfold parse_float
  have h := parse_sign_digits_good digits_dot s hwf
  cases hd : parse_sign_digits digits_dot s with
  | error e1 => rw [hd] at h; exact h
  | ok p => obtain ⟨buf, s1⟩ := p; rw [hd] at h; exact h

theorem scan_for_dot_good (f : Nat) : ∀ (s : input) (k : Nat), s.wf →
    good (k ≤ s._in.length ∧ s._in.length + 1 ≤ f + k) false s (scan_for_dot f s k) := by
  induction f with
  | zero =>
    intro s k _
    intro h
    omega
  | succ f ih =>
    intro s k hwf
    unfold scan_for_dot
    by_cases hk : k < s.remaining
    · rw [if_neg (not_not.2 hk)]
      cases hm : s.match_at '.' k with
      | error e1 => exact good_error (match_at_not_no_fuel s '.' k e1 hm)
      | ok p =>
        obtain ⟨b, s1⟩ := p
        obtain ⟨h1, _⟩ := match_at_steps s hwf '.' k b s1 hm
        cases b with
        | true => exact h1
        | false =>
          dsimp only
          cases hd : s1.match_any_at digits k with
          | error e1 => exact good_error (match_any_at_not_no_fuel digits s1 k e1 hd)
          | ok q =>
            obtain ⟨b2, s2⟩ := q
            obtain ⟨h2, hb2⟩ := match_any_at_steps digits s1 (steps_wf h1) k b2 s2 hd
            have h12 := steps_trans h1 h2
            cases b2 with
            | false => exact h12
            | true =>
              dsimp only
              refine good_after_steps h12 (ih s2 (k + 1) (steps_wf h12)) ?_
              intro ha
              have hlen : s2._in.length = s._in.length := by rw [h12.1]
              have := hb2 rfl
              omega
    · rw [if_pos hk]
      exact steps_refl s hwf

theorem parse_number_or_float_good (s : input) (hwf : s.wf) :
    good True true s (parse_number_or_float s) := by
  unfold parse_number_or_float
  have hscan := scan_for_dot_good (s._in.length + 1) s 0 hwf
  cases hs : scan_for_dot (s._in.length + 1) s 0 with
  | error e1 =>
    rw [hs] at hscan
    exact good_error (hscan ⟨Nat.zero_le _, by omega⟩)
  | ok p =>
    obtain ⟨b, s1⟩ := p
    rw [hs] at hscan
    have h1 : steps s s1 := hscan
    cases b with
    | true =>
      dsimp only
      have h := parse_float_good s1 (steps_wf h1)
      cases hd : parse_float s1 with
      | error e1 => rw [hd] at h; exact good_error (h trivial)
      | ok q => obtain ⟨x, s2⟩ := q; rw [hd] at h; exact steps_advances h1 h
    | false =>
      dsimp only
      have h := parse_number_good s1 (steps_wf h1)
      cases hd : parse_number s1 with
      | error e1 => rw [hd] at h; exact good_error (h trivial)
      | ok q => obtain ⟨x, s2⟩ := q; rw [hd] at h; exact steps_advances h1 h

/-! ## Progress: the reader of strings -/

theorem parse_squote_loop_good (f : Nat) : ∀ (s : input) (buf : List Char), s.wf →
    good (s.rem + 1 ≤ f) false s (parse_squote_loop f s buf) := by
  induction f with
  | zero =>
    intro s buf _
    intro h
    omega
  | succ f ih =>
    intro s buf hwf
    have tail : ∀ (s5 : input) (buf1 : List Char), steps s s5 →
        good (s.rem + 1 ≤ f + 1) false s
          (match s5.match_ '\'' with
            | .error e => .error e
            | .ok (true, s6) => .ok (buf1, s6)
            | .ok (false, s6) =>
              match s6.getc with
              | .error e => .error e
              | .ok (c, s7) => parse_squote_loop f s7 (buf1 ++ [c])) := by
      intro s5 buf1 h5
      cases hm : s5.match_ '\'' with
      | error e1 => exact good_error (match_at_not_no_fuel s5 '\'' 0 e1 hm)
      | ok p =>
        obtain ⟨b, s6⟩ := p
        obtain ⟨h6, _⟩ := match_at_steps s5 (steps_wf h5) '\'' 0 b s6 hm
        have h56 := steps_trans h5 h6
        cases b with
        | true => exact h56
        | false =>
          dsimp only
          cases hg : s6.getc with
          | error e1 => exact good_error (getc_not_no_fuel s6 e1 hg)
          | ok q =>
            obtain ⟨c, s7⟩ := q
            have h7 := steps_advances h56 (getc_advances s6 c s7 hg)
            dsimp only
            refine good_after_advances h7 (ih s7 (buf1 ++ [c])
              (steps_wf (advances_to_steps h7))) ?_
            have := advances_rem h7
            omega
    unfold parse_squote_loop
    dsimp only
    cases hm : s.match_ '\'' with
    | error e1 => exact good_error (match_at_not_no_fuel s '\'' 0 e1 hm)
    | ok p =>
      obtain ⟨b, s1⟩ := p
      obtain ⟨h1, _⟩ := match_at_steps s hwf '\'' 0 b s1 hm
      cases b with
      | false => exact tail s1 buf h1
      | true =>
        dsimp only
        cases hm1 : s1.match_at '\'' 1 with
        | error e1 => exact good_error (match_at_not_no_fuel s1 '\'' 1 e1 hm1)
        | ok q =>
          obtain ⟨d, s2⟩ := q
          obtain ⟨h2, _⟩ := match_at_steps s1 (steps_wf h1) '\'' 1 d s2 hm1
          have h12 := steps_trans h1 h2
          cases d with
          | false => exact tail s2 buf h12
          | true =>
            dsimp only
            simp only [if_true]
            cases hg : s2.getc with
            | error e1 => exact good_error (getc_not_no_fuel s2 e1 hg)
            | ok q2 =>
              obtain ⟨c3, s3⟩ := q2
              have h3 := steps_advances h12 (getc_advances s2 c3 s3 hg)
              dsimp only
              cases hg4 : s3.getc with
              | error e1 => exact good_error (getc_not_no_fuel s3 e1 hg4)
              | ok q4 =>
                obtain ⟨c4, s4⟩ := q4
                have h4 := advances_steps h3 (advances_to_steps (getc_advances s3 c4 s4 hg4))
                exact tail s4 (buf ++ ['\'']) (advances_to_steps h4)

theorem parse_dquote_loop_good (f : Nat) : ∀ (s : input) (buf : List Char), s.wf →
    good (s.rem + 1 ≤ f) false s (parse_dquote_loop f s buf) := by
  induction f with
  | zero =>
    intro s buf _
    intro h
    omega
  | succ f ih =>
    intro s buf hwf
    unfold parse_dquote_loop
    cases hm : s.match_ '\\' with
    | error e1 => exact good_error (match_at_not_no_fuel s '\\' 0 e1 hm)
    | ok p =>
      obtain ⟨b, s1⟩ := p
      obtain ⟨h1, _⟩ := match_at_steps s hwf '\\' 0 b s1 hm
      cases b with
      | true =>
        dsimp only
        cases hg : s1.getc with
        | error e1 => exact good_error (getc_not_no_fuel s1 e1 hg)
        | ok q =>
          obtain ⟨c2, s2⟩ := q
          have h2 := steps_advances h1 (getc_advances s1 c2 s2 hg)
          dsimp only
          cases hg3 : s2.getc with
          | error e1 => exact good_error (getc_not_no_fuel s2 e1 hg3)
          | ok q3 =>
            obtain ⟨c, s3⟩ := q3
            have h3 := advances_steps h2 (advances_to_steps (getc_advances s2 c s3 hg3))
            have hrec : ∀ buf1, good (s.rem + 1 ≤ f + 1) false s (parse_dquote_loop f s3 buf1) := by
              intro buf1
              refine good_after_advances h3 (ih s3 buf1 (steps_wf (advances_to_steps h3))) ?_
              have := advances_rem h3
              omega
            dsimp only
            split_ifs
            · exact hrec _
            · exact hrec _
            · exact hrec _
            · exact hrec _
            · exact hrec _
            · exact good_error (by intro he; cases he)
      | false =>
        dsimp only
        cases hm2 : s1.match_ '"' with
        | error e1 => exact good_error (match_at_not_no_fuel s1 '"' 0 e1 hm2)
        | ok q =>
          obtain ⟨b2, s2⟩ := q
          obtain ⟨h2, _⟩ := match_at_steps s1 (steps_wf h1) '"' 0 b2 s2 hm2
          have h12 := steps_trans h1 h2
          cases b2 with
          | true => exact h12
          | false =>
            dsimp only
            cases hg : s2.getc with
            | error e1 => exact good_error (getc_not_no_fuel s2 e1 hg)
            | ok q3 =>
              obtain ⟨c, s3⟩ := q3
              have h3 := steps_advances h12 (getc_advances s2 c s3 hg)
              dsimp only
              refine good_after_advances h3 (ih s3 (buf ++ [c])
                (steps_wf (advances_to_steps h3))) ?_
              have := advances_rem h3
              omega

theorem parse_closing_good (q : Char) (mes : String) (buf : List Char) (s : input)
    (hwf : s.wf) : good True true s (parse_closing q mes buf s) := by
  unfold parse_closing
  cases hm : s.match_ q with
  | error e1 => exact good_error (match_at_not_no_fuel s q 0 e1 hm)
  | ok p =>
    obtain ⟨b, s1⟩ := p
    obtain ⟨h1, _⟩ := match_at_steps s hwf q 0 b s1 hm
    cases b with
    | false => exact good_error (by intro he; cases he)
    | true =>
      dsimp only
      cases hg : s1.getc with
      | error e1 => exact good_error (getc_not_no_fuel s1 e1 hg)
      | ok p2 =>
        obtain ⟨c, s2⟩ := p2
        exact steps_advances h1 (getc_advances s1 c s2 hg)

theorem parse_string_good (s : input) (hwf : s.wf) : good True true s (parse_string s) := by
  unfold parse_string
  cases hm : s.match_ '\'' with
  | error e1 => exact good_error (match_at_not_no_fuel s '\'' 0 e1 hm)
  | ok p =>
    obtain ⟨b, s1⟩ := p
    obtain ⟨h1, _⟩ := match_at_steps s hwf '\'' 0 b s1 hm
    cases b with
    | true =>
      dsimp only
      cases hg : s1.getc with
      | error e1 => exact good_error (getc_not_no_fuel s1 e1 hg)
      | ok p2 =>
        obtain ⟨c, s2⟩ := p2
        have h2 := steps_advances h1 (getc_advances s1 c s2 hg)
        have hloop := parse_squote_loop_good s2.fuel s2 [] (steps_wf (advances_to_steps h2))
        dsimp only
        cases hl : parse_squote_loop s2.fuel s2 [] with
        | error e1 =>
          rw [hl] at hloop
          exact good_error (hloop (by unfold input.fuel input.rem; omega))
        | ok p3 =>
          obtain ⟨buf, s3⟩ := p3
          rw [hl] at hloop
          have h3 : steps s2 s3 := hloop
          exact good_after_advances (advances_steps h2 h3)
            (parse_closing_good '\'' _ buf s3 (steps_wf h3)) (fun a => a)
    | false =>
      dsimp only
      cases hm2 : s1.match_ '"' with
      | error e1 => exact good_error (match_at_not_no_fuel s1 '"' 0 e1 hm2)
      | ok p2 =>
        obtain ⟨b2, s2⟩ := p2
        obtain ⟨h2, _⟩ := match_at_steps s1 (steps_wf h1) '"' 0 b2 s2 hm2
        have h12 := steps_trans h1 h2
        cases b2 with
        | false => exact good_error (by intro he; cases he)
        | true =>
          dsimp only
          cases hg : s2.getc with
          | error e1 => exact good_error (getc_not_no_fuel s2 e1 hg)
          | ok p3 =>
            obtain ⟨c, s3⟩ := p3
            have h3 := steps_advances h12 (getc_advances s2 c s3 hg)
            have hloop := parse_dquote_loop_good s3.fuel s3 [] (steps_wf (advances_to_steps h3))
            dsimp only
            cases hl : parse_dquote_loop s3.fuel s3 [] with
            | error e1 =>
              rw [hl] at hloop
              exact good_error (hloop (by unfold input.fuel input.rem; omega))
            | ok p4 =>
              obtain ⟨buf, s4⟩ := p4
              rw [hl] at hloop
              have h4 : steps s3 s4 := hloop
              exact good_after_advances (advances_steps h3 h4)
                (parse_closing_good '"' _ buf s4 (steps_wf h4)) (fun a => a)

/-! ## Progress: the readers of values, lists and dictionaries -/

theorem readers_good (f : Nat) : ∀ (s : input), s.wf →
    good (3 * s.rem + 1 ≤ f) true s (parse_value f s)
    ∧ good (3 * s.rem ≤ f ∧ 1 ≤ f) true s (parse_list f s)
    ∧ (∀ buf, good (3 * s.rem + 2 ≤ f) false s (parse_list_loop f s buf))
    ∧ good (3 * s.rem ≤ f ∧ 1 ≤ f) true s (parse_dictionary f s)
    ∧ (∀ buf, good (3 * s.rem + 2 ≤ f) false s (parse_dictionary_loop f s buf)) := by
  induction f with
  | zero =>
    intro s _
    refine ⟨?_, ?_, fun buf => ?_, ?_, fun buf => ?_⟩
    · unfold parse_value; intro h; omega
    · unfold parse_list; intro h; omega
    · unfold parse_list_loop; intro h; omega
    · unfold parse_dictionary; intro h; omega
    · unfold parse_dictionary_loop; intro h; omega
  | succ f ih =>
    intro s hwf
    have hrem_pos : ∀ (t : input), t._i + 0 < t._in.length → 1 ≤ t.rem := by
      intro t ht
      unfold input.rem
      omega
    refine ⟨?_, ?_, fun buf => ?_, ?_, fun buf => ?_⟩
    · -- parse_value
      have hstr : ∀ (s4 : input), steps s s4 →
          good (3 * s.rem + 1 ≤ f + 1) true s
            (match parse_string s4 with
              | .error e => .error e
              | .ok (str, s5) => .ok (value.string str, s5)) := by
        intro s4 h4
        have h := parse_string_good s4 (steps_wf h4)
        cases hp : parse_string s4 with
        | error e1 => rw [hp] at h; exact good_error (h trivial)
        | ok q => obtain ⟨str, s5⟩ := q; rw [hp] at h; exact steps_advances h4 h
      unfold parse_value
      cases hm : s.match_ '\x7b' with
      | error e1 => exact good_error (match_at_not_no_fuel s _ 0 e1 hm)
      | ok p =>
        obtain ⟨b, s1⟩ := p
        obtain ⟨h1, hb1⟩ := match_at_steps s hwf _ 0 b s1 hm
        have hr1 := steps_rem h1
        cases b with
        | true =>
          dsimp only
          have h := (ih s1 (steps_wf h1)).2.2.2.1
          have := hrem_pos s1 (hb1 rfl)
          cases hd : parse_dictionary f s1 with
          | error e1 =>
            rw [hd] at h
            exact fun ha => h ⟨by omega, by omega⟩
          | ok q => obtain ⟨d, s2⟩ := q; rw [hd] at h; exact steps_advances h1 h
        | false =>
          dsimp only
          cases hm2 : s1.match_ '[' with
          | error e1 => exact good_error (match_at_not_no_fuel s1 _ 0 e1 hm2)
          | ok p2 =>
            obtain ⟨b2, s2⟩ := p2
            obtain ⟨h2, hb2⟩ := match_at_steps s1 (steps_wf h1) _ 0 b2 s2 hm2
            have h12 := steps_trans h1 h2
            have hr2 := steps_rem h12
            cases b2 with
            | true =>
              dsimp only
              have h := (ih s2 (steps_wf h12)).2.1
              have := hrem_pos s2 (hb2 rfl)
              cases hd : parse_list f s2 with
              | error e1 =>
                rw [hd] at h
                exact fun ha => h ⟨by omega, by omega⟩
              | ok q => obtain ⟨xs, s3⟩ := q; rw [hd] at h; exact steps_advances h12 h
            | false =>
              dsimp only
              cases hm3 : s2.match_ '\'' with
              | error e1 => exact good_error (match_at_not_no_fuel s2 _ 0 e1 hm3)
              | ok p3 =>
                obtain ⟨b3, s3⟩ := p3
                obtain ⟨h3, _⟩ := match_at_steps s2 (steps_wf h12) _ 0 b3 s3 hm3
                have h13 := steps_trans h12 h3
                cases b3 with
                | true => exact hstr s3 h13
                | false =>
                  dsimp only
                  cases hm4 : s3.match_ '"' with
                  | error e1 => exact good_error (match_at_not_no_fuel s3 _ 0 e1 hm4)
                  | ok p4 =>
                    obtain ⟨b4, s4⟩ := p4
                    obtain ⟨h4, _⟩ := match_at_steps s3 (steps_wf h13) _ 0 b4 s4 hm4
                    have h14 := steps_trans h13 h4
                    cases b4 with
                    | true => exact hstr s4 h14
                    | false =>
                      exact good_after_steps h14
                        (parse_number_or_float_good s4 (steps_wf h14)) (fun _ => trivial)
    · -- parse_list
      unfold parse_list
      cases hm : s.match_ '[' with
      | error e1 => exact good_error (match_at_not_no_fuel s _ 0 e1 hm)
      | ok p =>
        obtain ⟨b, s1⟩ := p
        obtain ⟨h1, _⟩ := match_at_steps s hwf _ 0 b s1 hm
        cases b with
        | false => exact good_error (by intro he; cases he)
        | true =>
          dsimp only
          cases hg : s1.getc with
          | error e1 => exact good_error (getc_not_no_fuel s1 e1 hg)
          | ok p2 =>
            obtain ⟨c, s2⟩ := p2
            have h2 := steps_advances h1 (getc_advances s1 c s2 hg)
            have hr2 := advances_rem h2
            have h := (ih s2 (steps_wf (advances_to_steps h2))).2.2.1 []
            dsimp only
            cases hl : parse_list_loop f s2 [] with
            | error e1 =>
              rw [hl] at h
              exact fun ha => h (by omega)
            | ok p3 =>
              obtain ⟨buf, s3⟩ := p3
              rw [hl] at h
              have h3 : advances s s3 := advances_steps h2 h
              dsimp only
              cases hm4 : s3.match_ ']' with
              | error e1 => exact good_error (match_at_not_no_fuel s3 _ 0 e1 hm4)
              | ok p4 =>
                obtain ⟨b4, s4⟩ := p4
                obtain ⟨h4, _⟩ :=
                  match_at_steps s3 (steps_wf (advances_to_steps h3)) _ 0 b4 s4 hm4
                have h34 := advances_steps h3 h4
                cases b4 with
                | false => exact good_error (by intro he; cases he)
                | true =>
                  dsimp only
                  cases hg5 : s4.getc with
                  | error e1 => exact good_error (getc_not_no_fuel s4 e1 hg5)
                  | ok p5 =>
                    obtain ⟨c5, s5⟩ := p5
                    exact advances_steps h34 (advances_to_steps (getc_advances s4 c5 s5 hg5))
    · -- parse_list_loop
      unfold parse_list_loop
      cases hm : s.match_ ']' with
      | error e1 => exact good_error (match_at_not_no_fuel s _ 0 e1 hm)
      | ok p =>
        obtain ⟨b, s1⟩ := p
        obtain ⟨h1, _⟩ := match_at_steps s hwf _ 0 b s1 hm
        have hr1 := steps_rem h1
        cases b with
        | true => exact h1
        | false =>
          dsimp only
          have h := (ih s1 (steps_wf h1)).1
          cases hv : parse_value f s1 with
          | error e1 =>
            rw [hv] at h
            exact fun ha => h (by omega)
          | ok p2 =>
            obtain ⟨v, s2⟩ := p2
            rw [hv] at h
            have h2 : advances s s2 := steps_advances h1 h
            dsimp only
            cases hm3 : s2.match_ ',' with
            | error e1 => exact good_error (match_at_not_no_fuel s2 _ 0 e1 hm3)
            | ok p3 =>
              obtain ⟨b3, s3⟩ := p3
              obtain ⟨h3, _⟩ :=
                match_at_steps s2 (steps_wf (advances_to_steps h2)) _ 0 b3 s3 hm3
              have h23 := advances_steps h2 h3
              cases b3 with
              | false =>
                dsimp only
                refine good_after_advances h23
                  ((ih s3 (steps_wf (advances_to_steps h23))).2.2.1 (buf ++ [v])) ?_
                have := advances_rem h23
                omega
              | true =>
                dsimp only
                cases hg : s3.getc with
                | error e1 => exact good_error (getc_not_no_fuel s3 e1 hg)
                | ok p4 =>
                  obtain ⟨c4, s4⟩ := p4
                  have h4 := advances_steps h23 (advances_to_steps (getc_advances s3 c4 s4 hg))
                  dsimp only
                  refine good_after_advances h4
                    ((ih s4 (steps_wf (advances_to_steps h4))).2.2.1 (buf ++ [v])) ?_
                  have := advances_rem h4
                  omega
    · -- parse_dictionary
      unfold parse_dictionary
      cases hm : s.match_ '\x7b' with
      | error e1 => exact good_error (match_at_not_no_fuel s _ 0 e1 hm)
      | ok p =>
        obtain ⟨b, s1⟩ := p
        obtain ⟨h1, _⟩ := match_at_steps s hwf _ 0 b s1 hm
        cases b with
        | false => exact good_error (by intro he; cases he)
        | true =>
          dsimp only
          cases hg : s1.getc with
          | error e1 => exact good_error (getc_not_no_fuel s1 e1 hg)
          | ok p2 =>
            obtain ⟨c, s2⟩ := p2
            have h2 := steps_advances h1 (getc_advances s1 c s2 hg)
            have hr2 := advances_rem h2
            have h := (ih s2 (steps_wf (advances_to_steps h2))).2.2.2.2 []
            dsimp only
            cases hl : parse_dictionary_loop f s2 [] with
            | error e1 =>
              rw [hl] at h
              exact fun ha => h (by omega)
            | ok p3 =>
              obtain ⟨buf, s3⟩ := p3
              rw [hl] at h
              have h3 : advances s s3 := advances_steps h2 h
              dsimp only
              cases hm4 : s3.match_ '\x7d' with
              | error e1 => exact good_error (match_at_not_no_fuel s3 _ 0 e1 hm4)
              | ok p4 =>
                obtain ⟨b4, s4⟩ := p4
                obtain ⟨h4, _⟩ :=
                  match_at_steps s3 (steps_wf (advances_to_steps h3)) _ 0 b4 s4 hm4
                have h34 := advances_steps h3 h4
                cases b4 with
                | false => exact good_error (by intro he; cases he)
                | true =>
                  dsimp only
                  cases hg5 : s4.getc with
                  | error e1 => exact good_error (getc_not_no_fuel s4 e1 hg5)
                  | ok p5 =>
                    obtain ⟨c5, s5⟩ := p5
                    exact advances_steps h34 (advances_to_steps (getc_advances s4 c5 s5 hg5))
    · -- parse_dictionary_loop
      unfold parse_dictionary_loop
      cases hm : s.match_ '\x7d' with
      | error e1 => exact good_error (match_at_not_no_fuel s _ 0 e1 hm)
      | ok p =>
        obtain ⟨b, s1⟩ := p
        obtain ⟨h1, _⟩ := match_at_steps s hwf _ 0 b s1 hm
        cases b with
        | true => exact h1
        | false =>
          dsimp only
          have hs := parse_string_good s1 (steps_wf h1)
          cases hk : parse_string s1 with
          | error e1 => rw [hk] at hs; exact good_error (hs trivial)
          | ok p2 =>
            obtain ⟨key, s2⟩ := p2
            rw [hk] at hs
            have h2 : advances s s2 := steps_advances h1 hs
            dsimp only
            cases hm3 : s2.match_ ':' with
            | error e1 => exact good_error (match_at_not_no_fuel s2 _ 0 e1 hm3)
            | ok p3 =>
              obtain ⟨b3, s3⟩ := p3
              obtain ⟨h3, _⟩ :=
                match_at_steps s2 (steps_wf (advances_to_steps h2)) _ 0 b3 s3 hm3
              have h23 := advances_steps h2 h3
              cases b3 with
              | false => exact good_error (by intro he; cases he)
              | true =>
                dsimp only
                cases hg : s3.getc with
                | error e1 => exact good_error (getc_not_no_fuel s3 e1 hg)
                | ok p4 =>
                  obtain ⟨c4, s4⟩ := p4
                  have h4 := advances_steps h23 (advances_to_steps (getc_advances s3 c4 s4 hg))
                  have hr4 := advances_rem h4
                  have h := (ih s4 (steps_wf (advances_to_steps h4))).1
                  dsimp only
                  cases hv : parse_value f s4 with
                  | error e1 =>
                    rw [hv] at h
                    exact fun ha => h (by omega)
                  | ok p5 =>
                    obtain ⟨v, s5⟩ := p5
                    rw [hv] at h
                    have h5 : advances s s5 := advances_steps h4 (advances_to_steps h)
                    dsimp only
                    cases hm6 : s5.match_ ',' with
                    | error e1 => exact good_error (match_at_not_no_fuel s5 _ 0 e1 hm6)
                    | ok p6 =>
                      obtain ⟨b6, s6⟩ := p6
                      obtain ⟨h6, _⟩ :=
                        match_at_steps s5 (steps_wf (advances_to_steps h5)) _ 0 b6 s6 hm6
                      have h56 := advances_steps h5 h6
                      cases b6 with
                      | false =>
                        dsimp only
                        refine good_after_advances h56
                          ((ih s6 (steps_wf (advances_to_steps h56))).2.2.2.2
                            (dictionary_assign key v buf)) ?_
                        have := advances_rem h56
                        omega
                      | true =>
                        dsimp only
                        cases hg7 : s6.getc with
                        | error e1 => exact good_error (getc_not_no_fuel s6 e1 hg7)
                        | ok p7 =>
                          obtain ⟨c7, s7⟩ := p7
                          have h7 := advances_steps h56
                            (advances_to_steps (getc_advances s6 c7 s7 hg7))
                          dsimp only
                          refine good_after_advances h7
                            ((ih s7 (steps_wf (advances_to_steps h7))).2.2.2.2
                              (dictionary_assign key v buf)) ?_
                          have := advances_rem h7
                          omega

/-! ## Claim C19: progress and termination -/

theorem reader_advances {α : Type} {A : Prop} {s : input} {r : Except thrown (α × input)}
    (h : good A true s r) (x : α) (t : input) (hr : r = .ok (x, t)) : advances s t := by
  rw [hr] at h
  exact h

theorem reader_steps {α : Type} {A : Prop} {s : input} {r : Except thrown (α × input)}
    (h : good A false s r) (x : α) (t : input) (hr : r = .ok (x, t)) : steps s t := by
  rw [hr] at h
  exact h

theorem reader_fuel {α : Type} {A : Prop} {st : Bool} {s : input}
    {r : Except thrown (α × input)} (h : good A st s r) (ha : A) :
    r ≠ .error thrown.no_fuel := by
  intro hr
  rw [hr] at h
  exact h ha rfl

theorem parse_list_loop_round (f : Nat) (s : input) (buf : list_t) (r : list_t × input)
    (hwf : s.wf) (h : parse_list_loop (f + 1) s buf = .ok r) :
    (∃ t, steps s t ∧ r = (buf, t))
    ∨ ∃ v t, advances s t ∧ parse_list_loop f t (buf ++ [v]) = .ok r := by
  unfold parse_list_loop at h
  cases hm : s.match_ ']' with
  | error e1 => rw [hm] at h; cases h
  | ok p =>
    obtain ⟨b, s1⟩ := p
    obtain ⟨h1, _⟩ := match_at_steps s hwf _ 0 b s1 hm
    rw [hm] at h
    cases b with
    | true =>
      injection h with h
      exact Or.inl ⟨s1, h1, h.symm⟩
    | false =>
      dsimp only at h
      have hv := (readers_good f s1 (steps_wf h1)).1
      cases hp : parse_value f s1 with
      | error e1 => rw [hp] at h; cases h
      | ok p2 =>
        obtain ⟨v, s2⟩ := p2
        rw [hp] at h hv
        have h2 : advances s s2 := steps_advances h1 hv
        dsimp only at h
        cases hm3 : s2.match_ ',' with
        | error e1 => rw [hm3] at h; cases h
        | ok p3 =>
          obtain ⟨b3, s3⟩ := p3
          obtain ⟨h3, _⟩ := match_at_steps s2 (steps_wf (advances_to_steps h2)) _ 0 b3 s3 hm3
          rw [hm3] at h
          cases b3 with
          | false => exact Or.inr ⟨v, s3, advances_steps h2 h3, h⟩
          | true =>
            dsimp only at h
            cases hg : s3.getc with
            | error e1 => rw [hg] at h; cases h
            | ok p4 =>
              obtain ⟨c4, s4⟩ := p4
              rw [hg] at h
              exact Or.inr ⟨v, s4, advances_steps (advances_steps h2 h3)
                (advances_to_steps (getc_advances s3 c4 s4 hg)), h⟩

theorem parse_dictionary_loop_round (f : Nat) (s : input) (buf : dictionary_t)
    (r : dictionary_t × input) (hwf : s.wf) (h : parse_dictionary_loop (f + 1) s buf = .ok r) :
    (∃ t, steps s t ∧ r = (buf, t))
    ∨ ∃ key v t, advances s t
        ∧ parse_dictionary_loop f t (dictionary_assign key v buf) = .ok r := by
  unfold parse_dictionary_loop at h
  cases hm : s.match_ '\x7d' with
  | error e1 => rw [hm] at h; cases h
  | ok p =>
    obtain ⟨b, s1⟩ := p
    obtain ⟨h1, _⟩ := match_at_steps s hwf _ 0 b s1 hm
    rw [hm] at h
    cases b with
    | true =>
      injection h with h
      exact Or.inl ⟨s1, h1, h.symm⟩
    | false =>
      dsimp only at h
      have hs := parse_string_good s1 (steps_wf h1)
      cases hk : parse_string s1 with
      | error e1 => rw [hk] at h; cases h
      | ok p2 =>
        obtain ⟨key, s2⟩ := p2
        rw [hk] at h hs
        have h2 : advances s s2 := steps_advances h1 hs
        dsimp only at h
        cases hm3 : s2.match_ ':' with
        | error e1 => rw [hm3] at h; cases h
        | ok p3 =>
          obtain ⟨b3, s3⟩ := p3
          obtain ⟨h3, _⟩ := match_at_steps s2 (steps_wf (advances_to_steps h2)) _ 0 b3 s3 hm3
          have h23 := advances_steps h2 h3
          rw [hm3] at h
          cases b3 with
          | false => cases h
          | true =>
            dsimp only at h
            cases hg : s3.getc with
            | error e1 => rw [hg] at h; cases h
            | ok p4 =>
              obtain ⟨c4, s4⟩ := p4
              have h4 := advances_steps h23 (advances_to_steps (getc_advances s3 c4 s4 hg))
              have hv := (readers_good f s4 (steps_wf (advances_to_steps h4))).1
              rw [hg] at h
              dsimp only at h
              cases hp : parse_value f s4 with
              | error e1 => rw [hp] at h; cases h
              | ok p5 =>
                obtain ⟨v, s5⟩ := p5
                rw [hp] at h hv
                have h5 : advances s s5 := advances_steps h4 (advances_to_steps hv)
                dsimp only at h
                cases hm6 : s5.match_ ',' with
                | error e1 => rw [hm6] at h; cases h
                | ok p6 =>
                  obtain ⟨b6, s6⟩ := p6
                  obtain ⟨h6, _⟩ :=
                    match_at_steps s5 (steps_wf (advances_to_steps h5)) _ 0 b6 s6 hm6
                  have h56 := advances_steps h5 h6
                  rw [hm6] at h
                  cases b6 with
                  | false => exact Or.inr ⟨key, v, s6, h56, h⟩
                  | true =>
                    dsimp only at h
                    cases hg7 : s6.getc with
                    | error e1 => rw [hg7] at h; cases h
                    | ok p7 =>
                      obtain ⟨c7, s7⟩ := p7
                      rw [hg7] at h
                      exact Or.inr ⟨key, v, s7, advances_steps h56
                        (advances_to_steps (getc_advances s6 c7 s7 hg7)), h⟩

theorem window_loop_error (text : List Char) (f : Nat) :
    ∀ (i e : Int) (mes : List Char) (err : failure),
      window_loop text f i e mes = .error err → err = failure.out_of_range := by
  induction f with
  | zero => intro i e mes err h; simp [window_loop] at h
  | succ f ih =>
    intro i e mes err h
    unfold window_loop at h
    by_cases h1 : i < e
    · rw [if_pos h1] at h
      by_cases h2 : i < 0
      · rw [if_pos h2] at h
        injection h with h; exact h.symm
      · rw [if_neg h2] at h
        cases hg : text[i.toNat]? with
        | none => rw [hg] at h; injection h with h; exact h.symm
        | some c =>
          rw [hg] at h
          dsimp only at h
          by_cases h3 : c ≠ '\r' ∧ c ≠ '\n'
          · rw [if_pos h3] at h; exact ih _ _ _ _ h
          · rw [if_neg h3] at h; exact ih _ _ _ _ h
    · rw [if_neg h1] at h; cases h

theorem format_window_error (text : List Char) (pos : Nat) (mes : String) (b e : Int)
    (err : failure) (h : format_window text pos mes b e = .error err) :
    err = failure.out_of_range := by
  unfold format_window at h
  cases hw : window_loop text (e - b).toNat b e [] with
  | error e1 =>
    rw [hw] at h
    exact (Except.error.inj h).symm.trans (window_loop_error _ _ _ _ _ _ hw)
  | ok w => rw [hw] at h; cases h

theorem format_diagnostic_error (text : List Char) (pos : Nat) (mes : String) (err : failure)
    (h : format_diagnostic text pos mes = .error err) : err = failure.out_of_range := by
  unfold format_diagnostic at h
  exact format_window_error _ _ _ _ _ _ h

theorem handler_not_no_fuel (r : Except thrown (value × input))
    (fd : Nat → String → Except failure (List Char))
    (hr : r ≠ .error thrown.no_fuel)
    (hfd : ∀ pos mes err, fd pos mes = .error err → err = failure.out_of_range) :
    (match r with
      | .ok (v, _) => (Except.ok v : Except failure value)
      | .error (thrown.parse_exception pos mes) =>
        match fd pos mes with
        | .error e => .error e
        | .ok d => .error (failure.diagnostic d)
      | .error thrown.out_of_range => .error failure.out_of_range
      | .error thrown.no_fuel => .error failure.no_fuel) ≠ .error failure.no_fuel := by
  cases r with
  | ok p => obtain ⟨v, t⟩ := p; intro h; cases h
  | error e =>
    cases e with
    | no_fuel => exact absurd rfl hr
    | out_of_range => intro h; cases h
    | parse_exception pos mes =>
      dsimp only
      cases hd : fd pos mes with
      | ok d => intro h; cases h
      | error err =>
        dsimp only
        rw [hfd _ _ _ hd]
        intro h; cases h

theorem parse_not_no_fuel (text : List Char) : parse text ≠ .error failure.no_fuel := by
  have hwf : (⟨text, 0⟩ : input).wf := Nat.zero_le _
  have hle : 3 * (⟨text, 0⟩ : input).rem + 1 ≤ parse_fuel text := by
    show 3 * (text.length - 0) + 1 ≤ 3 * text.length + 3
    omega
  have hfuel := reader_fuel (readers_good (parse_fuel text) ⟨text, 0⟩ hwf).1 hle
  exact handler_not_no_fuel (parse_value (parse_fuel text) ⟨text, 0⟩) (format_diagnostic text)
    hfuel (fun pos mes err h => format_diagnostic_error text pos mes err h)

/-- C19: for every input `text` and every cursor position `i` in it, whenever
`parse_value`, `parse_number`, `parse_float`, `parse_string`, `parse_list` or
`parse_dictionary` returns normally, the cursor is still over `text`, its position is
strictly greater than `i` and at most the length of `text`; every round of the loops of
`parse_list` and `parse_dictionary` that does not leave the loop moves the cursor
forward by at least one byte, so a loop makes no more rounds than there are unread bytes;
with fuel of three units per unread byte and two more the readers never run out of fuel,
and `parse` ends on every input with a value, a diagnostic or `std::out_of_range`. -/
theorem C19_cursor_progress (text : List Char) (i : Nat) (hi : i ≤ text.length) :
    (∀ f v t, parse_value f ⟨text, i⟩ = .ok (v, t) →
        t._in = text ∧ i < t._i ∧ t._i ≤ text.length)
    ∧ (∀ n t, parse_number ⟨text, i⟩ = .ok (n, t) →
        t._in = text ∧ i < t._i ∧ t._i ≤ text.length)
    ∧ (∀ x t, parse_float ⟨text, i⟩ = .ok (x, t) →
        t._in = text ∧ i < t._i ∧ t._i ≤ text.length)
    ∧ (∀ str t, parse_string ⟨text, i⟩ = .ok (str, t) →
        t._in = text ∧ i < t._i ∧ t._i ≤ text.length)
    ∧ (∀ f xs t, parse_list f ⟨text, i⟩ = .ok (xs, t) →
        t._in = text ∧ i < t._i ∧ t._i ≤ text.length)
    ∧ (∀ f d t, parse_dictionary f ⟨text, i⟩ = .ok (d, t) →
        t._in = text ∧ i < t._i ∧ t._i ≤ text.length)
    ∧ (∀ f buf r, parse_list_loop (f + 1) ⟨text, i⟩ buf = .ok r →
        (∃ t, steps ⟨text, i⟩ t ∧ r = (buf, t))
        ∨ ∃ v t, advances ⟨text, i⟩ t ∧ parse_list_loop f t (buf ++ [v]) = .ok r)
    ∧ (∀ f buf r, parse_dictionary_loop (f + 1) ⟨text, i⟩ buf = .ok r →
        (∃ t, steps ⟨text, i⟩ t ∧ r = (buf, t))
        ∨ ∃ key v t, advances ⟨text, i⟩ t
            ∧ parse_dictionary_loop f t (dictionary_assign key v buf) = .ok r)
    ∧ (∀ f, 3 * (text.length - i) + 1 ≤ f → parse_value f ⟨text, i⟩ ≠ .error thrown.no_fuel)
    ∧ (∀ f buf, 3 * (text.length - i) + 2 ≤ f →
        parse_list_loop f ⟨text, i⟩ buf ≠ .error thrown.no_fuel)
    ∧ (∀ f buf, 3 * (text.length - i) + 2 ≤ f →
        parse_dictionary_loop f ⟨text, i⟩ buf ≠ .error thrown.no_fuel)
    ∧ parse text ≠ .error failure.no_fuel := by
  have hwf : (⟨text, i⟩ : input).wf := hi
  refine ⟨fun f v t h => reader_advances (readers_good f _ hwf).1 v t h,
    fun n t h => reader_advances (parse_number_good _ hwf) n t h,
    fun x t h => reader_advances (parse_float_good _ hwf) x t h,
    fun str t h => reader_advances (parse_string_good _ hwf) str t h,
    fun f xs t h => reader_advances (readers_good f _ hwf).2.1 xs t h,
    fun f d t h => reader_advances (readers_good f _ hwf).2.2.2.1 d t h,
    fun f buf r h => parse_list_loop_round f _ buf r hwf h,
    fun f buf r h => parse_dictionary_loop_round f _ buf r hwf h,
    fun f hf => reader_fuel (readers_good f _ hwf).1 hf,
    fun f buf hf => reader_fuel ((readers_good f _ hwf).2.2.1 buf) hf,
    fun f buf hf => reader_fuel ((readers_good f _ hwf).2.2.2.2 buf) hf,
    parse_not_no_fuel text⟩

/-- C19, at the input `[1,[2],]` and the position 3 of the inner list: `parse_value`
returns the list of 2 with the cursor moved from 3 to 6, inside the 8 bytes. -/
theorem C19_cursor_progress_witness :
    3 ≤ ['[', '1', ',', '[', '2', ']', ',', ']'].length
    ∧ parse_value 20 ⟨['[', '1', ',', '[', '2', ']', ',', ']'], 3⟩
        = .ok (value.list [value.number 2], ⟨['[', '1', ',', '[', '2', ']', ',', ']'], 6⟩)
    ∧ (3 < 6 ∧ 6 ≤ ['[', '1', ',', '[', '2', ']', ',', ']'].length)
    ∧ parse ['[', '1', ',', '[', '2', ']', ',', ']'] ≠ .error failure.no_fuel := by
  have h := C19_cursor_progress ['[', '1', ',', '[', '2', ']', ',', ']'] 3 (by decide)
  have he : parse_value 20 ⟨['[', '1', ',', '[', '2', ']', ',', ']'], 3⟩
      = .ok (value.list [value.number 2], ⟨['[', '1', ',', '[', '2', ']', ',', ']'], 6⟩) := by
    rfl
  have hp := h.1 20 _ _ he
  exact ⟨by decide, he, ⟨hp.2.1, hp.2.2⟩, h.2.2.2.2.2.2.2.2.2.2.2⟩

/-! ## The cursor before a run of skipped bytes -/

theorem cur_skip_one (pre : List Char) (w : Char) (post : List Char) (hw : is_ws w = true) :
    (cur pre (w :: post)).skip = (cur (pre ++ [w]) post).skip := by
  unfold input.skip
  have hlen : (cur pre (w :: post))._in.length - (cur pre (w :: post))._i = post.length + 1 := by
    simp [cur]
  have hlen2 : (cur (pre ++ [w]) post)._in.length - (cur (pre ++ [w]) post)._i = post.length := by
    simp [cur]; omega
  rw [hlen, hlen2]
  conv_lhs => unfold skip_loop
  have h1 : (cur pre (w :: post))._i < (cur pre (w :: post))._in.length := by simp [cur]
  rw [if_pos h1]
  simp only [cur, getElem?_at_length, hw, if_true]
  simp

theorem cur_match_at_skip_one (pre : List Char) (w : Char) (post : List Char)
    (hw : is_ws w = true) (hpost : post ≠ []) (x : Char) :
    (cur pre (w :: post)).match_at x 0 = (cur (pre ++ [w]) post).match_at x 0 := by
  unfold input.match_at
  have hp : 0 < post.length := List.length_pos.2 hpost
  have h1 : (cur pre (w :: post))._i + 0 < (cur pre (w :: post))._in.length := by simp [cur]
  have h2 : (cur (pre ++ [w]) post)._i + 0 < (cur (pre ++ [w]) post)._in.length := by
    simp [cur]; omega
  rw [if_neg (not_not.2 h1), if_neg (not_not.2 h2), cur_skip_one pre w post hw]

theorem cur_match_at_ws (ws : List Char) :
    ∀ (pre : List Char) (c : Char) (post : List Char) (x : Char),
      (∀ w ∈ ws, is_ws w = true) →
      (cur pre (ws ++ c :: post)).match_at x 0 = (cur (pre ++ ws) (c :: post)).match_at x 0 := by
  induction ws with
  | nil => intro pre c post x _; simp
  | cons w ws ih =>
    intro pre c post x hws
    rw [List.cons_append, cur_match_at_skip_one pre w _ (hws w (by simp)) (by simp),
      ih (pre ++ [w]) c post x (fun v hv => hws v (List.mem_cons_of_mem _ hv))]
    simp

theorem cur_match_ws (pre ws : List Char) (c : Char) (post : List Char)
    (hws : ∀ w ∈ ws, is_ws w = true) (hc : is_ws c = false) (x : Char) :
    (cur pre (ws ++ c :: post)).match_ x = .ok (c == x, cur (pre ++ ws) (c :: post)) := by
  unfold input.match_
  rw [cur_match_at_ws ws pre c post x hws]
  exact cur_match (pre ++ ws) c post hc x

theorem cur_match_any_ws (pre ws : List Char) (c : Char) (post : List Char)
    (hws : ∀ w ∈ ws, is_ws w = true) (hc : is_ws c = false) (x : Char) (xs : List Char) :
    (cur pre (ws ++ c :: post)).match_any (x :: xs)
      = .ok (decide (c ∈ x :: xs), cur (pre ++ ws) (c :: post)) := by
  rw [← cur_match_any (pre ++ ws) c post hc (x :: xs)]
  unfold input.match_any
  conv_lhs => unfold input.match_any_at
  conv_rhs => unfold input.match_any_at
  rw [cur_match_at_ws ws pre c post x hws]

/-! ## Claim C14: an escape that is not one of the five -/

theorem parse_dquote_loop_skip_one (f : Nat) (pre : List Char) (w : Char) (post buf : List Char)
    (hw : is_ws w = true) (hpost : post ≠ []) :
    parse_dquote_loop f (cur pre (w :: post)) buf
      = parse_dquote_loop f (cur (pre ++ [w]) post) buf := by
  cases f with
  | zero => rfl
  | succ f =>
    conv_lhs => unfold parse_dquote_loop
    conv_rhs => unfold parse_dquote_loop
    unfold input.match_
    rw [cur_match_at_skip_one pre w post hw hpost]

theorem parse_dquote_loop_illegal (c : Char) (rest : List Char)
    (hc : c ≠ '\\' ∧ c ≠ '"' ∧ c ≠ 't' ∧ c ≠ 'r' ∧ c ≠ 'n') (body : List Char) :
    ∀ (pre buf : List Char) (f : Nat), (∀ b ∈ body, b ≠ '\\' ∧ b ≠ '"') →
      body.length + 1 ≤ f →
      parse_dquote_loop f (cur pre (body ++ '\\' :: c :: rest)) buf
        = .error (thrown.parse_exception (pre.length + body.length + 1)
            "illegal escape character") := by
  induction body with
  | nil =>
    intro pre buf f _ hf
    obtain ⟨f, rfl⟩ : ∃ g, f = g + 1 := ⟨f - 1, by omega⟩
    unfold parse_dquote_loop
    obtain ⟨h1, h2, h3, h4, h5⟩ := hc
    simp only [List.nil_append, cur_match _ _ _ (show is_ws '\\' = false by decide),
      beq_self_eq_true, cur_getc, if_neg h1, if_neg h2, if_neg h3, if_neg h4, if_neg h5]
    simp [cur, input.position]
  | cons b body ih =>
    intro pre buf f hbody hf
    have hb := hbody b (by simp)
    have hrec := fun (buf1 : List Char) (g : Nat) (hg : body.length + 1 ≤ g) =>
      ih (pre ++ [b]) buf1 g (fun x hx => hbody x (List.mem_cons_of_mem _ hx)) hg
    have hpos : (pre ++ [b]).length + body.length + 1 = pre.length + (b :: body).length + 1 := by
      simp only [List.length_append, List.length_cons, List.length_nil]; omega
    rw [hpos] at hrec
    by_cases hw : is_ws b = true
    · rw [List.cons_append, parse_dquote_loop_skip_one f pre b _ buf hw (by simp)]
      exact hrec buf f (by simp at hf; omega)
    · have hw2 : is_ws b = false := by simpa using hw
      obtain ⟨f, rfl⟩ : ∃ g, f = g + 1 := ⟨f - 1, by omega⟩
      unfold parse_dquote_loop
      have e1 : (b == '\\') = false := by simpa using hb.1
      have e2 : (b == '"') = false := by simpa using hb.2
      simp only [List.cons_append, cur_match _ _ _ hw2, e1, e2, cur_getc]
      exact hrec _ f (by simp at hf; omega)

/-- C14: for every double-quoted literal whose body starts with the bytes `body`, none of
them a backslash or a double quote, followed by a backslash and a byte `c` other than
backslash, double quote, `t`, `r` and `n`, whatever comes before and after it,
`parse_string` fails with the exception "illegal escape character", and the position of
the exception is the index of `c` in the input. -/
theorem C14_illegal_escape (pre body rest : List Char) (c : Char)
    (hbody : ∀ b ∈ body, b ≠ '\\' ∧ b ≠ '"')
    (hc : c ≠ '\\' ∧ c ≠ '"' ∧ c ≠ 't' ∧ c ≠ 'r' ∧ c ≠ 'n') :
    parse_string ⟨pre ++ '"' :: (body ++ '\\' :: c :: rest), pre.length⟩
        = .error (thrown.parse_exception (pre.length + body.length + 2)
            "illegal escape character")
    ∧ (pre ++ '"' :: (body ++ '\\' :: c :: rest))[pre.length + body.length + 2]? = some c := by
  constructor
  · show parse_string (cur pre ('"' :: (body ++ '\\' :: c :: rest))) = _
    unfold parse_string
    have hq : is_ws '"' = false := by decide
    simp only [cur_match _ _ _ hq, show ('"' == '\'') = false by decide, beq_self_eq_true,
      cur_getc, cur_fuel]
    rw [parse_dquote_loop_illegal c rest hc body (pre ++ ['"']) [] _ hbody
      (by simp only [List.length_append, List.length_cons]; omega)]
    simp only [List.length_append, List.length_cons, List.length_nil]
    rw [show pre.length + (0 + 1) + body.length + 1 = pre.length + body.length + 2 by omega]
  · have h := getElem?_at_length (pre ++ '"' :: (body ++ ['\\'])) c rest
    simp only [List.length_append, List.length_cons, List.length_nil, List.append_assoc,
      List.cons_append, List.nil_append] at h
    rw [show pre.length + body.length + 2 = pre.length + (body.length + (0 + 1) + 1) by omega]
    exact h

/-- C14, at the literal `"a b\x"` behind the two bytes `[1`: the body starts with `a`, a
blank and `b`, and the backslash is followed by `x`; the exception is at index 7, where
`x` stands. -/
theorem C14_illegal_escape_witness :
    (∀ b ∈ ['a', ' ', 'b'], b ≠ '\\' ∧ b ≠ '"')
    ∧ ('x' ≠ '\\' ∧ 'x' ≠ '"' ∧ 'x' ≠ 't' ∧ 'x' ≠ 'r' ∧ 'x' ≠ 'n')
    ∧ parse_string ⟨['[', ',', '"', 'a', ' ', 'b', '\\', 'x', '"', ']'], 2⟩
        = .error (thrown.parse_exception 7 "illegal escape character")
    ∧ ['[', ',', '"', 'a', ' ', 'b', '\\', 'x', '"', ']'][7]? = some 'x' :=
  ⟨by decide, by decide,
    (C14_illegal_escape ['[', ','] ['a', ' ', 'b'] ['"', ']'] 'x' (by decide) (by decide)).1,
    (C14_illegal_escape ['[', ','] ['a', ' ', 'b'] ['"', ']'] 'x' (by decide) (by decide)).2⟩

/-! ## A key without its colon -/

theorem parse_dictionary_loop_no_colon (f : Nat) (pre : List Char) (q : Char)
    (t ws tail : List Char) (key : string_t) (buf : dictionary_t)
    (hq : q = '\'' ∨ q = '"')
    (hkey : parse_string (cur pre (q :: t ++ (ws ++ tail)))
      = .ok (key, cur (pre ++ q :: t) (ws ++ tail)))
    (hws : ∀ w ∈ ws, is_ws w = true)
    (htail : (ws = [] ∧ tail = []) ∨ ∃ c post, tail = c :: post ∧ is_ws c = false ∧ c ≠ ':') :
    parse_dictionary_loop (f + 1) (cur pre (q :: t ++ (ws ++ tail))) buf
      = .error (thrown.parse_exception (pre.length + (q :: t).length + ws.length)
          "expected :") := by
  have hqws : is_ws q = false := by rcases hq with rfl | rfl <;> decide
  have hqb : (q == '\x7d') = false := by rcases hq with rfl | rfl <;> decide
  unfold parse_dictionary_loop
  rw [List.cons_append] at hkey ⊢
  simp only [cur_match _ _ _ hqws, hqb, hkey]
  rcases htail with ⟨rfl, rfl⟩ | ⟨c, post, rfl, hc, hne⟩
  · simp only [List.append_nil, cur_match_nil]
    simp [cur, input.position]
  · have e : (c == ':') = false := by simpa using hne
    simp only [cur_match_ws _ _ _ _ hws hc, e]
    simp only [cur, input.position, List.length_append, List.length_cons]

/-- The exception "expected :" for a literal that starts with the written entries of a
plain dictionary: the key literal `q :: t` is read by `parse_string`, and is followed by
skipped bytes and a byte that is no colon, or by the end of the input. -/
theorem parse_dictionary_written_no_colon (fmt : float_t → List Char) (d : List (string_t × value))
    (q : Char) (t ws tail : List Char) (key : string_t) (f : Nat)
    (hd : plain_entries d)
    (hq : q = '\'' ∨ q = '"')
    (hkey : parse_string (cur ('\x7b' :: written_entries fmt d) (q :: t ++ (ws ++ tail)))
      = .ok (key, cur ('\x7b' :: written_entries fmt d ++ q :: t) (ws ++ tail)))
    (hws : ∀ w ∈ ws, is_ws w = true)
    (htail : (ws = [] ∧ tail = []) ∨ ∃ c post, tail = c :: post ∧ is_ws c = false ∧ c ≠ ':')
    (hf : 3 * (written_entries fmt d).length + 3 ≤ f) :
    parse_dictionary f ⟨'\x7b' :: (written_entries fmt d ++ (q :: t ++ (ws ++ tail))), 0⟩
        = .error (thrown.parse_exception
            (1 + (written_entries fmt d).length + (q :: t).length + ws.length) "expected :")
    ∧ ('\x7b' :: (written_entries fmt d ++ (q :: t ++ (ws ++ tail))))[
        1 + (written_entries fmt d).length + (q :: t).length + ws.length]? = tail.head? := by
  constructor
  · obtain ⟨f, rfl⟩ : ∃ g, f = g + 1 := ⟨f - 1, by omega⟩
    have hlen := written_entries_length fmt d
    show parse_dictionary (f + 1)
      (cur [] ('\x7b' :: (written_entries fmt d ++ (q :: t ++ (ws ++ tail))))) = _
    unfold parse_dictionary
    simp only [cur_match _ _ _ (show is_ws '\x7b' = false by decide), beq_self_eq_true,
      cur_getc, List.nil_append]
    rw [parse_dictionary_loop_written fmt d hd ['\x7b'] _ [] f (by omega)]
    obtain ⟨g, hg⟩ : ∃ g, f - d.length = g + 1 := ⟨f - d.length - 1, by omega⟩
    rw [hg, List.singleton_append,
      parse_dictionary_loop_no_colon g _ q t ws tail key _ hq hkey hws htail]
    simp only [List.length_cons]
    rw [show (written_entries fmt d).length + 1 + (t.length + 1) + ws.length
      = 1 + (written_entries fmt d).length + (t.length + 1) + ws.length by omega]
  · have hidx : 1 + (written_entries fmt d).length + (q :: t).length + ws.length
        = ('\x7b' :: (written_entries fmt d ++ (q :: t ++ ws))).length := by
      simp only [List.length_cons, List.length_append]; omega
    have htext : '\x7b' :: (written_entries fmt d ++ (q :: t ++ (ws ++ tail)))
        = ('\x7b' :: (written_entries fmt d ++ (q :: t ++ ws))) ++ tail := by
      simp
    rw [hidx, htext, List.getElem?_append_right (le_refl _), Nat.sub_self]
    cases tail <;> simp

/-! ## Claim C12: skipped bytes between the tokens of a dictionary literal -/

theorem is_ws_cases (w : Char) (hw : is_ws w = true) :
    w = ' ' ∨ w = '\t' ∨ w = '\r' ∨ w = '\n' := by
  have h : ((w = ' ' ∨ w = '\t') ∨ w = '\r') ∨ w = '\n' := by simpa [is_ws] using hw
  rcases h with ((h | h) | h) | h
  · exact Or.inl h
  · exact Or.inr (Or.inl h)
  · exact Or.inr (Or.inr (Or.inl h))
  · exact Or.inr (Or.inr (Or.inr h))

theorem is_ws_not_token (w : Char) (hw : is_ws w = true) :
    w ∉ digits ∧ w ≠ '.' ∧ w ≠ '\'' := by
  rcases is_ws_cases w hw with rfl | rfl | rfl | rfl <;> decide

theorem cur_match_any_ws_ne (pre ws : List Char) (c : Char) (post : List Char)
    (hws : ∀ w ∈ ws, is_ws w = true) (hc : is_ws c = false) (chars : List Char)
    (hne : chars ≠ []) :
    (cur pre (ws ++ c :: post)).match_any chars
      = .ok (decide (c ∈ chars), cur (pre ++ ws) (c :: post)) := by
  cases chars with
  | nil => exact absurd rfl hne
  | cons x xs => exact cur_match_any_ws pre ws c post hws hc x xs

theorem parse_digits_loop_run_ws (chars : List Char) (ds : List Char) :
    ∀ (d : Char) (pre ws : List Char) (r : Char) (rs buf : List Char) (f : Nat),
      (∀ c ∈ d :: ds, c ∈ chars ∧ is_ws c = false) → (∀ w ∈ ws, is_ws w = true) →
      is_ws r = false → r ∉ chars → ds.length + 1 ≤ f →
      parse_digits_loop chars f (cur pre (d :: ds ++ (ws ++ r :: rs))) buf
        = .ok (buf ++ d :: ds, cur (pre ++ d :: ds ++ ws) (r :: rs)) := by
  induction ds with
  | nil =>
    intro d pre ws r rs buf f hds hws hr hrc hf
    obtain ⟨f, rfl⟩ : ∃ g, f = g + 1 := ⟨f - 1, by omega⟩
    have hne : chars ≠ [] := List.ne_nil_of_mem (hds d (by simp)).1
    unfold parse_digits_loop
    simp only [List.cons_append, List.nil_append, cur_getc]
    rw [cur_match_any_ws_ne _ _ _ _ hws hr chars hne]
    simp [hrc]
  | cons d2 ds ih =>
    intro d pre ws r rs buf f hds hws hr hrc hf
    obtain ⟨f, rfl⟩ : ∃ g, f = g + 1 := ⟨f - 1, by simp at hf; omega⟩
    unfold parse_digits_loop
    simp only [List.cons_append, cur_getc]
    have h2 := hds d2 (by simp)
    rw [cur_match_any _ _ _ h2.2]
    simp only [h2.1, decide_True]
    have := ih d2 (pre ++ [d]) ws r rs (buf ++ [d]) f
      (fun c hc => hds c (List.mem_cons_of_mem _ hc)) hws hr hrc (by simp at hf; omega)
    simp only [List.cons_append] at this
    rw [this]
    simp

theorem parse_number_int_ws (n : Int) (hn : is_int32 n) (pre ws : List Char) (r : Char)
    (rs : List Char) (hws : ∀ w ∈ ws, is_ws w = true) (hr : is_ws r = false)
    (hrd : r ∉ digits) :
    parse_number (cur pre (ostream_int n ++ (ws ++ r :: rs)))
      = .ok (n, cur (pre ++ ostream_int n ++ ws) (r :: rs)) := by
  have hval := strtol_ostream_int n hn
  obtain ⟨ds, h1, h2, _, h4⟩ := ostream_int_spec n
  obtain ⟨d, ds1, rfl⟩ : ∃ d ds1, ds = d :: ds1 := by
    cases ds with
    | nil => exact absurd rfl h1
    | cons d ds1 => exact ⟨d, ds1, rfl⟩
  have hd := h2 d (by simp)
  have hrun : ∀ c ∈ d :: ds1, c ∈ digits ∧ is_ws c = false :=
    fun c hc => ⟨h2 c hc, digits_not_ws c (h2 c hc)⟩
  unfold parse_number parse_sign_digits
  by_cases hneg : n < 0
  · rw [if_pos hneg] at h4
    rw [h4] at hval ⊢
    simp only [List.cons_append]
    rw [cur_match _ _ _ (by decide)]
    simp only [beq_self_eq_true, cur_getc, cur_fuel]
    have := parse_digits_loop_run_ws digits ds1 d (pre ++ ['-']) ws r rs ['-']
      ((d :: ds1 ++ (ws ++ r :: rs)).length + 1) hrun hws hr hrd (by simp; omega)
    simp only [List.cons_append] at this
    rw [this]
    simp [hval]
  · rw [if_neg hneg] at h4
    rw [h4] at hval ⊢
    simp only [List.cons_append]
    rw [cur_match _ _ _ (digits_not_ws d hd)]
    have hm : (d == '-') = false := by simpa using digits_ne d '-' hd (by decide)
    simp only [hm, cur_fuel]
    have := parse_digits_loop_run_ws digits ds1 d pre ws r rs []
      ((d :: (ds1 ++ (ws ++ r :: rs))).length + 1) hrun hws hr hrd (by simp; omega)
    simp only [List.cons_append] at this
    rw [this]
    simp only [List.nil_append, hval]

theorem ws_run_stops (ws : List Char) (r : Char) (rs : List Char)
    (hws : ∀ w ∈ ws, is_ws w = true) (hrd : r ∉ digits) (hdot : r ≠ '.') :
    ∃ r1 rs1, ws ++ r :: rs = r1 :: rs1 ∧ r1 ∉ digits ∧ r1 ≠ '.' := by
  cases ws with
  | nil => exact ⟨r, rs, rfl, hrd, hdot⟩
  | cons w ws =>
    have h := is_ws_not_token w (hws w (by simp))
    exact ⟨w, ws ++ r :: rs, rfl, h.1, h.2.1⟩

theorem parse_number_or_float_int_ws (n : Int) (hn : is_int32 n) (pre ws : List Char)
    (r : Char) (rs : List Char) (hws : ∀ w ∈ ws, is_ws w = true) (hr : is_ws r = false)
    (hrd : r ∉ digits) (hdot : r ≠ '.') :
    parse_number_or_float (cur pre (ostream_int n ++ (ws ++ r :: rs)))
      = .ok (value.number n, cur (pre ++ ostream_int n ++ ws) (r :: rs)) := by
  have hstop : ws ++ r :: rs = [] ∨ ∃ r1 rs1, ws ++ r :: rs = r1 :: rs1 ∧ r1 ∉ digits ∧ r1 ≠ '.' :=
    Or.inr (ws_run_stops ws r rs hws hrd hdot)
  have hnum := parse_number_int_ws n hn pre ws r rs hws hr hrd
  generalize ws ++ r :: rs = rest at hstop hnum ⊢
  obtain ⟨ds, h1, h2, _, h4⟩ := ostream_int_spec n
  obtain ⟨h, t, hht, hws, _⟩ := ostream_int_head n
  have hscan : scan_for_dot ((cur pre (ostream_int n ++ rest))._in.length + 1)
      (cur pre (ostream_int n ++ rest)) 0 = .ok (false, cur pre (ostream_int n ++ rest)) := by
    rw [hht, List.cons_append]
    by_cases hneg : n < 0
    · rw [if_pos hneg, hht] at h4
      have hh : h = '-' := by injection h4
      refine scan_for_dot_digits pre h (t ++ rest) hws [] [] (h :: (t ++ rest)) _ (by simp)
        (by simp) (Or.inr ⟨h, t ++ rest, rfl, ?_, ?_⟩) (by simp)
      · rw [hh]; decide
      · rw [hh]; decide
    · rw [if_neg hneg, hht] at h4
      refine scan_for_dot_digits pre h (t ++ rest) hws ds [] rest _ (by rw [← h4]; simp)
        h2 hstop ?_
      rw [← h4]
      simp [cur]
      omega
  unfold parse_number_or_float
  rw [hscan]
  simp only [hnum]

theorem parse_value_int_ws (n : Int) (hn : is_int32 n) (pre ws : List Char)
    (r : Char) (rs : List Char) (hws : ∀ w ∈ ws, is_ws w = true) (hr : is_ws r = false)
    (hrd : r ∉ digits) (hdot : r ≠ '.') (f : Nat) :
    parse_value (f + 1) (cur pre (ostream_int n ++ (ws ++ r :: rs)))
      = .ok (value.number n, cur (pre ++ ostream_int n ++ ws) (r :: rs)) := by
  have hnum := parse_number_or_float_int_ws n hn pre ws r rs hws hr hrd hdot
  obtain ⟨h, t, hht, hws, hb1, hb2, hb3, hb4, _⟩ := ostream_int_head n
  rw [hht] at hnum ⊢
  rw [List.cons_append] at hnum ⊢
  unfold parse_value
  have e1 : (h == '\x7b') = false := by simpa using hb1
  have e2 : (h == '[') = false := by simpa using hb2
  have e3 : (h == '\'') = false := by simpa using hb3
  have e4 : (h == '"') = false := by simpa using hb4
  simp only [cur_match _ _ _ hws, e1, e2, e3, e4, hnum]

theorem parse_value_skip_ws (f : Nat) (pre ws : List Char) (c : Char) (post : List Char)
    (hws : ∀ w ∈ ws, is_ws w = true) :
    parse_value f (cur pre (ws ++ c :: post)) = parse_value f (cur (pre ++ ws) (c :: post)) := by
  cases f with
  | zero => rfl
  | succ f =>
    conv_lhs => unfold parse_value
    conv_rhs => unfold parse_value
    unfold input.match_
    rw [cur_match_at_ws ws pre c post _ hws]

theorem parse_dictionary_loop_skip_ws (f : Nat) (pre ws : List Char) (c : Char)
    (post : List Char) (buf : dictionary_t) (hws : ∀ w ∈ ws, is_ws w = true) :
    parse_dictionary_loop f (cur pre (ws ++ c :: post)) buf
      = parse_dictionary_loop f (cur (pre ++ ws) (c :: post)) buf := by
  cases f with
  | zero => rfl
  | succ f =>
    conv_lhs => unfold parse_dictionary_loop
    conv_rhs => unfold parse_dictionary_loop
    unfold input.match_
    rw [cur_match_at_ws ws pre c post _ hws]

theorem parse_value_skip_run (f : Nat) (pre ws post : List Char)
    (hws : ∀ w ∈ ws, is_ws w = true) (hpost : post ≠ []) :
    parse_value f (cur pre (ws ++ post)) = parse_value f (cur (pre ++ ws) post) := by
  cases post with
  | nil => exact absurd rfl hpost
  | cons c post => exact parse_value_skip_ws f pre ws c post hws

theorem parse_dictionary_loop_skip_run (f : Nat) (pre ws post : List Char)
    (buf : dictionary_t) (hws : ∀ w ∈ ws, is_ws w = true) (hpost : post ≠ []) :
    parse_dictionary_loop f (cur pre (ws ++ post)) buf
      = parse_dictionary_loop f (cur (pre ++ ws) post) buf := by
  cases post with
  | nil => exact absurd rfl hpost
  | cons c post => exact parse_dictionary_loop_skip_ws f pre ws c post buf hws

theorem ostream_int_ne_nil (n : Int) : ostream_int n ≠ [] := by
  obtain ⟨h, t, hht, _⟩ := ostream_int_head n
  rw [hht]
  exact List.cons_ne_nil _ _

theorem parse_value_spaced_int (n : Int) (hn : is_int32 n) (pre sp1 sp2 : List Char)
    (r : Char) (rs : List Char) (h1 : ∀ w ∈ sp1, is_ws w = true)
    (h2 : ∀ w ∈ sp2, is_ws w = true) (hr : is_ws r = false) (hrd : r ∉ digits)
    (hdot : r ≠ '.') (f : Nat) :
    parse_value (f + 1) (cur pre (sp1 ++ (ostream_int n ++ (sp2 ++ r :: rs))))
      = .ok (value.number n, cur (pre ++ sp1 ++ ostream_int n ++ sp2) (r :: rs)) := by
  rw [parse_value_skip_run (f + 1) pre sp1 _ h1
    (by simp [ostream_int_ne_nil n])]
  exact parse_value_int_ws n hn (pre ++ sp1) sp2 r rs h2 hr hrd hdot f

theorem ws_run_not_quote (ws : List Char) (r : Char) (rs : List Char)
    (hws : ∀ w ∈ ws, is_ws w = true) (hr : r ≠ '\'') :
    ws ++ r :: rs = [] ∨ ∃ r1 rs1, ws ++ r :: rs = r1 :: rs1 ∧ r1 ≠ '\'' := by
  cases ws with
  | nil => exact Or.inr ⟨r, rs, rfl, hr⟩
  | cons w ws => exact Or.inr ⟨w, ws ++ r :: rs, rfl, (is_ws_not_token w (hws w (by simp))).2.2⟩

theorem parse_dictionary_loop_spaced_step (f : Nat) (pre sp : List Char) (k : string_t)
    (n : Int) (post : List Char) (buf : dictionary_t) (hk : sq_plain k) (hn : is_int32 n)
    (hsp : ∀ w ∈ sp, is_ws w = true) :
    parse_dictionary_loop (f + 2)
        (cur pre (sq_literal k ++ (sp ++ ':' :: (sp ++ (ostream_int n ++ (sp ++ ',' :: post))))))
        buf
      = parse_dictionary_loop (f + 1)
          (cur (pre ++ sq_literal k ++ sp ++ [':'] ++ sp ++ ostream_int n ++ sp ++ [',']) post)
          (dictionary_assign k (value.number n) buf) := by
  have hkey := parse_string_sq_literal k hk pre
    (sp ++ ':' :: (sp ++ (ostream_int n ++ (sp ++ ',' :: post))))
    (ws_run_not_quote sp ':' _ hsp (by decide))
  have hcolon := cur_match_ws (pre ++ sq_literal k) sp ':'
    (sp ++ (ostream_int n ++ (sp ++ ',' :: post))) hsp (by decide) ':'
  have hval := parse_value_spaced_int n hn (pre ++ sq_literal k ++ sp ++ [':']) sp sp ','
    post hsp hsp (by decide) (by decide) (by decide) f
  have hhead : sq_literal k ++ (sp ++ ':' :: (sp ++ (ostream_int n ++ (sp ++ ',' :: post))))
      = '\'' :: ((k.map sq_escape).flatten
          ++ '\'' :: (sp ++ ':' :: (sp ++ (ostream_int n ++ (sp ++ ',' :: post))))) := by
    simp [sq_literal]
  conv_lhs => unfold parse_dictionary_loop
  rw [hhead] at hkey ⊢
  simp only [cur_match _ _ _ (show is_ws '\'' = false by decide),
    show ('\'' == '\x7d') = false by decide, hkey]
  simp only [hcolon, beq_self_eq_true, cur_getc, hval]
  simp only [cur_match _ _ _ (show is_ws ',' = false by decide), beq_self_eq_true, cur_getc]

theorem parse_dictionary_loop_spaced_last (f : Nat) (pre sp : List Char) (k : string_t)
    (n : Int) (rest : List Char) (buf : dictionary_t) (hk : sq_plain k) (hn : is_int32 n)
    (hsp : ∀ w ∈ sp, is_ws w = true) :
    parse_dictionary_loop (f + 2)
        (cur pre (sq_literal k ++ (sp ++ ':' :: (sp ++ (ostream_int n ++ (sp ++ '\x7d' :: rest))))))
        buf
      = .ok (dictionary_assign k (value.number n) buf,
          cur (pre ++ sq_literal k ++ sp ++ [':'] ++ sp ++ ostream_int n ++ sp)
            ('\x7d' :: rest)) := by
  have hkey := parse_string_sq_literal k hk pre
    (sp ++ ':' :: (sp ++ (ostream_int n ++ (sp ++ '\x7d' :: rest))))
    (ws_run_not_quote sp ':' _ hsp (by decide))
  have hcolon := cur_match_ws (pre ++ sq_literal k) sp ':'
    (sp ++ (ostream_int n ++ (sp ++ '\x7d' :: rest))) hsp (by decide) ':'
  have hval := parse_value_spaced_int n hn (pre ++ sq_literal k ++ sp ++ [':']) sp sp '\x7d'
    rest hsp hsp (by decide) (by decide) (by decide) f
  have hhead : sq_literal k ++ (sp ++ ':' :: (sp ++ (ostream_int n ++ (sp ++ '\x7d' :: rest))))
      = '\'' :: ((k.map sq_escape).flatten
          ++ '\'' :: (sp ++ ':' :: (sp ++ (ostream_int n ++ (sp ++ '\x7d' :: rest))))) := by
    simp [sq_literal]
  conv_lhs => unfold parse_dictionary_loop
  rw [hhead] at hkey ⊢
  simp only [cur_match _ _ _ (show is_ws '\'' = false by decide),
    show ('\'' == '\x7d') = false by decide, hkey]
  simp only [hcolon, beq_self_eq_true, cur_getc, hval]
  simp only [cur_match _ _ _ (show is_ws '\x7d' = false by decide),
    show ('\x7d' == ',') = false by decide]
  exact parse_dictionary_loop_end f _ rest _

theorem spaced_entries_ne_nil (sp : List Char) (p : string_t × Int)
    (es : List (string_t × Int)) : spaced_entries sp (p :: es) ≠ [] := by
  cases es <;> simp [spaced_entries, sq_literal]

theorem parse_dictionary_loop_spaced (sp : List Char) (hsp : ∀ w ∈ sp, is_ws w = true)
    (es : List (string_t × Int)) :
    (∀ p ∈ es, sq_plain p.1 ∧ is_int32 p.2) →
    ∀ (pre rest : List Char) (buf : dictionary_t) (f : Nat),
      (spaced_entries sp es).length + 1 ≤ f →
      parse_dictionary_loop f (cur pre (spaced_entries sp es ++ '\x7d' :: rest)) buf
        = .ok (es.foldl (fun b e => dictionary_assign e.1 (value.number e.2) b) buf,
            cur (pre ++ spaced_entries sp es) ('\x7d' :: rest)) := by
  induction es with
  | nil =>
    intro _ pre rest buf f hf
    obtain ⟨f, rfl⟩ : ∃ g, f = g + 1 := ⟨f - 1, by omega⟩
    simp only [spaced_entries, List.nil_append, List.append_nil, List.foldl_nil]
    exact parse_dictionary_loop_end f pre rest buf
  | cons p es ih =>
    intro hes pre rest buf f hf
    obtain ⟨k, n⟩ := p
    obtain ⟨hk, hn⟩ := hes (k, n) (by simp)
    have hklen : 2 ≤ (sq_literal k).length := by simp [sq_literal]
    cases es with
    | nil =>
      simp only [spaced_entries, List.length_append, List.length_cons] at hf ⊢
      obtain ⟨f, rfl⟩ : ∃ g, f = g + 2 := ⟨f - 2, by omega⟩
      have hstep := parse_dictionary_loop_spaced_last f pre sp k n rest buf hk hn hsp
      simp only [List.cons_append, List.append_assoc, List.singleton_append,
        List.nil_append] at hstep ⊢
      rw [hstep]
      rfl
    | cons q es1 =>
      simp only [spaced_entries, List.length_append, List.length_cons] at hf ⊢
      obtain ⟨f, rfl⟩ : ∃ g, f = g + 2 := ⟨f - 2, by omega⟩
      have hstep := parse_dictionary_loop_spaced_step f pre sp k n
        (sp ++ (spaced_entries sp (q :: es1) ++ '\x7d' :: rest)) buf hk hn hsp
      have hskip := parse_dictionary_loop_skip_run (f + 1)
        (pre ++ sq_literal k ++ sp ++ [':'] ++ sp ++ ostream_int n ++ sp ++ [','])
        sp (spaced_entries sp (q :: es1) ++ '\x7d' :: rest)
        (dictionary_assign k (value.number n) buf) hsp (by simp)
      have hrec := ih (fun p hp => hes p (List.mem_cons_of_mem _ hp))
        (pre ++ sq_literal k ++ sp ++ [':'] ++ sp ++ ostream_int n ++ sp ++ [','] ++ sp) rest
        (dictionary_assign k (value.number n) buf) (f + 1) (by omega)
      simp only [List.cons_append, List.append_assoc, List.singleton_append,
        List.nil_append] at hstep hskip hrec ⊢
      rw [hstep, hskip, hrec]
      rfl

theorem parse_spaced_dictionary (sp : List Char) (hsp : ∀ w ∈ sp, is_ws w = true)
    (es : List (string_t × Int)) (hes : ∀ p ∈ es, sq_plain p.1 ∧ is_int32 p.2) :
    parse (spaced_dictionary sp es)
      = .ok (value.dictionary (dictionary_of (es.map (fun p => (p.1, value.number p.2))))) := by
  have hfold : es.foldl (fun b e => dictionary_assign e.1 (value.number e.2) b) []
      = dictionary_of (es.map (fun p => (p.1, value.number p.2))) := by
    unfold dictionary_of
    rw [List.foldl_map]
  have hskip := parse_dictionary_loop_skip_run (3 * (spaced_dictionary sp es).length + 1)
    ['\x7b'] sp (spaced_entries sp es ++ '\x7d' :: []) [] hsp (by simp)
  have hloop := parse_dictionary_loop_spaced sp hsp es hes (['\x7b'] ++ sp) [] []
    (3 * (spaced_dictionary sp es).length + 1)
    (by simp only [spaced_dictionary, List.length_cons, List.length_append]; omega)
  rw [hfold] at hloop
  have hdict := parse_dictionary_of_loop (3 * (spaced_dictionary sp es).length + 1) []
    (sp ++ spaced_entries sp es) [] (dictionary_of (es.map (fun p => (p.1, value.number p.2))))
    (by
      simp only [List.nil_append, List.append_assoc] at hskip hloop ⊢
      rw [hskip, hloop])
  have hval : parse_value (parse_fuel (spaced_dictionary sp es))
      (cur [] (spaced_dictionary sp es))
      = .ok (value.dictionary (dictionary_of (es.map (fun p => (p.1, value.number p.2)))),
          cur (spaced_dictionary sp es) []) := by
    have hfuel : parse_fuel (spaced_dictionary sp es)
        = (3 * (spaced_dictionary sp es).length + 1 + 1) + 1 := by
      simp only [parse_fuel]
    rw [hfuel]
    unfold spaced_dictionary at hdict ⊢
    simp only [List.append_assoc] at hdict ⊢
    rw [parse_value_at_brace, hdict]
    simp
  exact parse_of_parse_value _ _ _ hval

theorem sq_plain_of_no_quote (k : string_t) (hk : ∀ c ∈ k, is_ws c = false ∧ c ≠ '\'') :
    sq_plain k := by
  refine ⟨fun c hc => (hk c hc).1, ?_⟩
  induction k with
  | nil => rfl
  | cons a k ih =>
    cases k with
    | nil => rfl
    | cons b cs =>
      have ha : (a == '\'') = false := by simpa using (hk a (by simp)).2
      have := ih (fun c hc => hk c (List.mem_cons_of_mem _ hc))
      simp only [adjacent_quotes, ha, Bool.false_and, Bool.false_or]
      exact this

/-- C12: for every list of entries whose keys hold no skipped byte (blank, tab, carriage
return, newline) and no single quote and whose values are 32-bit integers, and for every
run `sp` of skipped bytes (a single blank in particular), reading the dictionary literal
written with `sp` between every two neighbouring tokens gives the same result as reading the
literal written with no spaces: both give the dictionary built from the entries. -/
theorem C12_whitespace_between_tokens (sp : List Char) (es : List (string_t × Int))
    (hsp : ∀ w ∈ sp, is_ws w = true)
    (hes : ∀ p ∈ es, (∀ c ∈ p.1, is_ws c = false ∧ c ≠ '\'') ∧ is_int32 p.2) :
    parse (spaced_dictionary sp es) = parse (spaced_dictionary [] es)
    ∧ parse (spaced_dictionary [] es)
        = .ok (value.dictionary (dictionary_of (es.map (fun p => (p.1, value.number p.2))))) := by
  have h : ∀ p ∈ es, sq_plain p.1 ∧ is_int32 p.2 :=
    fun p hp => ⟨sq_plain_of_no_quote p.1 (hes p hp).1, (hes p hp).2⟩
  have h1 := parse_spaced_dictionary sp hsp es h
  have h2 := parse_spaced_dictionary [] (by simp) es h
  exact ⟨h1.trans h2.symm, h2⟩

/-- C12, at the entries `a` to 1 and `b` to 2 with one blank between the tokens: the texts
`{ 'a' : 1 , 'b' : 2 }` and `{'a':1,'b':2}` are read as the same dictionary. -/
theorem C12_whitespace_between_tokens_witness :
    spaced_dictionary [' '] [(['a'], 1), (['b'], 2)]
        = ['\x7b', ' ', '\'', 'a', '\'', ' ', ':', ' ', '1', ' ', ',', ' ', '\'', 'b', '\'', ' ',
            ':', ' ', '2', ' ', '\x7d']
    ∧ spaced_dictionary [] [(['a'], 1), (['b'], 2)]
        = ['\x7b', '\'', 'a', '\'', ':', '1', ',', '\'', 'b', '\'', ':', '2', '\x7d']
    ∧ parse ['\x7b', ' ', '\'', 'a', '\'', ' ', ':', ' ', '1', ' ', ',', ' ', '\'', 'b', '\'',
          ' ', ':', ' ', '2', ' ', '\x7d']
        = parse ['\x7b', '\'', 'a', '\'', ':', '1', ',', '\'', 'b', '\'', ':', '2', '\x7d']
    ∧ parse ['\x7b', '\'', 'a', '\'', ':', '1', ',', '\'', 'b', '\'', ':', '2', '\x7d']
        = .ok (value.dictionary [(['a'], value.number 1), (['b'], value.number 2)]) := by
  have h := C12_whitespace_between_tokens [' '] [(['a'], 1), (['b'], 2)] (by decide)
    (by
      intro p hp
      simp only [List.mem_cons, List.mem_singleton, List.not_mem_nil, or_false] at hp
      rcases hp with rfl | rfl <;> simp [is_ws, is_int32])
  have e1 : spaced_dictionary [' '] [(['a'], 1), (['b'], 2)]
      = ['\x7b', ' ', '\'', 'a', '\'', ' ', ':', ' ', '1', ' ', ',', ' ', '\'', 'b', '\'', ' ',
          ':', ' ', '2', ' ', '\x7d'] := by rfl
  have e2 : spaced_dictionary [] [(['a'], 1), (['b'], 2)]
      = ['\x7b', '\'', 'a', '\'', ':', '1', ',', '\'', 'b', '\'', ':', '2', '\x7d'] := by rfl
  have e3 : dictionary_of ([(['a'], (1 : Int)), (['b'], 2)].map
        (fun p => (p.1, value.number p.2)))
      = [(['a'], value.number 1), (['b'], value.number 2)] := by rfl
  rw [e1, e2, e3] at h
  exact ⟨e1, e2, h.1, h.2⟩

/-! ## Claim C21: text behind a complete top-level list -/

theorem plain_list_numbers (xs : List Int) (hxs : ∀ n ∈ xs, is_int32 n) :
    plain_list (xs.map value.number) := by
  induction xs with
  | nil => simp [plain_list]
  | cons n xs ih =>
    simp only [List.map_cons, plain_list, value.plain]
    exact ⟨hxs n (by simp), ih (fun m hm => hxs m (List.mem_cons_of_mem _ hm))⟩

theorem parse_value_written_list_then (fmt : float_t → List Char) (ys : List value)
    (hys : plain_list ys) (t : List Char) :
    parse_value (parse_fuel ((value.list ys).serialize fmt ++ t))
        (cur [] ((value.list ys).serialize fmt ++ t))
      = .ok (value.list ys, cur ((value.list ys).serialize fmt) t) := by
  have h := parse_value_written fmt (value.list ys) (by simpa [value.plain] using hys) [] t
    (parse_fuel ((value.list ys).serialize fmt ++ t)) (by simp [follows])
    (by simp only [parse_fuel, List.length_append]; omega)
  rw [List.nil_append] at h
  exact h

/-- C21: for every list `xs` of 32-bit integers and every text `t`, reading the written form
of the list followed by `t` succeeds and gives the list `xs`; `parse_value` stops with the
cursor right behind the closing bracket of the list, whatever `t` is, so the text behind a
complete top-level list is ignored and never reported as an error. -/
theorem C21_trailing_text_ignored (fmt : float_t → List Char) (xs : List Int) (t : List Char)
    (hxs : ∀ n ∈ xs, is_int32 n) :
    parse ((value.list (xs.map value.number)).serialize fmt ++ t)
        = .ok (value.list (xs.map value.number))
    ∧ parse_value (parse_fuel ((value.list (xs.map value.number)).serialize fmt ++ t))
          ⟨(value.list (xs.map value.number)).serialize fmt ++ t, 0⟩
        = .ok (value.list (xs.map value.number),
            ⟨(value.list (xs.map value.number)).serialize fmt ++ t,
              ((value.list (xs.map value.number)).serialize fmt).length⟩) := by
  have h := parse_value_written_list_then fmt (xs.map value.number)
    (plain_list_numbers xs hxs) t
  exact ⟨parse_of_parse_value _ _ _ h, h⟩

/-- C21, at the list of 1 and -2 followed by the text `]x"`: the input `[1,-2,]]x"` is read
as the list of 1 and -2, with the cursor left at index 7, before the trailing text. -/
theorem C21_trailing_text_ignored_witness :
    (∀ n ∈ [(1 : Int), -2], is_int32 n)
    ∧ (value.list ([(1 : Int), -2].map value.number)).serialize sample_fmt ++ [']', 'x', '"']
        = ['[', '1', ',', '-', '2', ',', ']', ']', 'x', '"']
    ∧ parse ['[', '1', ',', '-', '2', ',', ']', ']', 'x', '"']
        = .ok (value.list [value.number 1, value.number (-2)])
    ∧ parse_value (parse_fuel ['[', '1', ',', '-', '2', ',', ']', ']', 'x', '"'])
          ⟨['[', '1', ',', '-', '2', ',', ']', ']', 'x', '"'], 0⟩
        = .ok (value.list [value.number 1, value.number (-2)],
            ⟨['[', '1', ',', '-', '2', ',', ']', ']', 'x', '"'], 7⟩) := by
  have hxs : ∀ n ∈ [(1 : Int), -2], is_int32 n := by
    intro n hn
    simp only [List.mem_cons, List.mem_singleton, List.not_mem_nil, or_false] at hn
    rcases hn with rfl | rfl <;> simp [is_int32]
  have ht : (value.list ([(1 : Int), -2].map value.number)).serialize sample_fmt
        ++ [']', 'x', '"']
      = ['[', '1', ',', '-', '2', ',', ']', ']', 'x', '"'] := by rfl
  have h := C21_trailing_text_ignored sample_fmt [1, -2] [']', 'x', '"'] hxs
  exact ⟨hxs, ht, h.1, h.2⟩

/-! ## Claim C16: a key without its colon, after any number of entries -/

theorem parse_dictionary_loop_read_entry (f : Nat) (s : input) (buf : dictionary_t) :
    parse_dictionary_loop (f + 1) s buf
      = match s.match_ '\x7d' with
        | .error e => .error e
        | .ok (true, s1) => .ok (buf, s1)
        | .ok (false, s1) =>
          match read_entry f s1 buf with
          | .error e => .error e
          | .ok (t, buf1) => parse_dictionary_loop f t buf1 := by
  conv_lhs => unfold parse_dictionary_loop
  unfold read_entry
  cases s.match_ '\x7d' with
  | error e => rfl
  | ok p =>
    obtain ⟨b, s1⟩ := p
    cases b with
    | true => rfl
    | false =>
      dsimp only
      cases parse_string s1 with
      | error e => rfl
      | ok p2 =>
        obtain ⟨key, s2⟩ := p2
        dsimp only
        cases s2.match_ ':' with
        | error e => rfl
        | ok p3 =>
          obtain ⟨b3, s3⟩ := p3
          cases b3 with
          | false => rfl
          | true =>
            dsimp only
            cases s3.getc with
            | error e => rfl
            | ok p4 =>
              obtain ⟨c4, s4⟩ := p4
              dsimp only
              cases parse_value f s4 with
              | error e => rfl
              | ok p5 =>
                obtain ⟨v, s5⟩ := p5
                dsimp only
                cases s5.match_ ',' with
                | error e => rfl
                | ok p6 =>
                  obtain ⟨b6, s6⟩ := p6
                  cases b6 with
                  | false => rfl
                  | true =>
                    dsimp only
                    cases s6.getc with
                    | error e => rfl
                    | ok p7 => rfl

theorem entries_read_loop (n : Nat) :
    ∀ (f : Nat) (s : input) (buf : dictionary_t) (t : input) (buf1 : dictionary_t),
      entries_read n f s buf = some (t, buf1) →
      n ≤ f ∧ parse_dictionary_loop f s buf = parse_dictionary_loop (f - n) t buf1 := by
  induction n with
  | zero =>
    intro f s buf t buf1 h
    unfold entries_read at h
    injection h with h
    injection h with h1 h2
    rw [h1, h2]
    exact ⟨Nat.zero_le _, rfl⟩
  | succ n ih =>
    intro f s buf t buf1 h
    cases f with
    | zero => unfold entries_read at h; cases h
    | succ f =>
      unfold entries_read at h
      rw [parse_dictionary_loop_read_entry]
      cases hm : s.match_ '\x7d' with
      | error e => rw [hm] at h; cases h
      | ok p =>
        obtain ⟨b, s1⟩ := p
        rw [hm] at h
        cases b with
        | true => cases h
        | false =>
          dsimp only at h ⊢
          cases hr : read_entry f s1 buf with
          | error e => rw [hr] at h; cases h
          | ok q =>
            obtain ⟨t1, b1⟩ := q
            rw [hr] at h
            dsimp only at h ⊢
            obtain ⟨hle, heq⟩ := ih f t1 b1 t buf1 h
            refine ⟨by omega, ?_⟩
            rw [heq, Nat.add_sub_add_right]

theorem parse_dictionary_loop_key_no_colon (f : Nat) (s s1 : input) (buf : dictionary_t)
    (key : string_t) (pre ws tail : List Char)
    (hm : s.match_ '\x7d' = .ok (false, s1))
    (hkey : parse_string s1 = .ok (key, cur pre (ws ++ tail)))
    (hws : ∀ w ∈ ws, is_ws w = true)
    (htail : (ws = [] ∧ tail = []) ∨ ∃ c post, tail = c :: post ∧ is_ws c = false ∧ c ≠ ':') :
    parse_dictionary_loop (f + 1) s buf
      = .error (thrown.parse_exception (pre.length + ws.length) "expected :") := by
  unfold parse_dictionary_loop
  rw [hm]
  dsimp only
  rw [hkey]
  dsimp only
  rcases htail with ⟨rfl, rfl⟩ | ⟨c, post, rfl, hc, hne⟩
  · simp only [List.append_nil, cur_match_nil]
    simp [cur, input.position]
  · have e : (c == ':') = false := by simpa using hne
    simp only [cur_match_ws _ _ _ _ hws hc, e]
    simp only [cur, input.position, List.length_append]

theorem parse_dictionary_key_no_colon (n f : Nat) (s : input) (key : string_t) (pre ws tail : List Char)
    (hkey : key_read n f s = some (key, cur pre (ws ++ tail)))
    (hws : ∀ w ∈ ws, is_ws w = true)
    (htail : (ws = [] ∧ tail = []) ∨ ∃ c post, tail = c :: post ∧ is_ws c = false ∧ c ≠ ':')
    (hf : n < f) :
    parse_dictionary (f + 1) s
        = .error (thrown.parse_exception (pre.length + ws.length) "expected :")
    ∧ (pre ++ (ws ++ tail))[pre.length + ws.length]? = tail.head? := by
  constructor
  · unfold key_read at hkey
    unfold parse_dictionary
    cases h1 : s.match_ '\x7b' with
    | error e => rw [h1] at hkey; cases hkey
    | ok p =>
      obtain ⟨b, s1⟩ := p
      rw [h1] at hkey
      cases b with
      | false => cases hkey
      | true =>
        dsimp only at hkey ⊢
        cases h2 : s1.getc with
        | error e => rw [h2] at hkey; cases hkey
        | ok p2 =>
          obtain ⟨c2, s2⟩ := p2
          rw [h2] at hkey
          dsimp only at hkey ⊢
          cases h3 : entries_read n f s2 [] with
          | none => rw [h3] at hkey; cases hkey
          | some q =>
            obtain ⟨s3, buf⟩ := q
            rw [h3] at hkey
            dsimp only at hkey
            obtain ⟨hle, heq⟩ := entries_read_loop n f s2 [] s3 buf h3
            obtain ⟨g, hg⟩ : ∃ g, f - n = g + 1 := ⟨f - n - 1, by omega⟩
            rw [heq, hg]
            cases h4 : s3.match_ '\x7d' with
            | error e => rw [h4] at hkey; cases hkey
            | ok p4 =>
              obtain ⟨b4, s4⟩ := p4
              rw [h4] at hkey
              cases b4 with
              | true => cases hkey
              | false =>
                dsimp only at hkey
                cases h5 : parse_string s4 with
                | error e => rw [h5] at hkey; cases hkey
                | ok p5 =>
                  obtain ⟨key5, s5⟩ := p5
                  rw [h5] at hkey
                  dsimp only at hkey
                  injection hkey with hkey
                  injection hkey with hk1 hk2
                  rw [hk1, hk2] at h5
                  rw [parse_dictionary_loop_key_no_colon g s3 s4 buf key pre ws tail h4 h5
                    hws htail]
  · have hidx : pre.length + ws.length = (pre ++ ws).length := by simp
    rw [hidx, ← List.append_assoc, List.getElem?_append_right (le_refl _), Nat.sub_self]
    cases tail <;> simp

theorem parse_closing_end (q : Char) (mes : String) (buf : List Char) (s : input)
    (str : string_t) (t : input) (h : parse_closing q mes buf s = .ok (str, t)) :
    t._i ≤ t._in.length := by
  unfold parse_closing at h
  cases h1 : s.match_ q with
  | error e => rw [h1] at h; cases h
  | ok p =>
    obtain ⟨b, s1⟩ := p
    rw [h1] at h
    cases b with
    | false => cases h
    | true =>
      dsimp only at h
      cases h2 : s1.getc with
      | error e => rw [h2] at h; cases h
      | ok p2 =>
        obtain ⟨c, s2⟩ := p2
        rw [h2] at h
        injection h with h
        injection h with _ ht
        obtain ⟨a1, _, a3⟩ := getc_advances s1 c s2 h2
        rw [← ht, a1]
        exact a3

theorem parse_string_end (s : input) (key : string_t) (t : input)
    (h : parse_string s = .ok (key, t)) : t._i ≤ t._in.length := by
  unfold parse_string at h
  cases h1 : s.match_ '\'' with
  | error e => rw [h1] at h; cases h
  | ok p =>
    obtain ⟨b, s1⟩ := p
    rw [h1] at h
    cases b with
    | true =>
      dsimp only at h
      cases h2 : s1.getc with
      | error e => rw [h2] at h; cases h
      | ok p2 =>
        obtain ⟨c, s2⟩ := p2
        rw [h2] at h
        dsimp only at h
        cases h3 : parse_squote_loop s2.fuel s2 [] with
        | error e => rw [h3] at h; cases h
        | ok p3 =>
          obtain ⟨buf, s3⟩ := p3
          rw [h3] at h
          exact parse_closing_end _ _ _ _ _ _ h
    | false =>
      dsimp only at h
      cases h2 : s1.match_ '"' with
      | error e => rw [h2] at h; cases h
      | ok p2 =>
        obtain ⟨b2, s2⟩ := p2
        rw [h2] at h
        cases b2 with
        | false => cases h
        | true =>
          dsimp only at h
          cases h3 : s2.getc with
          | error e => rw [h3] at h; cases h
          | ok p3 =>
            obtain ⟨c, s3⟩ := p3
            rw [h3] at h
            dsimp only at h
            cases h4 : parse_dquote_loop s3.fuel s3 [] with
            | error e => rw [h4] at h; cases h
            | ok p4 =>
              obtain ⟨buf, s4⟩ := p4
              rw [h4] at h
              exact parse_closing_end _ _ _ _ _ _ h

theorem key_read_end (n f : Nat) (s : input) (key : string_t) (t : input)
    (h : key_read n f s = some (key, t)) : t._i ≤ t._in.length := by
  unfold key_read at h
  cases h1 : s.match_ '\x7b' with
  | error e => rw [h1] at h; cases h
  | ok p =>
    obtain ⟨b, s1⟩ := p
    rw [h1] at h
    cases b with
    | false => cases h
    | true =>
      dsimp only at h
      cases h2 : s1.getc with
      | error e => rw [h2] at h; cases h
      | ok p2 =>
        obtain ⟨c2, s2⟩ := p2
        rw [h2] at h
        dsimp only at h
        cases h3 : entries_read n f s2 [] with
        | none => rw [h3] at h; cases h
        | some q =>
          obtain ⟨s3, buf⟩ := q
          rw [h3] at h
          dsimp only at h
          cases h4 : s3.match_ '\x7d' with
          | error e => rw [h4] at h; cases h
          | ok p4 =>
            obtain ⟨b4, s4⟩ := p4
            rw [h4] at h
            cases b4 with
            | true => cases h
            | false =>
              dsimp only at h
              cases h5 : parse_string s4 with
              | error e => rw [h5] at h; cases h
              | ok p5 =>
                obtain ⟨key5, s5⟩ := p5
                rw [h5] at h
                dsimp only at h
                injection h with h
                injection h with _ hk2
                rw [← hk2]
                exact parse_string_end s4 key5 s5 h5

theorem cur_take_drop (t : input) (h : t._i ≤ t._in.length) :
    cur (t._in.take t._i)
        ((t._in.drop t._i).takeWhile is_ws ++ (t._in.drop t._i).dropWhile is_ws) = t := by
  obtain ⟨text, i⟩ := t
  simp only [cur, List.takeWhile_append_dropWhile, List.take_append_drop, List.length_take]
  rw [Nat.min_eq_left h]

theorem dropWhile_head_not (p : Char → Bool) (l : List Char) (c : Char) (post : List Char)
    (h : l.dropWhile p = c :: post) : p c = false := by
  induction l with
  | nil => simp at h
  | cons a l ih =>
    by_cases ha : p a = true
    · rw [List.dropWhile_cons_of_pos ha] at h
      exact ih h
    · rw [List.dropWhile_cons_of_neg ha] at h
      injection h with h1 _
      rw [← h1]
      simpa using ha

/-- C16: whenever `parse_dictionary` has read the opening brace of a dictionary literal and
any number `n` of entries, whatever their keys and values and the skipped bytes between
them are, and then reads a key string successfully, leaving the cursor `t` behind the key:
if the first byte behind the key that is not skipped (blank, tab, carriage return,
newline) exists and is not a colon, or if the input ends right behind the key,
`parse_dictionary` fails with the exception "expected :", and the position of the
exception is the index of that byte, or the length of the input. -/
theorem C16_expected_colon (n f : Nat) (s t : input) (key : string_t)
    (hkey : key_read n f s = some (key, t))
    (hnext : t._i = t._in.length
      ∨ ∃ c post, (t._in.drop t._i).dropWhile is_ws = c :: post ∧ c ≠ ':')
    (hf : n < f) :
    parse_dictionary (f + 1) s
        = .error (thrown.parse_exception
            (t._i + ((t._in.drop t._i).takeWhile is_ws).length) "expected :")
    ∧ t._in[t._i + ((t._in.drop t._i).takeWhile is_ws).length]?
        = ((t._in.drop t._i).dropWhile is_ws).head? := by
  have hend := key_read_end n f s key t hkey
  have hcur := cur_take_drop t hend
  have hws : ∀ w ∈ (t._in.drop t._i).takeWhile is_ws, is_ws w = true :=
    fun w hw => List.mem_takeWhile_imp hw
  have htail : ((t._in.drop t._i).takeWhile is_ws = [] ∧ (t._in.drop t._i).dropWhile is_ws = [])
      ∨ ∃ c post, (t._in.drop t._i).dropWhile is_ws = c :: post ∧ is_ws c = false ∧ c ≠ ':' := by
    rcases hnext with h | ⟨c, post, h1, h2⟩
    · have : t._in.drop t._i = [] := List.drop_eq_nil_of_le (by omega)
      rw [this]
      exact Or.inl ⟨rfl, rfl⟩
    · exact Or.inr ⟨c, post, h1, dropWhile_head_not is_ws _ c post h1, h2⟩
  rw [← hcur] at hkey
  have h := parse_dictionary_key_no_colon n f s key (t._in.take t._i)
    ((t._in.drop t._i).takeWhile is_ws) ((t._in.drop t._i).dropWhile is_ws) hkey hws htail hf
  have hlen : (t._in.take t._i).length = t._i := by
    rw [List.length_take]; exact Nat.min_eq_left hend
  rw [hlen, List.takeWhile_append_dropWhile, List.take_append_drop] at h
  exact h

/-- C16, at five literals, each read with the fuel 21: `{ 'a' =1}` (a blank before the first
key), `{"k":1,'b' =2}` (a double-quoted key before), `{'a' : 1 , 'b' =2}` (blanks between
the tokens before), `{'a':1.5,'b' =2}` (a `double` before) and `{'a':1,"b"` (the input ends
behind the key): the key is read, and the exception "expected :" is thrown at the index of
the `=`, which is 6, 11, 15 and 13, or at the end of the input, 10. -/
theorem C16_expected_colon_witness :
    key_read 0 20 ⟨['\x7b', ' ', '\'', 'a', '\'', ' ', '=', '1', '\x7d'], 0⟩
        = some (['a'], ⟨['\x7b', ' ', '\'', 'a', '\'', ' ', '=', '1', '\x7d'], 5⟩)
    ∧ parse_dictionary 21 ⟨['\x7b', ' ', '\'', 'a', '\'', ' ', '=', '1', '\x7d'], 0⟩
        = .error (thrown.parse_exception 6 "expected :")
    ∧ ['\x7b', ' ', '\'', 'a', '\'', ' ', '=', '1', '\x7d'][6]? = some '='
    ∧ key_read 1 20 ⟨['\x7b', '"', 'k', '"', ':', '1', ',', '\'', 'b', '\'', ' ', '=', '2',
        '\x7d'], 0⟩ = some (['b'], ⟨['\x7b', '"', 'k', '"', ':', '1', ',', '\'', 'b', '\'', ' ',
        '=', '2', '\x7d'], 10⟩)
    ∧ parse_dictionary 21 ⟨['\x7b', '"', 'k', '"', ':', '1', ',', '\'', 'b', '\'', ' ', '=', '2',
        '\x7d'], 0⟩ = .error (thrown.parse_exception 11 "expected :")
    ∧ ['\x7b', '"', 'k', '"', ':', '1', ',', '\'', 'b', '\'', ' ', '=', '2', '\x7d'][11]?
        = some '='
    ∧ key_read 1 20 ⟨['\x7b', '\'', 'a', '\'', ' ', ':', ' ', '1', ' ', ',', ' ', '\'', 'b',
        '\'', ' ', '=', '2', '\x7d'], 0⟩ = some (['b'], ⟨['\x7b', '\'', 'a', '\'', ' ', ':', ' ',
        '1', ' ', ',', ' ', '\'', 'b', '\'', ' ', '=', '2', '\x7d'], 14⟩)
    ∧ parse_dictionary 21 ⟨['\x7b', '\'', 'a', '\'', ' ', ':', ' ', '1', ' ', ',', ' ', '\'',
        'b', '\'', ' ', '=', '2', '\x7d'], 0⟩ = .error (thrown.parse_exception 15 "expected :")
    ∧ ['\x7b', '\'', 'a', '\'', ' ', ':', ' ', '1', ' ', ',', ' ', '\'', 'b', '\'', ' ', '=',
        '2', '\x7d'][15]? = some '='
    ∧ key_read 1 20 ⟨['\x7b', '\'', 'a', '\'', ':', '1', '.', '5', ',', '\'', 'b', '\'', ' ',
        '=', '2', '\x7d'], 0⟩ = some (['b'], ⟨['\x7b', '\'', 'a', '\'', ':', '1', '.', '5', ',',
        '\'', 'b', '\'', ' ', '=', '2', '\x7d'], 12⟩)
    ∧ parse_dictionary 21 ⟨['\x7b', '\'', 'a', '\'', ':', '1', '.', '5', ',', '\'', 'b', '\'',
        ' ', '=', '2', '\x7d'], 0⟩ = .error (thrown.parse_exception 13 "expected :")
    ∧ ['\x7b', '\'', 'a', '\'', ':', '1', '.', '5', ',', '\'', 'b', '\'', ' ', '=', '2',
        '\x7d'][13]? = some '='
    ∧ key_read 1 20 ⟨['\x7b', '\'', 'a', '\'', ':', '1', ',', '"', 'b', '"'], 0⟩
        = some (['b'], ⟨['\x7b', '\'', 'a', '\'', ':', '1', ',', '"', 'b', '"'], 10⟩)
    ∧ parse_dictionary 21 ⟨['\x7b', '\'', 'a', '\'', ':', '1', ',', '"', 'b', '"'], 0⟩
        = .error (thrown.parse_exception 10 "expected :")
    ∧ ['\x7b', '\'', 'a', '\'', ':', '1', ',', '"', 'b', '"'][10]? = none := by
  have k0 : key_read 0 20 ⟨['\x7b', ' ', '\'', 'a', '\'', ' ', '=', '1', '\x7d'], 0⟩
      = some (['a'], ⟨['\x7b', ' ', '\'', 'a', '\'', ' ', '=', '1', '\x7d'], 5⟩) := by rfl
  have h0 := C16_expected_colon 0 20 ⟨['\x7b', ' ', '\'', 'a', '\'', ' ', '=', '1', '\x7d'], 0⟩
      ⟨['\x7b', ' ', '\'', 'a', '\'', ' ', '=', '1', '\x7d'], 5⟩ ['a'] k0 (Or.inr ⟨'=', ['1',
      '\x7d'], by rfl, by decide⟩) (by decide)
  have k1 : key_read 1 20 ⟨['\x7b', '"', 'k', '"', ':', '1', ',', '\'', 'b', '\'', ' ', '=', '2',
      '\x7d'], 0⟩ = some (['b'], ⟨['\x7b', '"', 'k', '"', ':', '1', ',', '\'', 'b', '\'', ' ',
      '=', '2', '\x7d'], 10⟩) := by rfl
  have h1 := C16_expected_colon 1 20 ⟨['\x7b', '"', 'k', '"', ':', '1', ',', '\'', 'b', '\'',
      ' ', '=', '2', '\x7d'], 0⟩ ⟨['\x7b', '"', 'k', '"', ':', '1', ',', '\'', 'b', '\'', ' ',
      '=', '2', '\x7d'], 10⟩ ['b'] k1 (Or.inr ⟨'=', ['2', '\x7d'], by rfl, by decide⟩) (by decide)
  have k2 : key_read 1 20 ⟨['\x7b', '\'', 'a', '\'', ' ', ':', ' ', '1', ' ', ',', ' ', '\'',
      'b', '\'', ' ', '=', '2', '\x7d'], 0⟩ = some (['b'], ⟨['\x7b', '\'', 'a', '\'', ' ', ':',
      ' ', '1', ' ', ',', ' ', '\'', 'b', '\'', ' ', '=', '2', '\x7d'], 14⟩) := by rfl
  have h2 := C16_expected_colon 1 20 ⟨['\x7b', '\'', 'a', '\'', ' ', ':', ' ', '1', ' ', ',',
      ' ', '\'', 'b', '\'', ' ', '=', '2', '\x7d'], 0⟩ ⟨['\x7b', '\'', 'a', '\'', ' ', ':', ' ',
      '1', ' ', ',', ' ', '\'', 'b', '\'', ' ', '=', '2', '\x7d'], 14⟩ ['b'] k2 (Or.inr ⟨'=',
      ['2', '\x7d'], by rfl, by decide⟩) (by decide)
  have k3 : key_read 1 20 ⟨['\x7b', '\'', 'a', '\'', ':', '1', '.', '5', ',', '\'', 'b', '\'',
      ' ', '=', '2', '\x7d'], 0⟩ = some (['b'], ⟨['\x7b', '\'', 'a', '\'', ':', '1', '.', '5',
      ',', '\'', 'b', '\'', ' ', '=', '2', '\x7d'], 12⟩) := by rfl
  have h3 := C16_expected_colon 1 20 ⟨['\x7b', '\'', 'a', '\'', ':', '1', '.', '5', ',', '\'',
      'b', '\'', ' ', '=', '2', '\x7d'], 0⟩ ⟨['\x7b', '\'', 'a', '\'', ':', '1', '.', '5', ',',
      '\'', 'b', '\'', ' ', '=', '2', '\x7d'], 12⟩ ['b'] k3 (Or.inr ⟨'=', ['2',
      '\x7d'], by rfl, by decide⟩) (by decide)
  have k4 : key_read 1 20 ⟨['\x7b', '\'', 'a', '\'', ':', '1', ',', '"', 'b', '"'], 0⟩
      = some (['b'], ⟨['\x7b', '\'', 'a', '\'', ':', '1', ',', '"', 'b', '"'], 10⟩) := by rfl
  have h4 := C16_expected_colon 1 20 ⟨['\x7b', '\'', 'a', '\'', ':', '1', ',', '"', 'b', '"'], 0⟩
      ⟨['\x7b', '\'', 'a', '\'', ':', '1', ',', '"', 'b', '"'], 10⟩ ['b'] k4 (Or.inl rfl)
      (by decide)
  exact ⟨k0, h0.1, h0.2, k1, h1.1, h1.2, k2, h2.1, h2.2, k3, h3.1, h3.2, k4, h4.1, h4.2⟩

end lolivimson
